import Mathlib

/-!
Verification development for the nbtify NBT (Named Binary Tag) library.

The TypeScript sources are shallowly embedded:
* JavaScript 32-bit integer operations (the semantics of `|`, `&`, `^`,
  `<<`, `>>`, `>>>` after ToInt32/ToUint32 coercion) are modelled over `ℤ`
  with explicit reduction modulo `2^32`.
* JavaScript `BigInt` operations are modelled by `ℤ` with the
  two's-complement bitwise operations `Int.lor/land/xor`.
* State (a cursor over a fixed byte buffer) is passed explicitly; loops
  and recursion are driven by an explicit fuel argument; fallible code
  returns `Except`.
-/

namespace Nbtify

/-- ECMAScript ToUint32: the unsigned 32-bit pattern of a number
(restricted here to integral values). -/
def u32 (x : ℤ) : ℕ := (x % (2 ^ 32 : ℤ)).toNat

/-- Interpret an unsigned 32-bit pattern as a signed (two's-complement)
32-bit integer. -/
def sint32 (u : ℕ) : ℤ :=
  if u % 2 ^ 32 < 2 ^ 31 then (u % 2 ^ 32 : ℤ) else (u % 2 ^ 32 : ℤ) - 2 ^ 32

/-- ECMAScript ToInt32 on integral values. -/
def toInt32 (x : ℤ) : ℤ := sint32 (u32 x)

/-- JavaScript 32-bit bitwise XOR (`^`). -/
def jsXor (x y : ℤ) : ℤ := sint32 (u32 x ^^^ u32 y)

/-- JavaScript 32-bit bitwise AND (`&`). -/
def jsAnd (x y : ℤ) : ℤ := sint32 (u32 x &&& u32 y)

/-- JavaScript 32-bit bitwise OR (`|`). -/
def jsOr (x y : ℤ) : ℤ := sint32 (u32 x ||| u32 y)

/-- JavaScript 32-bit left shift (`<<`); the shift count is taken mod 32. -/
def jsShl (x : ℤ) (k : ℕ) : ℤ := sint32 (u32 x <<< (k % 32))

/-- JavaScript sign-propagating right shift (`>>`); the shift count is
taken mod 32.  On a 32-bit value arithmetic shift is floored division. -/
def jsSar (x : ℤ) (k : ℕ) : ℤ := Int.fdiv (toInt32 x) ((2 : ℤ) ^ (k % 32))

/-- JavaScript zero-fill right shift (`>>>`); the result is unsigned. -/
def jsUshr (x : ℤ) (k : ℕ) : ℤ := ((u32 x >>> (k % 32) : ℕ) : ℤ)

/-- JavaScript 32-bit negation as used in `-(n & 1)` under int32 coercion. -/
def jsNeg (x : ℤ) : ℤ := toInt32 (-(toInt32 x))

/-- Source `NBTReader.#readVarIntZigZag` final expression:
`((((result << 63) >> 63) ^ result) >> 1) ^ (result & (1 << 63))`
under JavaScript 32-bit operator semantics. -/
def zigzagDecode32 (result : ℤ) : ℤ :=
  jsXor (jsSar (jsXor (jsSar (jsShl result 63) 63) result) 1)
    (jsAnd result (jsShl 1 63))

/-- The spec's reference zig-zag decode `(n >>> 1) ^ -(n & 1)` with a
logical right shift, over two's-complement 32-bit arithmetic. -/
def zigzagRef32 (n : ℤ) : ℤ := jsXor (jsUshr n 1) (jsNeg (jsAnd n 1))

/-- Source `NBTReader.#readVarLongZigZag` final expression over BigInt:
`(result >> 1n) ^ -(result & 1n)`. -/
def zigzagDecode64 (n : ℤ) : ℤ := Int.xor (n >>> (1 : ℕ)) (-Int.land n 1)

/- Source: src/primitive.ts.  Each wrapper class normalizes its argument
in its constructor; the stored value is `super(...)`'s argument. -/

/-- Source `class Byte`: constructor stores `value << 24 >> 24`. -/
def byteCtor (value : ℤ) : ℤ := jsSar (jsShl value 24) 24

/-- Source `class Short`: constructor stores `value << 16 >> 16`. -/
def shortCtor (value : ℤ) : ℤ := jsSar (jsShl value 16) 16

/-- Source `class Int`: constructor stores `value | 0`. -/
def intCtor (value : ℤ) : ℤ := jsOr value 0

/-- Source `class Float`: constructor stores `value` unchanged
(`super(value)`, with no narrowing applied). -/
def floatCtor (value : ℚ) : ℚ := value

/-- Number of binary digits of a natural number (0 for 0), computed by
structural recursion on a fuel so that the kernel can evaluate it. -/
def bitLenAux : ℕ → ℕ → ℕ
  | 0, _ => 0
  | fuel + 1, n => if n = 0 then 0 else bitLenAux fuel (n / 2) + 1

/-- Number of binary digits of a natural number. -/
def bitLen (n : ℕ) : ℕ := bitLenAux n n

/-- Modelled from the spec: "single-precision narrowing for F32" on
integer-valued inputs — round-to-nearest, ties-to-even, at a 24-bit
significand (the IEEE-754 binary32 significand width).  The exponent
range plays no role at the magnitudes considered here. -/
def froundNat (m : ℕ) : ℕ :=
  if m < 2 ^ 24 then m
  else
    let bits := bitLen m
    let s := bits - 24
    let q := m >>> s
    let r := m % 2 ^ s
    let h := 2 ^ (s - 1)
    let q2 := if h < r ∨ (r = h ∧ q % 2 = 1) then q + 1 else q
    q2 <<< s

/-- Modelled from the spec: single-precision rounding of an integer. -/
def froundInt (n : ℤ) : ℤ :=
  Int.sign n * froundNat n.natAbs

def backslashChar : Char := Char.ofNat 92

def singleQuoteChar : Char := Char.ofNat 39

def doubleQuoteChar : Char := Char.ofNat 34

/-- Source `escapeChar` applied through `String.replace` with the global
pattern `[<quote>\\]`: each occurrence of the quote character or a
backslash is replaced by a backslash followed by that character. -/
def escapeChars (quote : Char) (text : List Char) : List Char :=
  text.flatMap fun c =>
    if c = quote ∨ c = backslashChar then [backslashChar, c] else [c]

/-- Source `escapeWithQuotes` (src/bin/index.ts): build both escaped
bodies and pick single quotes exactly when that body is strictly
shorter, otherwise double quotes. -/
def escapeWithQuotes (text : List Char) : List Char :=
  if (escapeChars singleQuoteChar text).length
      < (escapeChars doubleQuoteChar text).length then
    singleQuoteChar :: escapeChars singleQuoteChar text ++ [singleQuoteChar]
  else
    doubleQuoteChar :: escapeChars doubleQuoteChar text ++ [doubleQuoteChar]

/-- The compression schemes accepted by `read`; `Option CompressionKind`
with `none` models the `null` (no compression) setting. -/
inductive CompressionKind where
  | gzip
  | deflate
  | deflateRaw
deriving DecidableEq, Repr

/-- Source `NBTReader.hasGzipHeader`: `getUint16(0, false) === 0x1F8B`.
A `DataView` read beyond the buffer end throws a RangeError. -/
def hasGzipHeader (data : List ℕ) : Except Unit Bool :=
  if data.length < 2 then .error ()
  else .ok (decide (data.getD 0 0 * 256 + data.getD 1 0 = 0x1F8B))

/-- Source `NBTReader.hasZlibHeader`: `getUint8(0) === 0x78`. -/
def hasZlibHeader (data : List ℕ) : Except Unit Bool :=
  if data.length < 1 then .error ()
  else .ok (decide (data.getD 0 0 = 0x78))

/-- Source `read`, compression-resolution step (the labelled
`compression:` block).  The recursive calls
`read(data, {...options, compression: c})` are represented by the
continuation `attempt c`, which performs the rest of the decode with the
compression pinned to `c`.  A thrown header-probe RangeError surfaces as
`rangeErr`. -/
def readCompressionDispatch {E R : Type} (rangeErr : E)
    (attempt : Option CompressionKind → Except E R) (data : List ℕ) :
    Except E R :=
  match hasGzipHeader data with
  | .error _ => .error rangeErr
  | .ok true => attempt (some .gzip)
  | .ok false =>
    match hasZlibHeader data with
    | .error _ => .error rangeErr
    | .ok true => attempt (some .deflate)
    | .ok false =>
      match attempt none with
      | .ok r => .ok r
      | .error e =>
        match attempt (some .deflateRaw) with
        | .ok r => .ok r
        | .error _ => .error e

/-- A byte buffer (entries are bytes, 0–255). -/
abbrev Bytes := List ℕ

/-- The in-memory tag tree produced by the binary reader.  JavaScript
strings are modelled as lists of UTF-16 code units.  FLOAT and DOUBLE
payloads are modelled by their raw IEEE-754 bit patterns: `getFloat32`
and `getFloat64` are external built-ins and the reader stores their
result without inspecting it (this identification is faithful up to
NaN-payload collapse, which no claim here exercises). -/
inductive NTag where
  | byte (v : ℤ)
  | boolean (b : Bool)
  | short (v : ℤ)
  | int (v : ℤ)
  | long (v : ℤ)
  | float (bits : ℕ)
  | double (bits : ℕ)
  | byteArray (v : List ℤ)
  | str (s : List ℕ)
  | list (elemType : ℕ) (xs : List NTag)
  | compound (entries : List (List ℕ × NTag))
  | intArray (v : List ℤ)
  | longArray (v : List ℤ)

/-- The result of `NBTReader.readRoot`: the root tag and the root name
(`null` when anonymous).  The endian/compression/bedrock fields of the
returned `NBTData` are the (fixed) reader parameters and are omitted. -/
structure ReadResult where
  root : NTag
  name : Option (List ℕ)

/-- Error outcomes of the binary reader.  `fuelOut` is not a source
error: it marks exhaustion of the explicit fuel that drives recursion in
this embedding. -/
inductive RdErr where
  | underflow
  | rangeError
  | badTag (t : ℕ)
  | endTag
  | rootType (t : ℕ)
  | varTooBig
  | trailing (byteOffset : ℤ) (remaining : ℤ) (cause : ReadResult)
  | fuelOut

/-- Source `NBTReader.#allocate`: fail when the requested byte count
extends past the end of the buffer. -/
def allocate (buf : Bytes) (off k : ℤ) : Except RdErr Unit :=
  if off + k > (buf.length : ℤ) then .error .underflow else .ok ()

/-- A `DataView.getUint8` access: throws a RangeError outside bounds. -/
def getU8 (buf : Bytes) (o : ℤ) : Except RdErr ℕ :=
  if 0 ≤ o ∧ o + 1 ≤ (buf.length : ℤ) then .ok (buf.getD o.toNat 0)
  else .error .rangeError

/-- A `DataView` multi-byte access of width `k` at offset `o`. -/
def getBytes (buf : Bytes) (o : ℤ) (k : ℕ) : Except RdErr Bytes :=
  if 0 ≤ o ∧ o + k ≤ (buf.length : ℤ) then .ok ((buf.drop o.toNat).take k)
  else .error .rangeError

/-- Big-endian value of a byte list. -/
def beVal (bs : Bytes) : ℕ := bs.foldl (fun acc b => acc * 256 + b) 0

/-- `DataView` byte order: reverse the bytes for little-endian reads. -/
def dvOrder (littleEndian : Bool) (bs : Bytes) : Bytes :=
  if littleEndian then bs.reverse else bs

/-- Two's-complement interpretation at width `w` bits. -/
def toSigned (w : ℕ) (u : ℕ) : ℤ :=
  if u % 2 ^ w < 2 ^ (w - 1) then (u % 2 ^ w : ℤ)
  else (u % 2 ^ w : ℤ) - 2 ^ w

/-- `TypedArray.prototype.subarray` index clamping. -/
def jsIndexClamp (len : ℕ) (i : ℤ) : ℕ :=
  if i < 0 then ((len : ℤ) + i).toNat.min len else i.toNat.min len

/-- Source `data.subarray(a, b)`. -/
def subarray (buf : Bytes) (a b : ℤ) : Bytes :=
  (buf.take (jsIndexClamp buf.length b)).drop (jsIndexClamp buf.length a)

/-- Source `NBTReader.#readUnsignedByte`. -/
def readUnsignedByteP (buf : Bytes) (off : ℤ) : Except RdErr (ℕ × ℤ) := do
  let _ ← allocate buf off 1
  let v ← getU8 buf off
  pure (v, off + 1)

/-- Source `NBTReader.#readByte` (signed, `getInt8`). -/
def readByteP (buf : Bytes) (off : ℤ) : Except RdErr (ℤ × ℤ) := do
  let _ ← allocate buf off 1
  let v ← getU8 buf off
  pure (toSigned 8 v, off + 1)

/-- Source `NBTReader.#readShort` non-varint path (`getInt16`). -/
def readShortFixed (buf : Bytes) (le : Bool) (off : ℤ) :
    Except RdErr (ℤ × ℤ) := do
  let _ ← allocate buf off 2
  let bs ← getBytes buf off 2
  pure (toSigned 16 (beVal (dvOrder le bs)), off + 2)

/-- `getUint16` as used by the non-varint `#readUnsignedShort`. -/
def readUnsignedShortFixed (buf : Bytes) (le : Bool) (off : ℤ) :
    Except RdErr (ℤ × ℤ) := do
  let _ ← allocate buf off 2
  let bs ← getBytes buf off 2
  pure ((beVal (dvOrder le bs) : ℤ), off + 2)

/-- `getInt32` as used by the non-varint `#readInt`. -/
def readIntFixed (buf : Bytes) (le : Bool) (off : ℤ) :
    Except RdErr (ℤ × ℤ) := do
  let _ ← allocate buf off 4
  let bs ← getBytes buf off 4
  pure (toSigned 32 (beVal (dvOrder le bs)), off + 4)

/-- `getUint32` as used by the non-varint `#readUnsignedInt`. -/
def readUnsignedIntFixed (buf : Bytes) (le : Bool) (off : ℤ) :
    Except RdErr (ℤ × ℤ) := do
  let _ ← allocate buf off 4
  let bs ← getBytes buf off 4
  pure ((beVal (dvOrder le bs) : ℤ), off + 4)

/-- `getBigInt64` as used by the non-varint `#readLong`. -/
def readLongFixed (buf : Bytes) (le : Bool) (off : ℤ) :
    Except RdErr (ℤ × ℤ) := do
  let _ ← allocate buf off 8
  let bs ← getBytes buf off 8
  pure (toSigned 64 (beVal (dvOrder le bs)), off + 8)

/-- Source `NBTReader.#readFloat`: the 4 payload bytes, kept as a raw
binary32 bit pattern. -/
def readFloatP (buf : Bytes) (le : Bool) (off : ℤ) :
    Except RdErr (ℕ × ℤ) := do
  let _ ← allocate buf off 4
  let bs ← getBytes buf off 4
  pure (beVal (dvOrder le bs), off + 4)

/-- Source `NBTReader.#readDouble`: the 8 payload bytes, kept as a raw
binary64 bit pattern. -/
def readDoubleP (buf : Bytes) (le : Bool) (off : ℤ) :
    Except RdErr (ℕ × ℤ) := do
  let _ ← allocate buf off 8
  let bs ← getBytes buf off 8
  pure (beVal (dvOrder le bs), off + 8)



/-- Source `NBTReader.#readVarInt` loop: `value |= (byte & 0x7F) << shift`
under JavaScript 32-bit semantics; stop on a byte with MSB clear.  There
is no overflow check in the source. -/
def readVarIntLoop (buf : Bytes) : ℕ → ℤ → ℤ → ℕ → Except RdErr (ℤ × ℤ)
  | 0, _, _, _ => .error .fuelOut
  | fuel + 1, off, value, shift => do
    let (b, off2) ← readByteP buf off
    let value2 := jsOr value (jsShl (jsAnd b 127) shift)
    if jsAnd b 128 = 0 then pure (value2, off2)
    else readVarIntLoop buf fuel off2 value2 (shift + 7)

/-- Source `NBTReader.#readVarInt`. -/
def readVarInt (buf : Bytes) (fuel : ℕ) (off : ℤ) : Except RdErr (ℤ × ℤ) :=
  readVarIntLoop buf fuel off 0 0

/-- Source `NBTReader.#readVarIntZigZag` loop: same accumulation, but
after deciding to continue the shift is increased by 7 and the loop
fails with "varint is too big" once the shift exceeds 63. -/
def readVarIntZigZagLoop (buf : Bytes) :
    ℕ → ℤ → ℤ → ℕ → Except RdErr (ℤ × ℤ)
  | 0, _, _, _ => .error .fuelOut
  | fuel + 1, off, result, shift => do
    let _ ← allocate buf off 1
    let (b, off2) ← readByteP buf off
    let result2 := jsOr result (jsShl (jsAnd b 127) shift)
    if jsAnd b 128 = 0 then pure (result2, off2)
    else if shift + 7 > 63 then .error .varTooBig
    else readVarIntZigZagLoop buf fuel off2 result2 (shift + 7)

/-- Source `NBTReader.#readVarIntZigZag`: assemble, then apply the
zig-zag expression (the `size` field is unused by all callers and
omitted). -/
def readVarIntZigZag (buf : Bytes) (fuel : ℕ) (off : ℤ) :
    Except RdErr (ℤ × ℤ) := do
  let (result, off2) ← readVarIntZigZagLoop buf fuel off 0 0
  pure (zigzagDecode32 result, off2)

/-- Source `NBTReader.#readVarLongZigZag` loop over BigInt:
`result |= (BigInt(b) & 0x7fn) << shift`, with the same shift cap. -/
def readVarLongZigZagLoop (buf : Bytes) :
    ℕ → ℤ → ℤ → ℕ → Except RdErr (ℤ × ℤ)
  | 0, _, _, _ => .error .fuelOut
  | fuel + 1, off, result, shift => do
    let _ ← allocate buf off 1
    let (b, off2) ← readByteP buf off
    let result2 := Int.lor result ((Int.land b 127) <<< ((shift : ℕ) : ℤ))
    if jsAnd b 128 = 0 then pure (result2, off2)
    else if shift + 7 > 63 then .error .varTooBig
    else readVarLongZigZagLoop buf fuel off2 result2 (shift + 7)

/-- Source `NBTReader.#readVarLongZigZag`. -/
def readVarLongZigZag (buf : Bytes) (fuel : ℕ) (off : ℤ) :
    Except RdErr (ℤ × ℤ) := do
  let (result, off2) ← readVarLongZigZagLoop buf fuel off 0 0
  pure (zigzagDecode64 result, off2)

/-- Modelled from the spec: the Modified UTF-8 decoder consumed from the
external `mutf-8` library — `U+0000` is the two-byte sequence `C0 80`,
code points up to `U+FFFF` use the standard 1–3 byte forms, and
supplementary-plane characters arrive as six bytes (two 3-byte encoded
surrogates), which decode to their UTF-16 code units.  Malformed bytes
decode to the replacement character. -/
def mutf8Decode : Bytes → List ℕ
  | [] => []
  | b :: rest =>
    if b < 0x80 then b :: mutf8Decode rest
    else if b &&& 0xE0 = 0xC0 then
      match rest with
      | b2 :: rest2 =>
        (((b &&& 0x1F) <<< 6) ||| (b2 &&& 0x3F)) :: mutf8Decode rest2
      | [] => [0xFFFD]
    else if b &&& 0xF0 = 0xE0 then
      match rest with
      | b2 :: b3 :: rest3 =>
        (((b &&& 0x0F) <<< 12) ||| ((b2 &&& 0x3F) <<< 6) ||| (b3 &&& 0x3F))
          :: mutf8Decode rest3
      | _ => [0xFFFD]
    else 0xFFFD :: mutf8Decode rest

/-- Source `NBTReader.#readUnsignedShort`: varint or `getUint16`. -/
def readUnsignedShortV (buf : Bytes) (le varint : Bool) (fuel : ℕ)
    (off : ℤ) : Except RdErr (ℤ × ℤ) :=
  if varint then readVarInt buf fuel off
  else readUnsignedShortFixed buf le off

/-- Source `NBTReader.#readUnsignedInt`: varint or `getUint32`. -/
def readUnsignedIntV (buf : Bytes) (le varint : Bool) (fuel : ℕ)
    (off : ℤ) : Except RdErr (ℤ × ℤ) :=
  if varint then readVarInt buf fuel off
  else readUnsignedIntFixed buf le off

/-- Source `NBTReader.#readInt`: zig-zag varint or `getInt32`. -/
def readIntV (buf : Bytes) (le varint : Bool) (fuel : ℕ) (off : ℤ) :
    Except RdErr (ℤ × ℤ) :=
  if varint then readVarIntZigZag buf fuel off
  else readIntFixed buf le off

/-- Source `NBTReader.#readLong`: zig-zag var-long or `getBigInt64`. -/
def readLongV (buf : Bytes) (le varint : Bool) (fuel : ℕ) (off : ℤ) :
    Except RdErr (ℤ × ℤ) :=
  if varint then readVarLongZigZag buf fuel off
  else readLongFixed buf le off

/-- Source `NBTReader.#readString`: length (unsigned short or unsigned
varint), bounds check, then Modified UTF-8 decode of the slice. -/
def readStringF (buf : Bytes) (le varint : Bool) (fuel : ℕ) (off : ℤ) :
    Except RdErr (List ℕ × ℤ) := do
  let (length, off2) ← readUnsignedShortV buf le varint fuel off
  let _ ← allocate buf off2 length
  pure (mutf8Decode (subarray buf off2 (off2 + length)), off2 + length)

/-- Source `NBTReader.#readByteArray`: signed 32-bit length, bounds
check, then the slice as signed bytes.  A negative length passes the
bounds check, yields an empty slice, and moves the cursor backwards. -/
def readByteArrayF (buf : Bytes) (le varint : Bool) (fuel : ℕ) (off : ℤ) :
    Except RdErr (List ℤ × ℤ) := do
  let (length, off2) ← readIntV buf le varint fuel off
  let _ ← allocate buf off2 length
  pure (((subarray buf off2 (off2 + length)).map (toSigned 8)), off2 + length)

/-- Source `NBTReader.#readTagType`: one unsigned byte, checked by
`isTagType` (a valid id is 0–12). -/
def readTagTypeP (buf : Bytes) (off : ℤ) : Except RdErr (ℕ × ℤ) := do
  let (t, off2) ← readUnsignedByteP buf off
  if t ≤ 12 then pure (t, off2) else .error (.badTag t)

/-- JavaScript object insertion `value[name] = entry`: an existing key
keeps its position and has its value replaced; a new key is appended. -/
def upsert (entries : List (List ℕ × NTag)) (key : List ℕ) (v : NTag) :
    List (List ℕ × NTag) :=
  match entries with
  | [] => [(key, v)]
  | (k, w) :: rest =>
    if k = key then (key, v) :: rest else (k, w) :: upsert rest key v

/-- Loop of `NBTReader.#readIntArray` (`new Int32Array(length)` already
rejected a negative length). -/
def readIntArrayLoop (buf : Bytes) (le varint : Bool) (fuel : ℕ) :
    ℕ → ℤ → Except RdErr (List ℤ × ℤ)
  | 0, off => pure ([], off)
  | n + 1, off => do
    let (v, off2) ← readIntV buf le varint fuel off
    let (xs, off3) ← readIntArrayLoop buf le varint fuel n off2
    pure (v :: xs, off3)

/-- Loop of `NBTReader.#readLongArray`. -/
def readLongArrayLoop (buf : Bytes) (le varint : Bool) (fuel : ℕ) :
    ℕ → ℤ → Except RdErr (List ℤ × ℤ)
  | 0, off => pure ([], off)
  | n + 1, off => do
    let (v, off2) ← readLongV buf le varint fuel off
    let (xs, off3) ← readLongArrayLoop buf le varint fuel n off2
    pure (v :: xs, off3)



mutual

/-- Source `NBTReader.#readTag`, dispatched on the tag id; fuel drives
the recursion through LIST and COMPOUND payloads. -/
def readTagF (buf : Bytes) (le varint : Bool) :
    ℕ → ℕ → ℤ → Except RdErr (NTag × ℤ)
  | 0, _, _ => .error .fuelOut
  | fuel + 1, type, off =>
    match type with
    | 0 => .error .endTag
    | 1 => do
      let (v, o) ← readByteP buf off
      pure (.byte v, o)
    | 2 => do
      let (v, o) ← readShortFixed buf le off
      pure (.short v, o)
    | 3 => do
      let (v, o) ← readIntV buf le varint fuel off
      pure (.int v, o)
    | 4 => do
      let (v, o) ← readLongV buf le varint fuel off
      pure (.long v, o)
    | 5 => do
      let (v, o) ← readFloatP buf le off
      pure (.float v, o)
    | 6 => do
      let (v, o) ← readDoubleP buf le off
      pure (.double v, o)
    | 7 => do
      let (v, o) ← readByteArrayF buf le varint fuel off
      pure (.byteArray v, o)
    | 8 => do
      let (s, o) ← readStringF buf le varint fuel off
      pure (.str s, o)
    | 9 => do
      let (t, o1) ← readTagTypeP buf off
      let (len, o2) ←
        if varint then readVarIntZigZag buf fuel o1
        else readIntFixed buf le o1
      let (xs, o3) ← readListLoopF buf le varint fuel t len.toNat o2
      pure (.list t xs, o3)
    | 10 => do
      let (entries, o) ← readCompoundLoopF buf le varint fuel [] off
      pure (.compound entries, o)
    | 11 => do
      let (len, o1) ← readIntV buf le varint fuel off
      if len < 0 then .error .rangeError
      else do
        let (xs, o2) ← readIntArrayLoop buf le varint fuel len.toNat o1
        pure (.intArray xs, o2)
    | 12 => do
      let (len, o1) ← readIntV buf le varint fuel off
      if len < 0 then .error .rangeError
      else do
        let (xs, o2) ← readLongArrayLoop buf le varint fuel len.toNat o1
        pure (.longArray xs, o2)
    | t => .error (.badTag t)

/-- The element loop of `NBTReader.#readList`. -/
def readListLoopF (buf : Bytes) (le varint : Bool) :
    ℕ → ℕ → ℕ → ℤ → Except RdErr (List NTag × ℤ)
  | 0, _, _, _ => .error .fuelOut
  | _ + 1, _, 0, off => pure ([], off)
  | fuel + 1, t, n + 1, off => do
    let (x, o1) ← readTagF buf le varint fuel t off
    let (xs, o2) ← readListLoopF buf le varint fuel t n o1
    pure (x :: xs, o2)

/-- The entry loop of `NBTReader.#readCompound`. -/
def readCompoundLoopF (buf : Bytes) (le varint : Bool) :
    ℕ → List (List ℕ × NTag) → ℤ →
      Except RdErr (List (List ℕ × NTag) × ℤ)
  | 0, _, _ => .error .fuelOut
  | fuel + 1, acc, off => do
    let (t, o1) ← readTagTypeP buf off
    if t = 0 then pure (acc, o1)
    else do
      let (name, o2) ← readStringF buf le varint fuel o1
      let (entry, o3) ← readTagF buf le varint fuel t o2
      readCompoundLoopF buf le varint fuel (upsert acc name entry) o3

end

/-- Source `NBTReader.readRoot` with compression fixed to `null` (the
claims below all concern uncompressed reads; decompression is an
external service).  When `bedrockLevel` is truthy two unsigned 32-bit
values (version and payload length) are consumed first.  The root tag id
must be LIST or COMPOUND; a truthy root-name option reads the name
string; in strict mode trailing bytes raise the overrun error carrying
the offset, the remaining-byte count, and the parsed result. -/
def readRootF (buf : Bytes) (le varint rootNameFlag bedrock strict : Bool)
    (fuel : ℕ) : Except RdErr ReadResult := do
  let off1 ←
    if bedrock then do
      let (_, o1) ← readUnsignedIntV buf le varint fuel 0
      let (_, o2) ← readUnsignedIntV buf le varint fuel o1
      pure o2
    else pure (0 : ℤ)
  let (type, off2) ← readTagTypeP buf off1
  if type ≠ 9 ∧ type ≠ 10 then .error (.rootType type)
  else do
    let (name, off3) ←
      if rootNameFlag then do
        let (s, o) ← readStringF buf le varint fuel off2
        pure ((some s : Option (List ℕ)), o)
      else pure ((none : Option (List ℕ)), off2)
    let (root, off4) ← readTagF buf le varint fuel type off3
    if strict ∧ (buf.length : ℤ) > off4 then
      .error (.trailing off4 ((buf.length : ℤ) - off4) ⟨root, name⟩)
    else pure ⟨root, name⟩



/-- Modelled from the spec: a single UTF-16 code unit under the standard
WHATWG `TextEncoder` when it does not begin a surrogate pair (a lone
surrogate becomes U+FFFD). -/
def utf8EncodeOne (u : ℕ) : Bytes :=
  if u < 0x80 then [u]
  else if u < 0x800 then [0xC0 ||| (u >>> 6), 0x80 ||| (u &&& 0x3F)]
  else if 0xD800 ≤ u ∧ u < 0xE000 then [0xEF, 0xBF, 0xBD]
  else [0xE0 ||| (u >>> 12), 0x80 ||| ((u >>> 6) &&& 0x3F),
    0x80 ||| (u &&& 0x3F)]

/-- Modelled from the spec: the standard WHATWG `TextEncoder` (plain
UTF-8 over UTF-16 code units, surrogate pairs combined).  This is the
encoder `NBTWriter.#writeString` actually uses — it is *not* the
Modified UTF-8 codec. -/
def utf8Encode : List ℕ → Bytes
  | [] => []
  | [u] => utf8EncodeOne u
  | u :: u2 :: rest =>
    if 0xD800 ≤ u ∧ u < 0xDC00 ∧ 0xDC00 ≤ u2 ∧ u2 < 0xE000 then
      (fun c =>
        [0xF0 ||| (c >>> 18), 0x80 ||| ((c >>> 12) &&& 0x3F),
          0x80 ||| ((c >>> 6) &&& 0x3F), 0x80 ||| (c &&& 0x3F)]
          ++ utf8Encode rest)
        (0x10000 + ((u - 0xD800) <<< 10) + (u2 - 0xDC00))
    else utf8EncodeOne u ++ utf8Encode (u2 :: rest)

/-- Big-endian byte expansion of a natural number to `k` bytes. -/
def natBytesBE : ℕ → ℕ → Bytes
  | 0, _ => []
  | k + 1, u => natBytesBE k (u / 256) ++ [u % 256]

/-- A `DataView` fixed-width store of an integer value (which wraps
modulo the width, as `setInt8/16/32` and `setBigInt64` do). -/
def putI (le : Bool) (k : ℕ) (x : ℤ) : Bytes :=
  dvOrder le (natBytesBE k (x % (2 ^ (8 * k) : ℤ)).toNat)

/-- Modelled from the spec (§4.A `type_of`): the tag id of a value.  The
embedded `NTag` carries only valid tags, so the `null` case of the
source `getTagType` cannot arise. -/
def tagTypeOf : NTag → ℕ
  | .byte _ => 1
  | .boolean _ => 1
  | .short _ => 2
  | .int _ => 3
  | .long _ => 4
  | .float _ => 5
  | .double _ => 6
  | .byteArray _ => 7
  | .str _ => 8
  | .list _ _ => 9
  | .compound _ => 10
  | .intArray _ => 11
  | .longArray _ => 12

/-- Write-side error: the heterogeneous-list `TypeError`. -/
inductive WrErr where
  | heterogeneousList

/-- Source `NBTWriter.#writeString`: standard UTF-8 encode, unsigned
16-bit length prefix, then the encoded bytes. -/
def writeStringW (le : Bool) (s : List ℕ) : Bytes :=
  putI le 2 ((utf8Encode s).length : ℤ) ++ utf8Encode s

mutual

/-- Source `NBTWriter.#writeTag` (the output bytes; the growing-buffer
mechanics of the writer do not affect the emitted byte sequence). -/
def writeTagW (le : Bool) : NTag → Except WrErr Bytes
  | .byte v => pure (putI le 1 v)
  | .boolean b => pure (putI le 1 (if b then 1 else 0))
  | .short v => pure (putI le 2 v)
  | .int v => pure (putI le 4 v)
  | .long v => pure (putI le 8 v)
  | .float bits => pure (putI le 4 (bits : ℤ))
  | .double bits => pure (putI le 8 (bits : ℤ))
  | .byteArray v =>
    pure (putI le 4 (v.length : ℤ) ++ v.map fun x => (x % 256).toNat)
  | .str s => pure (writeStringW le s)
  | .list _ xs => do
    let type := match xs with
      | [] => 0
      | x :: _ => tagTypeOf x
    let body ← writeListItemsW le type xs
    pure (putI le 1 (type : ℤ) ++ putI le 4 (xs.length : ℤ) ++ body)
  | .compound entries => do
    let body ← writeCompoundItemsW le entries
    pure (body ++ putI le 1 0)
  | .intArray v =>
    pure (putI le 4 (v.length : ℤ) ++ (v.map (putI le 4)).flatten)
  | .longArray v =>
    pure (putI le 4 (v.length : ℤ) ++ (v.map (putI le 8)).flatten)

/-- The element loop of `NBTWriter.#writeList`: every element must have
the declared type, else the heterogeneous-list `TypeError` is thrown. -/
def writeListItemsW (le : Bool) (type : ℕ) : List NTag → Except WrErr Bytes
  | [] => pure []
  | x :: xs => do
    if tagTypeOf x ≠ type then throw .heterogeneousList
    else do
      let hd ← writeTagW le x
      let tl ← writeListItemsW le type xs
      pure (hd ++ tl)

/-- The entry loop of `NBTWriter.#writeCompound`: `(tag id, key,
payload)` triples. -/
def writeCompoundItemsW (le : Bool) :
    List (List ℕ × NTag) → Except WrErr Bytes
  | [] => pure []
  | (name, entry) :: rest => do
    let payload ← writeTagW le entry
    let tl ← writeCompoundItemsW le rest
    pure (putI le 1 (tagTypeOf entry : ℤ) ++ writeStringW le name
      ++ payload ++ tl)

end

/-- Source `NBTWriter.write` (root framing): COMPOUND tag id, the root
name unless it is `null`, then the compound body. -/
def writeRootW (le : Bool) (name : Option (List ℕ))
    (entries : List (List ℕ × NTag)) : Except WrErr Bytes := do
  let body ← writeTagW le (.compound entries)
  pure (putI le 1 10
    ++ (match name with
        | some s => writeStringW le s
        | none => [])
    ++ body)

def cyclicBuf : Bytes := [0x0A, 0x07, 0x00, 0x00, 0xFF, 0xFF, 0xFF, 0xF9]

/-- Termination of the fueled binary read: some fuel suffices. -/
def ReadRootTerminates (buf : Bytes)
    (le varint rootNameFlag bedrock strict : Bool) : Prop :=
  ∃ fuel, readRootF buf le varint rootNameFlag bedrock strict fuel ≠ .error .fuelOut

/-- The spec's varint value: each byte contributes its low 7 bits
shifted by `7·i`. -/
def varintVal : List ℕ → ℕ
  | [] => 0
  | b :: rest => b % 128 + 128 * varintVal rest

/-- The common shape of the fixed-width `DataView` reads (used only to
factor the proofs below; the reader definitions are unchanged). -/
def fixedRead {α : Type} (k : ℕ) (g : Bytes → α) (buf : Bytes) (off : ℤ) :
    Except RdErr (α × ℤ) := do
  let _ ← allocate buf off k
  let bs ← getBytes buf off k
  pure (g bs, off + k)

/-- The part of `readRoot` after the optional bedrock header (used only
to factor the proofs below; `readRootF` is unchanged). -/
def readRootTail (buf : Bytes) (le varint rootNameFlag strict : Bool)
    (fuel : ℕ) (off1 : ℤ) : Except RdErr ReadResult := do
  let (type, off2) ← readTagTypeP buf off1
  if type ≠ 9 ∧ type ≠ 10 then .error (.rootType type)
  else do
    let (name, off3) ←
      if rootNameFlag then do
        let (s, o) ← readStringF buf le varint fuel off2
        pure ((some s : Option (List ℕ)), o)
      else pure ((none : Option (List ℕ)), off2)
    let (root, off4) ← readTagF buf le varint fuel type off3
    if strict ∧ (buf.length : ℤ) > off4 then
      .error (.trailing off4 ((buf.length : ℤ) - off4) ⟨root, name⟩)
    else pure ⟨root, name⟩


/-- The JavaScript `\s` character class, as tested one character at a
time by `WHITESPACE_PATTERN.test` in the SNBT reader. -/
def jsIsSpace (c : Char) : Bool :=
  let n := c.toNat
  n = 0x09 || n = 0x0A || n = 0x0B || n = 0x0C || n = 0x0D || n = 0x20 ||
  n = 0xA0 || n = 0x1680 || (0x2000 ≤ n && n ≤ 0x200A) || n = 0x2028 ||
  n = 0x2029 || n = 0x202F || n = 0x205F || n = 0x3000 || n = 0xFEFF

/-- The character class of `UNQUOTED_STRING_OPEN_PATTERN`
(`[0-9a-z_\-.+]` with the `i` flag). -/
def isUnquotedChar (c : Char) : Bool :=
  let n := c.toNat
  (48 ≤ n && n ≤ 57) || (97 ≤ n && n ≤ 122) || (65 ≤ n && n ≤ 90) ||
  n = 95 || n = 45 || n = 46 || n = 43

def lbraceChar : Char := Char.ofNat 123

def rbraceChar : Char := Char.ofNat 125

def lbrackChar : Char := Char.ofNat 91

def rbrackChar : Char := Char.ofNat 93

def colonChar : Char := Char.ofNat 58

def commaChar : Char := Char.ofNat 44

def semiChar : Char := Char.ofNat 59

/-- The JavaScript tag universe handled by the SNBT reader and writer:
`Int8`/`Int16`/`Int32` wrappers, primitive booleans, BigInt longs,
strings, arrays and plain objects.  FLOAT and DOUBLE payloads keep the
decimal token that `Number(...)` was applied to: none of the theorems
below evaluates a float value, so the binary64 value itself is left
uninterpreted. -/
inductive SnbtTag where
  | byte (v : ℤ)
  | boolean (b : Bool)
  | short (v : ℤ)
  | int (v : ℤ)
  | long (v : ℤ)
  | float (tok : List Char)
  | double (tok : List Char)
  | byteArray (v : List ℤ)
  | str (s : List Char)
  | list (xs : List SnbtTag)
  | compound (entries : List (List Char × SnbtTag))
  | intArray (v : List ℤ)
  | longArray (v : List ℤ)

/-- Error outcomes of the SNBT reader (one constructor per `throw` site;
`fuelOut` marks exhaustion of the fuel driving recursion in this
embedding). -/
inductive SnbtErr where
  | expectedTag
  | unexpectedCharTag (c : Char)
  | expectedChar (c : Char)
  | missingEndQuote
  | escapeEnd
  | invalidEscape (c : Char)
  | invalidArrayType (c : Char)
  | unexpectedTagEnd (c : Char)
  | expectedTagOrClose
  | keyNull (c : Char)
  | keyEmpty
  | expectedKV
  | trailingContent
  | trailingChar (c : Char)
  | longInTypedArray
  | fuelOut
  deriving DecidableEq

/-- Source `SNBTReader.#allocate`. -/
def sAllocate (s : List Char) (i k : ℕ) : Bool := decide (i + k ≤ s.length)

/-- A JavaScript string index `data[i]`: out-of-range reads give
`undefined`, modelled as the NUL character (which matches none of the
characters the reader compares against). -/
def sPeek (s : List Char) (i : ℕ) : Char := s.getD i (Char.ofNat 0)

/-- Source `SNBTReader.#skipWhitespace`: advance while in bounds and the
current character matches `\s`. -/
def leadingWs : List Char → ℕ
  | [] => 0
  | c :: r => if jsIsSpace c then leadingWs r + 1 else 0

def sSkipWs (s : List Char) (i : ℕ) : ℕ := i + leadingWs (s.drop i)

/-- Source `SNBTReader.#readUnquotedString`: the longest (possibly
empty, then `null`) prefix of unquoted-string characters. -/
def sReadUnquoted (s : List Char) (i : ℕ) : Option (List Char × ℕ) :=
  let m := (s.drop i).takeWhile isUnquotedChar
  if m = [] then none else some (m, i + m.length)

/-- Source `SNBTReader.#expect`. -/
def sExpect (s : List Char) (c : Char) (i : ℕ) : Except SnbtErr ℕ :=
  if ¬ sAllocate s i 1 ∨ sPeek s i ≠ c then .error (.expectedChar c)
  else pure (i + 1)

/-- Source `SNBTReader.#skipSeperator`: returns whether a comma was
consumed, together with the new offset. -/
def sSkipSep (s : List Char) (i : ℕ) : Bool × ℕ :=
  let i1 := sSkipWs s i
  if ¬ sAllocate s i1 1 ∨ sPeek s i1 ≠ commaChar then (false, i1)
  else (true, sSkipWs s (i1 + 1))

/-- Source `SNBTReader.#readQuotedString`, entered with both `lastPos`
and the scan position just past the opening quote.  Only the quote
character itself and a backslash may be escaped. -/
def sReadQuoted (s : List Char) (quote : Char) :
    ℕ → ℕ → ℕ → List Char → Except SnbtErr (List Char × ℕ)
  | 0, _, _, _ => .error .fuelOut
  | fuel + 1, lastPos, i, acc =>
    if ¬ sAllocate s i 1 then .error .missingEndQuote
    else
      let c := sPeek s i
      if c = backslashChar then
        if ¬ sAllocate s (i + 1) 1 then .error .escapeEnd
        else
          let e := sPeek s (i + 1)
          if e ≠ quote ∧ e ≠ backslashChar then .error (.invalidEscape e)
          else
            sReadQuoted s quote fuel (i + 2) (i + 2)
              (acc ++ (s.drop lastPos).take (i - lastPos) ++ [e])
      else if c = quote then
        .ok (acc ++ (s.drop lastPos).take (i - lastPos), i + 1)
      else sReadQuoted s quote fuel lastPos (i + 1) acc

/-- Source `SNBTReader.#readString`: quoted or unquoted (`null` when the
unquoted match fails). -/
def sReadString (s : List Char) (i : ℕ) :
    Except SnbtErr (Option (List Char) × ℕ) :=
  let c := sPeek s i
  if c = doubleQuoteChar ∨ c = singleQuoteChar then
    (sReadQuoted s c (s.length + 1) (i + 1) (i + 1) []).map fun p =>
      (some p.1, p.2)
  else
    match sReadUnquoted s i with
    | none => pure (none, i)
    | some (tok, i2) => pure (some tok, i2)

def isDigitChar (c : Char) : Bool := 48 ≤ c.toNat && c.toNat ≤ 57

/-- Strip one leading `+` or `-`. -/
def stripSign (tok : List Char) : List Char :=
  match tok with
  | c :: r => if c.toNat = 43 || c.toNat = 45 then r else tok
  | [] => []

/-- The `0|[1-9][0-9]*` body of `INTEGER_PATTERN`. -/
def intBody : List Char → Bool
  | [] => false
  | c :: r =>
    if c.toNat = 48 then r.isEmpty
    else (49 ≤ c.toNat && c.toNat ≤ 57) && r.all isDigitChar

def intSuffixChar (c : Char) : Bool :=
  let n := c.toNat
  n = 98 || n = 108 || n = 115 || n = 66 || n = 76 || n = 83

/-- `INTEGER_PATTERN` (`^([-+]?(?:0|[1-9][0-9]*))([bls]?)$/i`): the
captured value group (sign included) and the optional suffix. -/
def matchIntegerTok (tok : List Char) :
    Option (List Char × Option Char) :=
  match tok.reverse with
  | [] => none
  | c :: rest =>
    if intSuffixChar c then
      if intBody (stripSign rest.reverse) then some (rest.reverse, some c)
      else none
    else if intBody (stripSign tok) then some (tok, none)
    else none

/-- The `[0-9]+[.]?|[0-9]*[.][0-9]+` mantissa of `FLOAT_PATTERN`. -/
def mantissaOk (cs : List Char) : Bool :=
  let pre := cs.takeWhile isDigitChar
  match cs.drop pre.length with
  | [] => !pre.isEmpty
  | d :: post =>
    d.toNat = 46 && post.all isDigitChar && (!pre.isEmpty || !post.isEmpty)

/-- The `e[-+]?[0-9]+` exponent of `FLOAT_PATTERN` (`i` flag). -/
def expOk (cs : List Char) : Bool :=
  match cs with
  | [] => false
  | e :: rest =>
    (e.toNat = 101 || e.toNat = 69) &&
      (let r := stripSign rest
       !r.isEmpty && r.all isDigitChar)

def floatBody (cs : List Char) : Bool :=
  let m := cs.takeWhile fun c => !(c.toNat = 101 || c.toNat = 69)
  let rest := cs.drop m.length
  mantissaOk m && (rest.isEmpty || expOk rest)

def floatSuffixChar (c : Char) : Bool :=
  let n := c.toNat
  n = 100 || n = 102 || n = 68 || n = 70

/-- `FLOAT_PATTERN`: the captured value group (sign and exponent
included) and the optional `[df]` suffix. -/
def matchFloatTok (tok : List Char) : Option (List Char × Option Char) :=
  match tok.reverse with
  | [] => none
  | c :: rest =>
    if floatSuffixChar c then
      if floatBody (stripSign rest.reverse) then
        some (rest.reverse, some c)
      else none
    else if floatBody (stripSign tok) then some (tok, none)
    else none

/-- `BOOLEAN_PATTERN` (`^(true|false)$`, no `i` flag). -/
def isBoolTok (tok : List Char) : Bool :=
  tok = "true".toList || tok = "false".toList

/-- JavaScript `Boolean(string)`: the truthiness of a string is
emptiness, so every nonempty string (including `"false"`) converts to
`true`. -/
def jsBooleanOfString (s : List Char) : Bool := !s.isEmpty

def decToNat (ds : List Char) : ℕ :=
  ds.foldl (fun a c => a * 10 + (c.toNat - 48)) 0

/-- `Number(value)`/`BigInt(value)` on a string matching the integer
pattern (exact below 2^53, which covers all wrapped widths used here). -/
def decToInt (tok : List Char) : ℤ :=
  match tok with
  | c :: r =>
    if c.toNat = 45 then -(decToNat r : ℤ)
    else if c.toNat = 43 then (decToNat r : ℤ)
    else (decToNat tok : ℤ)
  | [] => 0

/-- Source `SNBTReader.#readInteger`: the suffix selects the wrapper
(`Int8`/`Int16`/`BigInt`), default `Int32`. -/
def sReadInteger (value : List Char) (suffix : Option Char) : SnbtTag :=
  match suffix with
  | some c =>
    if c.toNat = 98 ∨ c.toNat = 66 then .byte (byteCtor (decToInt value))
    else if c.toNat = 115 ∨ c.toNat = 83 then
      .short (shortCtor (decToInt value))
    else .long (decToInt value)
  | none => .int (intCtor (decToInt value))

/-- Source `SNBTReader.#readFloat`: `f`/`F` makes a `Float32`, default
is a double; both keep the matched token (see `SnbtTag`). -/
def sReadFloat (value : List Char) (suffix : Option Char) : SnbtTag :=
  match suffix with
  | some c =>
    if c.toNat = 102 ∨ c.toNat = 70 then .float value else .double value
  | none => .double value

/-- JavaScript object insertion for SNBT compounds (same as `upsert`). -/
def upsertS (entries : List (List Char × SnbtTag)) (key : List Char)
    (v : SnbtTag) : List (List Char × SnbtTag) :=
  match entries with
  | [] => [(key, v)]
  | (k, w) :: rest =>
    if k = key then (key, v) :: rest else (k, w) :: upsertS rest key v

/-- The kind of bracketed collection in `#readSomeList`. -/
inductive SnbtListKind where
  | plain
  | byteA
  | intA
  | longA
  deriving DecidableEq

/-- `array[i] = tags[i].valueOf()` into an `Int8Array`
(`#readByteArray`): numeric wrappers wrap to 8 bits, booleans coerce to
0/1, a BigInt throws a `TypeError`.  The `ToNumber` coercion of float,
string and container tags is not modelled (stored as 0 here); no
theorem below evaluates those paths. -/
def snbtValueOfI8 : SnbtTag → Except SnbtErr ℤ
  | .byte v => pure (byteCtor v)
  | .boolean b => pure (if b then 1 else 0)
  | .short v => pure (byteCtor v)
  | .int v => pure (byteCtor v)
  | .long _ => .error .longInTypedArray
  | _ => pure 0

/-- `value[i] = entries[i].valueOf()` into an `Int32Array`
(`#readIntArray`); same modelling caveats as `snbtValueOfI8`. -/
def snbtValueOfI32 : SnbtTag → Except SnbtErr ℤ
  | .byte v => pure (intCtor v)
  | .boolean b => pure (if b then 1 else 0)
  | .short v => pure (intCtor v)
  | .int v => pure (intCtor v)
  | .long _ => .error .longInTypedArray
  | _ => pure 0

/-- `value[i] = entries[i]` into a `BigInt64Array` (`#readLongArray`):
only a BigInt is accepted (anything else throws a `TypeError`), wrapping
to 64 bits. -/
def snbtValueOfI64 : SnbtTag → Except SnbtErr ℤ
  | .long v => pure (toSigned 64 ((v % (2 ^ 64 : ℤ)).toNat))
  | _ => .error .longInTypedArray

/-- The code after the element loop of `#readSomeList`: bounds check,
`#expect("]")`, and the `switch` over the collection kind
(`#readByteArray` / `#readIntArray` / `#readLongArray`). -/
def sListClose (s : List Char) (kind : SnbtListKind)
    (acc : List SnbtTag) (i : ℕ) : Except SnbtErr (SnbtTag × ℕ) :=
  if ¬ sAllocate s i 1 then .error .expectedTagOrClose
  else
    match sExpect s rbrackChar i with
    | .error e => .error e
    | .ok i2 =>
      match kind with
      | .plain => pure (.list acc, i2)
      | .byteA => (acc.mapM snbtValueOfI8).map fun v => (.byteArray v, i2)
      | .intA => (acc.mapM snbtValueOfI32).map fun v => (.intArray v, i2)
      | .longA => (acc.mapM snbtValueOfI64).map fun v => (.longArray v, i2)

/-- The code after the entry loop of `#readCompoundTag`: bounds check,
then `#skip(1)` over the closing brace. -/
def sCompoundClose (s : List Char) (acc : List (List Char × SnbtTag))
    (i : ℕ) : Except SnbtErr (SnbtTag × ℕ) :=
  if ¬ sAllocate s i 1 then .error .expectedKV
  else pure (.compound acc, i + 1)

mutual

/-- Source `SNBTReader.#readTag`: whitespace, then dispatch on the first
character; an unquoted token is tried against the integer, float and
boolean patterns in that order, else kept as a string.  The source
`try`/`catch` around the numeric conversions is dead code (neither
`Number`, `BigInt` nor the wrapper constructors can throw on a matched
token) and is omitted. -/
def sReadTag (s : List Char) : ℕ → ℕ → Except SnbtErr (SnbtTag × ℕ)
  | 0, _ => .error .fuelOut
  | fuel + 1, i =>
    let i1 := sSkipWs s i
    if ¬ sAllocate s i1 1 then .error .expectedTag
    else
      let c := sPeek s i1
      if c = lbraceChar then sReadCompound s fuel i1
      else if c = lbrackChar then sReadSomeList s fuel i1
      else if c = doubleQuoteChar ∨ c = singleQuoteChar then
        (sReadQuoted s c (s.length + 1) (i1 + 1) (i1 + 1) []).map
          fun p => (.str p.1, p.2)
      else
        match sReadUnquoted s i1 with
        | none => .error (.unexpectedCharTag c)
        | some (tok, i2) =>
          match matchIntegerTok tok with
          | some (v, suf) => pure (sReadInteger v suf, i2)
          | none =>
            match matchFloatTok tok with
            | some (v, suf) => pure (sReadFloat v suf, i2)
            | none =>
              if isBoolTok tok then
                pure (.boolean (jsBooleanOfString tok), i2)
              else pure (.str tok, i2)
termination_by structural f _ => f

/-- Source `SNBTReader.#readSomeList`: `[`, optional `B;`/`I;`/`L;`
array prefix, whitespace, then the element loop. -/
def sReadSomeList (s : List Char) : ℕ → ℕ → Except SnbtErr (SnbtTag × ℕ)
  | 0, _ => .error .fuelOut
  | fuel + 1, i =>
    match sExpect s lbrackChar i with
    | .error e => .error e
    | .ok i1 =>
      if sAllocate s i1 2 && sPeek s (i1 + 1) = semiChar then
        let c := sPeek s i1
        if c = Char.ofNat 66 then
          sReadListLoop s fuel .byteA [] (sSkipWs s (i1 + 2))
        else if c = Char.ofNat 73 then
          sReadListLoop s fuel .intA [] (sSkipWs s (i1 + 2))
        else if c = Char.ofNat 76 then
          sReadListLoop s fuel .longA [] (sSkipWs s (i1 + 2))
        else .error (.invalidArrayType c)
      else sReadListLoop s fuel .plain [] (sSkipWs s i1)
termination_by structural f _ => f

/-- The element loop of `#readSomeList`, then the close bracket and the
kind-directed conversion. -/
def sReadListLoop (s : List Char) :
    ℕ → SnbtListKind → List SnbtTag → ℕ → Except SnbtErr (SnbtTag × ℕ)
  | 0, _, _, _ => .error .fuelOut
  | fuel + 1, kind, acc, i =>
    if sAllocate s i 1 && sPeek s i ≠ rbrackChar then
      match sReadTag s fuel i with
      | .error e => .error e
      | .ok (v, i2) =>
        let acc2 := acc ++ [v]
        match sSkipSep s i2 with
        | (true, i3) => sReadListLoop s fuel kind acc2 i3
        | (false, i3) =>
          if sPeek s i3 ≠ rbrackChar then
            .error (.unexpectedTagEnd (sPeek s i3))
          else sListClose s kind acc2 i3
    else sListClose s kind acc i
termination_by structural f _ _ _ => f

/-- Source `SNBTReader.#readCompoundTag`: whitespace, `{`, then the
entry loop. -/
def sReadCompound (s : List Char) : ℕ → ℕ → Except SnbtErr (SnbtTag × ℕ)
  | 0, _ => .error .fuelOut
  | fuel + 1, i =>
    match sExpect s lbraceChar (sSkipWs s i) with
    | .error e => .error e
    | .ok i2 => sReadCompoundLoop s fuel [] i2
termination_by structural f _ => f

/-- The entry loop of `#readCompoundTag`: key (quoted or unquoted,
non-null, nonempty), `:`, value, separator. -/
def sReadCompoundLoop (s : List Char) :
    ℕ → List (List Char × SnbtTag) → ℕ → Except SnbtErr (SnbtTag × ℕ)
  | 0, _, _ => .error .fuelOut
  | fuel + 1, acc, i =>
    if sAllocate s i 1 && sPeek s i ≠ rbraceChar then
      let i1 := sSkipWs s i
      if sPeek s i1 = rbraceChar then sCompoundClose s acc i1
      else
        match sReadString s i1 with
        | .error e => .error e
        | .ok (none, _) => .error (.keyNull (sPeek s i1))
        | .ok (some key, i2) =>
          if key = [] then .error .keyEmpty
          else
            match sExpect s colonChar (sSkipWs s i2) with
            | .error e => .error e
            | .ok i4 =>
              match sReadTag s fuel i4 with
              | .error e => .error e
              | .ok (v, i5) =>
                let acc2 := upsertS acc key v
                match sSkipSep s i5 with
                | (true, i6) => sReadCompoundLoop s fuel acc2 i6
                | (false, i6) =>
                  if sPeek s i6 ≠ rbraceChar then
                    .error (.unexpectedTagEnd (sPeek s i6))
                  else sCompoundClose s acc2 i6
    else sCompoundClose s acc i
termination_by structural f _ _ => f
end

/-- `getTagType` on an SNBT tag (booleans are BYTE). -/
def sTagType : SnbtTag → ℕ
  | .byte _ => 1
  | .boolean _ => 1
  | .short _ => 2
  | .int _ => 3
  | .long _ => 4
  | .float _ => 5
  | .double _ => 6
  | .byteArray _ => 7
  | .str _ => 8
  | .list _ => 9
  | .compound _ => 10
  | .intArray _ => 11
  | .longArray _ => 12

/-- Source `SNBTReader.read` (and the `parse` wrapper): a compound tag,
then the trailing-content check over the remaining characters. -/
def snbtParse (s : List Char) (fuel : ℕ) : Except SnbtErr SnbtTag :=
  match sReadCompound s fuel 0 with
  | .error e => .error e
  | .ok (tag, i) =>
    let lastChar := sPeek s (i - 1)
    let i2 := sSkipWs s i
    if sAllocate s i2 1 then
      if i2 > i ∨ sTagType tag = 9 ∨ sTagType tag = 10 ∨
          lastChar = doubleQuoteChar ∨ lastChar = singleQuoteChar then
        .error .trailingContent
      else .error (.trailingChar (sPeek s i2))
    else pure tag

def natDecAux : ℕ → ℕ → List Char
  | 0, _ => []
  | fuel + 1, n =>
    if n < 10 then [Char.ofNat (48 + n)]
    else natDecAux fuel (n / 10) ++ [Char.ofNat (48 + n % 10)]

/-- Decimal printing of an integer-valued JavaScript number or BigInt
(`${value}`). -/
def intToDec (v : ℤ) : List Char :=
  if v < 0 then Char.ofNat 45 :: natDecAux (v.natAbs + 1) v.natAbs
  else natDecAux (v.natAbs + 1) v.natAbs

/-- The compound-key position of `SNBTWriter.#writeCompound`: an
unquoted key when it fully matches `[0-9a-z_\-.+]+` (`i` flag), else the
quoted form. -/
def snbtWriteKey (k : List Char) : List Char :=
  if k ≠ [] ∧ k.all isUnquotedChar then k else escapeWithQuotes k

mutual

/-- Source `SNBTWriter.#writeTag` with `space` fixed to `""` (so `fancy`
is false everywhere: compact separators, no indentation).  Booleans
print as `true`/`false`; floats and doubles print their kept token (see
`SnbtTag`) with the `f`/`d` suffix; strings go through the same
quote-selection as `escapeWithQuotes`. -/
def snbtWriteTagF : ℕ → SnbtTag → Option (List Char)
  | 0, _ => none
  | fuel + 1, t =>
    match t with
    | .byte v => some (intToDec v ++ [Char.ofNat 98])
    | .boolean b => some (if b then "true".toList else "false".toList)
    | .short v => some (intToDec v ++ [Char.ofNat 115])
    | .int v => some (intToDec v)
    | .long v => some (intToDec v ++ [Char.ofNat 108])
    | .float tok => some (tok ++ [Char.ofNat 102])
    | .double tok => some (tok ++ [Char.ofNat 100])
    | .byteArray v =>
      some ("[B;".toList ++
        List.intercalate [commaChar]
          (v.map fun e => intToDec (byteCtor e) ++ [Char.ofNat 98]) ++
        [rbrackChar])
    | .str sx => some (escapeWithQuotes sx)
    | .list xs =>
      (snbtWriteListF fuel xs).map fun parts =>
        [lbrackChar] ++ List.intercalate [commaChar] parts ++ [rbrackChar]
    | .compound entries =>
      (snbtWriteEntriesF fuel entries).map fun parts =>
        [lbraceChar] ++ List.intercalate [commaChar] parts ++ [rbraceChar]
    | .intArray v =>
      some ("[I;".toList ++
        List.intercalate [commaChar] (v.map fun e => intToDec (intCtor e))
        ++ [rbrackChar])
    | .longArray v =>
      some ("[L;".toList ++
        List.intercalate [commaChar]
          (v.map fun e => intToDec e ++ [Char.ofNat 108]) ++
        [rbrackChar])

/-- The element list of `#writeList` (compact mode). -/
def snbtWriteListF : ℕ → List SnbtTag → Option (List (List Char))
  | 0, _ => none
  | _ + 1, [] => some []
  | fuel + 1, x :: xs => do
    let hd ← snbtWriteTagF fuel x
    let tl ← snbtWriteListF fuel xs
    some (hd :: tl)

/-- The entry list of `#writeCompound` (compact mode): `key:value`. -/
def snbtWriteEntriesF :
    ℕ → List (List Char × SnbtTag) → Option (List (List Char))
  | 0, _ => none
  | _ + 1, [] => some []
  | fuel + 1, (k, v) :: rest => do
    let hd ← snbtWriteTagF fuel v
    let tl ← snbtWriteEntriesF fuel rest
    some ((snbtWriteKey k ++ [colonChar] ++ hd) :: tl)

end

/-- Source `stringify` with default options: `SNBTWriter.write` applies
`#writeCompound` to the sanitized root (`sanitizeCompound` only strips
`undefined` properties, which cannot occur in this embedding).  A
non-compound root is outside the claims below and is not modelled. -/
def snbtStringify (fuel : ℕ) (t : SnbtTag) : Option (List Char) :=
  match t with
  | .compound entries =>
    (snbtWriteEntriesF fuel entries).map fun parts =>
      [lbraceChar] ++ List.intercalate [commaChar] parts ++ [rbraceChar]
  | _ => none

end Nbtify

namespace Nbtify

theorem toInt32_of_range (x : ℤ) (h1 : -2 ^ 31 ≤ x) (h2 : x < 2 ^ 31) :
    toInt32 x = x := by
  unfold toInt32 sint32 u32
  split <;> omega

theorem byteCtor_eq (v : ℤ) : byteCtor v = (v + 2 ^ 7) % 2 ^ 8 - 2 ^ 7 := by
  unfold byteCtor jsSar jsShl toInt32 sint32 u32
  rw [Int.fdiv_eq_ediv _ (by norm_num)]
  simp only [Nat.shiftLeft_eq, show (24 % 32 : ℕ) = 24 from rfl]
  split <;> split <;> omega

theorem shortCtor_eq (v : ℤ) : shortCtor v = (v + 2 ^ 15) % 2 ^ 16 - 2 ^ 15 := by
  unfold shortCtor jsSar jsShl toInt32 sint32 u32
  rw [Int.fdiv_eq_ediv _ (by norm_num)]
  simp only [Nat.shiftLeft_eq, show (16 % 32 : ℕ) = 16 from rfl]
  split <;> split <;> omega

theorem intCtor_eq (v : ℤ) : intCtor v = (v + 2 ^ 31) % 2 ^ 32 - 2 ^ 31 := by
  unfold intCtor jsOr sint32 u32
  simp only [show ((0 : ℤ) % 2 ^ 32).toNat = 0 from rfl, Nat.or_zero]
  split <;> omega

/-- C6 (amended): the primitive wrapper constructors normalize their
argument by two's-complement truncation to the declared width — `Byte`
stores `(v << 24) >> 24`, which equals `((v + 2^7) % 2^8) - 2^7`; `Short`
stores `(v << 16) >> 16 = ((v + 2^15) % 2^16) - 2^15`; `Int` stores
`v | 0 = ((v + 2^31) % 2^32) - 2^31`; each stored value lies in its
declared signed range.  The `Float` wrapper, however, stores its argument
unchanged: no single-precision narrowing is applied. -/
theorem c6_wrapper_normalization :
    (∀ v : ℤ,
      byteCtor v = (v + 2 ^ 7) % 2 ^ 8 - 2 ^ 7
      ∧ shortCtor v = (v + 2 ^ 15) % 2 ^ 16 - 2 ^ 15
      ∧ intCtor v = (v + 2 ^ 31) % 2 ^ 32 - 2 ^ 31
      ∧ -2 ^ 7 ≤ byteCtor v ∧ byteCtor v < 2 ^ 7
      ∧ -2 ^ 15 ≤ shortCtor v ∧ shortCtor v < 2 ^ 15
      ∧ -2 ^ 31 ≤ intCtor v ∧ intCtor v < 2 ^ 31)
    ∧ ∀ q : ℚ, floatCtor q = q := by
  constructor
  · intro v
    have hb := byteCtor_eq v
    have hs := shortCtor_eq v
    have hi := intCtor_eq v
    refine ⟨hb, hs, hi, ?_, ?_, ?_, ?_, ?_, ?_⟩ <;> omega
  · intro q
    rfl

/-- C6 counterexample: the claim states that the F32 wrapper narrows its
argument to single precision, but the `Float` constructor stores the
value unchanged.  At `v = 16777217 = 2^24 + 1` (not representable in
binary32) the stored value differs from the single-precision rounding
`16777216`. -/
theorem c6_float_counterexample :
    floatCtor ((16777217 : ℤ) : ℚ) = ((16777217 : ℤ) : ℚ)
    ∧ froundInt 16777217 = 16777216
    ∧ floatCtor ((16777217 : ℤ) : ℚ) ≠ ((froundInt 16777217 : ℤ) : ℚ) := by
  refine ⟨rfl, by decide, ?_⟩
  rw [show froundInt 16777217 = 16777216 from by decide]
  unfold floatCtor
  norm_num

theorem u32_lt (x : ℤ) : u32 x < 2 ^ 32 := by
  unfold u32; omega

theorem u32_sint32 (m : ℕ) : u32 (sint32 m) = m % 2 ^ 32 := by
  unfold u32 sint32; split <;> omega

theorem sint32_mod (m : ℕ) : sint32 (m % 2 ^ 32) = sint32 m := by
  unfold sint32; simp [Nat.mod_mod_of_dvd]

theorem sint32_lb (m : ℕ) : -2 ^ 31 ≤ sint32 m := by
  unfold sint32; split <;> omega

theorem sint32_ub (m : ℕ) : sint32 m < 2 ^ 31 := by
  unfold sint32; split <;> omega

theorem toInt32_sint32 (m : ℕ) : toInt32 (sint32 m) = sint32 m :=
  toInt32_of_range _ (sint32_lb m) (sint32_ub m)

theorem u32_natCast (m : ℕ) (h : m < 2 ^ 32) : u32 (m : ℤ) = m := by
  unfold u32; omega

-- Nat bit-pattern lemmas
theorem nat_xor_allones {n u : ℕ} (h : u < 2 ^ n) :
    (2 ^ n - 1) ^^^ u = 2 ^ n - 1 - u := by
  have h1 : 2 ^ n - 1 - u = 2 ^ n - (u + 1) := by omega
  apply Nat.eq_of_testBit_eq
  intro i
  rw [h1, Nat.testBit_two_pow_sub_succ h, Nat.testBit_xor,
    Nat.testBit_two_pow_sub_one]
  rcases lt_or_ge i n with hi | hi
  · simp [hi]
  · have : u.testBit i = false :=
      Nat.testBit_lt_two_pow (lt_of_lt_of_le h (Nat.pow_le_pow_right (by norm_num) hi))
    simp [this, Nat.not_lt.mpr hi]

theorem nat_xor_two_pow {n x : ℕ} (h : x < 2 ^ n) : x ^^^ 2 ^ n = x + 2 ^ n := by
  have hor : x ^^^ 2 ^ n = x ||| 2 ^ n := by
    apply Nat.eq_of_testBit_eq
    intro i
    rw [Nat.testBit_xor, Nat.testBit_or]
    rcases eq_or_ne n i with rfl | hne
    · simp [Nat.testBit_lt_two_pow h]
    · simp [Nat.testBit_two_pow_of_ne hne]
  have h2 : 2 ^ n * 1 + x = 2 ^ n * 1 ||| x := Nat.mul_add_lt_is_or h 1
  simp only [mul_one] at h2
  rw [hor, Nat.or_comm, ← h2]
  omega

theorem nat_add_two_pow_xor {n x : ℕ} (h : x < 2 ^ n) :
    (x + 2 ^ n) ^^^ 2 ^ n = x := by
  rw [← nat_xor_two_pow h, Nat.xor_assoc]
  simp


theorem sint32_zero : sint32 0 = 0 := by unfold sint32; norm_num

theorem sint32_small {m : ℕ} (h : m < 2 ^ 31) : sint32 m = m := by
  unfold sint32
  split <;> omega

theorem sint32_big {m : ℕ} (h1 : 2 ^ 31 ≤ m) (h2 : m < 2 ^ 32) :
    sint32 m = (m : ℤ) - 2 ^ 32 := by
  unfold sint32
  split <;> omega

theorem u32_one : u32 1 = 1 := by unfold u32; decide

theorem u32_zero : u32 0 = 0 := by unfold u32; decide

theorem u32_negone : u32 (-1) = 2 ^ 32 - 1 := by unfold u32; decide

theorem u32_neg_two31 : u32 (-2 ^ 31) = 2 ^ 31 := by unfold u32; decide

theorem jsShl_one_63 : jsShl 1 63 = -2 ^ 31 := by
  unfold jsShl
  rw [u32_one]
  decide

theorem jsSar_eq (x : ℤ) (k : ℕ) : jsSar x k = toInt32 x / 2 ^ (k % 32) := by
  unfold jsSar
  rw [Int.fdiv_eq_ediv _ (by positivity)]

theorem zigzag32_eq (n : ℤ) : zigzagDecode32 n = zigzagRef32 n := by
  have hult : u32 n < 2 ^ 32 := u32_lt n
  have hdiv2 : u32 n / 2 < 2 ^ 31 := by omega
  -- the first shift: (n << 63) keeps only bit 0, moved to position 31
  have ha : jsShl n 63 = sint32 (u32 n % 2 * 2 ^ 31) := by
    unfold jsShl
    rw [show (63 % 32 : ℕ) = 31 from rfl, Nat.shiftLeft_eq, ← sint32_mod,
      show (2 : ℕ) ^ 32 = 2 * 2 ^ 31 from rfl, Nat.mul_mod_mul_right]
  -- the logical shift on the reference side
  have hf : jsUshr n 1 = ((u32 n / 2 : ℕ) : ℤ) := by
    unfold jsUshr
    rw [show (1 % 32 : ℕ) = 1 from rfl, Nat.shiftRight_eq_div_pow, pow_one]
  have hand1 : jsAnd n 1 = sint32 (u32 n % 2) := by
    unfold jsAnd
    rw [u32_one, Nat.and_one_is_mod]
  have he : jsAnd n (jsShl 1 63) = sint32 (u32 n &&& 2 ^ 31) := by
    rw [jsShl_one_63]
    unfold jsAnd
    rw [u32_neg_two31]
  have hbit31 : u32 n &&& 2 ^ 31 = (if 2 ^ 31 ≤ u32 n then 2 ^ 31 else 0) := by
    rw [Nat.and_two_pow, Nat.testBit_to_div_mod]
    rcases le_or_lt (2 ^ 31) (u32 n) with hge | hlt
    · rw [if_pos hge, decide_eq_true (by omega : u32 n / 2 ^ 31 % 2 = 1)]
      simp
    · rw [if_neg (by omega), decide_eq_false (by omega : ¬u32 n / 2 ^ 31 % 2 = 1)]
      simp
  rcases Nat.mod_two_eq_zero_or_one (u32 n) with h2 | h2
  · -- even case: the sign-extension of bit 0 is 0
    have hb : jsSar (jsShl n 63) 63 = 0 := by
      rw [ha, h2, Nat.zero_mul, sint32_zero, jsSar_eq, toInt32_of_range 0 (by norm_num) (by norm_num)]
      norm_num
    have hc : jsXor (jsSar (jsShl n 63) 63) n = sint32 (u32 n) := by
      rw [hb]
      unfold jsXor
      rw [u32_zero, Nat.zero_xor]
    have hg : jsNeg (jsAnd n 1) = 0 := by
      rw [hand1, h2, sint32_zero]
      unfold jsNeg
      rw [toInt32_of_range 0 (by norm_num) (by norm_num), neg_zero,
        toInt32_of_range 0 (by norm_num) (by norm_num)]
    rcases lt_or_ge (u32 n) (2 ^ 31) with hlt | hge
    · -- u < 2^31
      have hd : jsSar (jsXor (jsSar (jsShl n 63) 63) n) 1 = ((u32 n / 2 : ℕ) : ℤ) := by
        rw [hc, jsSar_eq, toInt32_sint32, sint32_small hlt,
          show (1 % 32 : ℕ) = 1 from rfl, pow_one]
        omega
      have heval : jsAnd n (jsShl 1 63) = 0 := by
        rw [he, hbit31, if_neg (by omega), sint32_zero]
      unfold zigzagDecode32 zigzagRef32
      rw [hd, heval, hf, hg]
    · -- u ≥ 2^31
      have hd : jsSar (jsXor (jsSar (jsShl n 63) 63) n) 1
          = ((u32 n / 2 : ℕ) : ℤ) - 2 ^ 31 := by
        rw [hc, jsSar_eq, toInt32_sint32, sint32_big hge hult,
          show (1 % 32 : ℕ) = 1 from rfl, pow_one]
        omega
      have heval : jsAnd n (jsShl 1 63) = -2 ^ 31 := by
        rw [he, hbit31, if_pos hge]
        exact sint32_big (by norm_num) (by norm_num)
      unfold zigzagDecode32 zigzagRef32
      rw [hd, heval, hf, hg]
      unfold jsXor
      rw [u32_zero, u32_neg_two31, Nat.xor_zero,
        u32_natCast (u32 n / 2) (by omega),
        show u32 (((u32 n / 2 : ℕ) : ℤ) - 2 ^ 31) = u32 n / 2 + 2 ^ 31 from by
          unfold u32; omega,
        nat_add_two_pow_xor hdiv2]
  · -- odd case: the sign-extension of bit 0 is -1
    have hb : jsSar (jsShl n 63) 63 = -1 := by
      rw [ha, h2, Nat.one_mul, jsSar_eq,
        toInt32_sint32, sint32_big (by norm_num) (by norm_num),
        show (63 % 32 : ℕ) = 31 from rfl]
      norm_num
    have hc : jsXor (jsSar (jsShl n 63) 63) n
        = sint32 (2 ^ 32 - 1 - u32 n) := by
      rw [hb]
      unfold jsXor
      rw [u32_negone, nat_xor_allones hult]
    have hg : jsNeg (jsAnd n 1) = -1 := by
      rw [hand1, h2, sint32_small (by norm_num)]
      rw [show ((1 : ℕ) : ℤ) = 1 from rfl]
      unfold jsNeg
      rw [toInt32_of_range 1 (by norm_num) (by norm_num)]
      rw [toInt32_of_range (-1) (by norm_num) (by norm_num)]
    rcases lt_or_ge (u32 n) (2 ^ 31) with hlt | hge
    · -- u < 2^31, complement is big
      have hd : jsSar (jsXor (jsSar (jsShl n 63) 63) n) 1 = -((u32 n / 2 : ℕ) : ℤ) - 1 := by
        rw [hc, jsSar_eq, toInt32_sint32, sint32_big (by omega) (by omega),
          show (1 % 32 : ℕ) = 1 from rfl, pow_one]
        omega
      have heval : jsAnd n (jsShl 1 63) = 0 := by
        rw [he, hbit31, if_neg (by omega), sint32_zero]
      unfold zigzagDecode32 zigzagRef32
      rw [hd, heval, hf, hg]
      unfold jsXor
      rw [u32_zero, Nat.xor_zero, u32_negone, u32_natCast (u32 n / 2) (by omega),
        show u32 (-((u32 n / 2 : ℕ) : ℤ) - 1) = 2 ^ 32 - 1 - u32 n / 2 from by
          unfold u32; omega,
        Nat.xor_comm (u32 n / 2), nat_xor_allones (by omega : u32 n / 2 < 2 ^ 32)]
    · -- u ≥ 2^31, complement is small
      have hsub_lt : 2 ^ 32 - 1 - u32 n < 2 ^ 31 := by omega
      have hd : jsSar (jsXor (jsSar (jsShl n 63) 63) n) 1
          = ((2 ^ 31 - 1 - u32 n / 2 : ℕ) : ℤ) := by
        rw [hc, jsSar_eq, toInt32_sint32, sint32_small hsub_lt,
          show (1 % 32 : ℕ) = 1 from rfl, pow_one]
        omega
      have heval : jsAnd n (jsShl 1 63) = -2 ^ 31 := by
        rw [he, hbit31, if_pos hge]
        exact sint32_big (by norm_num) (by norm_num)
      unfold zigzagDecode32 zigzagRef32
      rw [hd, heval, hf, hg]
      unfold jsXor
      rw [u32_negone]
      rw [u32_neg_two31]
      rw [u32_natCast (2 ^ 31 - 1 - u32 n / 2) (by omega)]
      rw [u32_natCast (u32 n / 2) (by omega)]
      rw [nat_xor_two_pow (by omega : 2 ^ 31 - 1 - u32 n / 2 < 2 ^ 31)]
      rw [Nat.xor_comm (u32 n / 2)]
      rw [nat_xor_allones (by omega : u32 n / 2 < 2 ^ 32),
        show 2 ^ 31 - 1 - u32 n / 2 + 2 ^ 31 = 2 ^ 32 - 1 - u32 n / 2 from by omega]


theorem zigzag64_eq (n : ℤ) (h : 0 ≤ n) :
    zigzagDecode64 n = if n % 2 = 0 then n / 2 else -(n / 2) - 1 := by
  obtain ⟨m, rfl⟩ := Int.eq_ofNat_of_zero_le h
  unfold zigzagDecode64
  have hshift : (m : ℤ) >>> (1 : ℕ) = ((m >>> 1 : ℕ) : ℤ) := rfl
  have hland : Int.land (m : ℤ) 1 = ((m &&& 1 : ℕ) : ℤ) := rfl
  rcases Nat.mod_two_eq_zero_or_one m with hm | hm
  · rw [hshift, hland, Nat.and_one_is_mod, hm]
    rw [if_pos (by omega : ((m : ℤ) % 2 = 0))]
    have hx : Int.xor ((m >>> 1 : ℕ) : ℤ) (-((0 : ℕ) : ℤ)) = ((m >>> 1 ^^^ 0 : ℕ) : ℤ) := rfl
    rw [hx, Nat.xor_zero, Nat.shiftRight_eq_div_pow, pow_one]
    omega
  · rw [hshift, hland, Nat.and_one_is_mod, hm]
    rw [if_neg (by omega : ¬((m : ℤ) % 2 = 0))]
    have hx : Int.xor ((m >>> 1 : ℕ) : ℤ) (-((1 : ℕ) : ℤ)) = Int.negSucc (m >>> 1 ^^^ 0) := rfl
    rw [hx, Nat.xor_zero, Nat.shiftRight_eq_div_pow, pow_one]
    rw [Int.negSucc_eq]
    omega

/-- C5: the int zig-zag decoding computed by the reader — the expression
`((((n << 63) >> 63) ^ n) >> 1) ^ (n & (1 << 63))` under JavaScript
32-bit operator semantics — coincides with the reference formula
`(n >>> 1) ^ -(n & 1)` (logical right shift, two's-complement 32-bit
arithmetic) for every input; and the long zig-zag decoding
`(n >> 1n) ^ -(n & 1n)` over arbitrary-precision integers maps every
assembled non-negative value `n` to `n/2` when `n` is even and to
`-(n/2) - 1` when `n` is odd, which is the value of the reference
formula over arbitrary-precision integers. -/
theorem c5_zigzag_decode :
    (∀ n : ℤ, zigzagDecode32 n = zigzagRef32 n)
    ∧ ∀ n : ℤ, 0 ≤ n →
        zigzagDecode64 n = if n % 2 = 0 then n / 2 else -(n / 2) - 1 :=
  ⟨zigzag32_eq, zigzag64_eq⟩

/-- Witness for C5 at the concrete assembled values 7 and 6. -/
theorem c5_zigzag_decode_witness :
    zigzagDecode32 7 = zigzagRef32 7
    ∧ zigzagDecode64 7 = -4 ∧ zigzagDecode64 6 = 3 := by
  refine ⟨c5_zigzag_decode.1 7, ?_, ?_⟩
  · rw [c5_zigzag_decode.2 7 (by norm_num)]
    norm_num
  · rw [c5_zigzag_decode.2 6 (by norm_num)]
    norm_num


theorem escapeChars_length (quote : Char) (hq : quote ≠ backslashChar)
    (s : List Char) :
    (escapeChars quote s).length
      = s.length + s.count quote + s.count backslashChar := by
  induction s with
  | nil => simp [escapeChars]
  | cons c cs ih =>
    have hstep : escapeChars quote (c :: cs)
        = (if c = quote ∨ c = backslashChar then [backslashChar, c] else [c])
          ++ escapeChars quote cs := rfl
    rw [hstep, List.length_append, ih]
    by_cases h1 : c = quote
    · subst h1
      simp [List.count_cons, hq]
      omega
    · by_cases h2 : c = backslashChar
      · subst h2
        simp [List.count_cons, Ne.symm hq, h1]
        omega
      · simp [List.count_cons, h1, h2]
        omega


/-- C8: the SNBT writer emits the single-quoted form exactly when that
form requires strictly fewer escapes than the double-quoted form, which
happens exactly when the string contains strictly fewer single-quote
characters than double-quote characters; on ties it emits the
double-quoted form.  (Within each form, `escapeChars` escapes exactly
the backslash and the chosen quote character, each by a preceding
backslash.) -/
theorem c8_quote_selection (s : List Char) :
    (escapeWithQuotes s
        = singleQuoteChar :: escapeChars singleQuoteChar s ++ [singleQuoteChar]
      ↔ s.count singleQuoteChar < s.count doubleQuoteChar)
    ∧ (escapeWithQuotes s
        = doubleQuoteChar :: escapeChars doubleQuoteChar s ++ [doubleQuoteChar]
      ↔ s.count doubleQuoteChar ≤ s.count singleQuoteChar)
    ∧ ((escapeChars singleQuoteChar s).length
        < (escapeChars doubleQuoteChar s).length
      ↔ s.count singleQuoteChar < s.count doubleQuoteChar) := by
  have h1 := escapeChars_length singleQuoteChar (by decide) s
  have h2 := escapeChars_length doubleQuoteChar (by decide) s
  refine ⟨?_, ?_, by omega⟩
  · unfold escapeWithQuotes
    split_ifs with h
    · exact ⟨fun _ => by omega, fun _ => rfl⟩
    · constructor
      · intro heq
        injection heq with hh _
        exact absurd hh (by decide)
      · intro hcount
        exact absurd hcount (by omega)
  · unfold escapeWithQuotes
    split_ifs with h
    · constructor
      · intro heq
        injection heq with hh _
        exact absurd hh (by decide)
      · intro hc
        exact absurd hc (by omega)
    · exact ⟨fun _ => by omega, fun _ => rfl⟩

/-- C9: when compression is unspecified, `read` selects gzip when the
first two bytes are `1F 8B`, selects zlib/deflate when the first byte is
`78`, and otherwise attempts the full decode with compression `null`,
retrying with raw deflate on failure; when both attempts fail, the error
surfaced is the first one (from the compression-`null` attempt). -/
theorem c9_compression_probe {E R : Type} (rangeErr : E)
    (attempt : Option CompressionKind → Except E R) (data : List ℕ)
    (hlen : 2 ≤ data.length) (hbytes : ∀ b ∈ data, b < 256) :
    (data.getD 0 0 = 0x1F ∧ data.getD 1 0 = 0x8B →
      readCompressionDispatch rangeErr attempt data = attempt (some .gzip))
    ∧ (¬(data.getD 0 0 = 0x1F ∧ data.getD 1 0 = 0x8B) → data.getD 0 0 = 0x78 →
      readCompressionDispatch rangeErr attempt data = attempt (some .deflate))
    ∧ (¬(data.getD 0 0 = 0x1F ∧ data.getD 1 0 = 0x8B) → data.getD 0 0 ≠ 0x78 →
      (∀ r, attempt none = .ok r →
        readCompressionDispatch rangeErr attempt data = .ok r)
      ∧ (∀ e r, attempt none = .error e → attempt (some .deflateRaw) = .ok r →
        readCompressionDispatch rangeErr attempt data = .ok r)
      ∧ (∀ e e2, attempt none = .error e →
          attempt (some .deflateRaw) = .error e2 →
        readCompressionDispatch rangeErr attempt data = .error e)) := by
  obtain ⟨a, b, rest, rfl⟩ : ∃ a b rest, data = a :: b :: rest := by
    match data, hlen with
    | a :: b :: rest, _ => exact ⟨a, b, rest, rfl⟩
  have ha : a < 256 := hbytes a (by simp)
  have hb : b < 256 := hbytes b (by simp)
  simp only [List.getD_cons_zero, List.getD_cons_succ]
  have hl2 : ¬(rest.length + 1 + 1 < 2) := by omega
  have hl1 : ¬(rest.length + 1 + 1 < 1) := by omega
  refine ⟨?_, ?_, ?_⟩
  · rintro ⟨rfl, rfl⟩
    simp [readCompressionDispatch, hasGzipHeader, hl2]
  · intro hno h78
    subst h78
    have hgz : ¬(120 * 256 + b = 0x1F8B) := by omega
    simp [readCompressionDispatch, hasGzipHeader, hasZlibHeader, hgz, hl2, hl1]
  · intro hno h78n
    have hgz : ¬(a * 256 + b = 0x1F8B) := by
      intro hEq
      exact hno (by omega)
    simp only [readCompressionDispatch, hasGzipHeader, hasZlibHeader,
      List.getD_cons_zero, List.getD_cons_succ, List.length_cons,
      if_neg hl2, if_neg hl1,
      decide_eq_false hgz, decide_eq_false h78n]
    refine ⟨?_, ?_, ?_⟩
    · intro r hr
      rw [hr]
    · intro e r hr hraw
      rw [hr, hraw]
    · intro e e2 hr hraw
      rw [hr, hraw]


/-- Witness for C9: on a buffer starting `1F 8B` the probe hands the
decode to the gzip attempt. -/
theorem c9_compression_probe_witness :
    readCompressionDispatch ()
        (fun c => (Except.ok c : Except Unit (Option CompressionKind)))
        [0x1F, 0x8B]
      = .ok (some .gzip) := by
  have h := (c9_compression_probe ()
    (fun c => (Except.ok c : Except Unit (Option CompressionKind)))
    [0x1F, 0x8B] (by decide) (by decide)).1 (by decide)
  rw [h]

theorem cyclic_loop_stuck :
    ∀ fuel acc, readCompoundLoopF cyclicBuf false false fuel acc 1
      = .error .fuelOut := by
  intro fuel
  induction fuel with
  | zero => intro acc; rfl
  | succ f ih =>
    intro acc
    match f, ih with
    | 0, _ => rfl
    | g + 1, ih =>
      have hstep : readCompoundLoopF cyclicBuf false false (g + 1 + 1) acc 1
          = readCompoundLoopF cyclicBuf false false (g + 1)
              (upsert acc [] (.byteArray [])) 1 := rfl
      rw [hstep]
      exact ih _

theorem cyclic_tag_stuck :
    ∀ f, readTagF cyclicBuf false false (f + 1) 10 1
      = (readCompoundLoopF cyclicBuf false false f [] 1).bind
          (fun p => pure (.compound p.1, p.2)) := fun _ => rfl

theorem cyclic_readRoot_stuck :
    ∀ fuel, readRootF cyclicBuf false false false false true fuel
      = .error .fuelOut := by
  intro fuel
  match fuel with
  | 0 => rfl
  | f + 1 =>
    have h := cyclic_loop_stuck f []
    have htag : readTagF cyclicBuf false false (f + 1) 10 1
        = .error .fuelOut := by
      rw [cyclic_tag_stuck f, h]
      rfl
    have hpre : readRootF cyclicBuf false false false false true (f + 1)
        = (readTagF cyclicBuf false false (f + 1) 10 1).bind
            (fun p => if true = true ∧ (8 : ℤ) > p.2
              then .error (.trailing p.2 ((8 : ℤ) - p.2) ⟨p.1, none⟩)
              else pure ⟨p.1, none⟩) := rfl
    rw [hpre, htag]
    rfl

/-- C10 counter-evidence: the binary read does not terminate on the
8-byte buffer `0A 07 00 00 FF FF FF F9` (big-endian, anonymous root,
strict): the compound entry's BYTE_ARRAY length field is −7, so after
the entry is read the cursor is moved back to the entry's first byte and
the compound loop re-reads the same entry forever. -/
theorem c10_negative_length_nontermination :
    ¬ ReadRootTerminates cyclicBuf false false false false true := by
  rintro ⟨fuel, h⟩
  exact h (cyclic_readRoot_stuck fuel)



/-- C1 evaluation at a failing buffer: the 6-byte big-endian buffer
`0A 00 02 C0 80 00` is a named empty compound whose root name is the
Modified UTF-8 encoding `C0 80` of U+0000.  The reader decodes it, but
the writer re-encodes the name with the standard UTF-8 encoder
(`TextEncoder`), emitting a 1-byte `00` payload: the round-tripped bytes
`0A 00 01 00 00` differ from the input. -/
theorem c1_modified_utf8_mismatch :
    readRootF [0x0A, 0x00, 0x02, 0xC0, 0x80, 0x00] false false true false true 99
      = .ok ⟨.compound [], some [0]⟩
    ∧ writeRootW false (some [0]) [] = .ok [0x0A, 0x00, 0x01, 0x00, 0x00]
    ∧ ([0x0A, 0x00, 0x01, 0x00, 0x00] : Bytes) ≠ [0x0A, 0x00, 0x02, 0xC0, 0x80, 0x00] :=
  ⟨rfl, rfl, by decide⟩

/-- C4 counterexample: the unsigned varint reader (`#readVarInt`, used
for string lengths in the little-varint dialect) has no overflow check.
On `80 80 80 80 80 01` the accumulated shift reaches 35 — beyond the
claimed 31-bit limit — yet the read succeeds (returning 8, the sixth
byte's contribution shifted by 35 mod 32). -/
theorem c4_unsigned_varint_no_overflow_check :
    readVarInt [0x80, 0x80, 0x80, 0x80, 0x80, 0x01] 20 0 = .ok (8, 6) := rfl

theorem u32_toSigned8 (v : ℕ) :
    u32 (toSigned 8 v) = if v % 256 < 128 then v % 256 else v % 256 + (2 ^ 32 - 256) := by
  unfold u32 toSigned
  split <;> split <;> omega

theorem jsAnd128_msb (v : ℕ) (h : 128 ≤ v % 256) :
    jsAnd (toSigned 8 v) 128 = 128 := by
  unfold jsAnd
  rw [u32_toSigned8, if_neg (by omega),
    show u32 128 = 128 from by unfold u32; decide,
    show (128 : ℕ) = 2 ^ 7 from rfl, Nat.and_two_pow,
    Nat.testBit_to_div_mod,
    decide_eq_true (by omega : (v % 256 + (2 ^ 32 - 256)) / 2 ^ 7 % 2 = 1)]
  unfold sint32
  norm_num

theorem jsAnd128_nomsb (v : ℕ) (h : v % 256 < 128) :
    jsAnd (toSigned 8 v) 128 = 0 := by
  unfold jsAnd
  rw [u32_toSigned8, if_pos h,
    show u32 128 = 128 from by unfold u32; decide,
    show (128 : ℕ) = 2 ^ 7 from rfl, Nat.and_two_pow,
    Nat.testBit_to_div_mod,
    decide_eq_false (by omega : ¬(v % 256) / 2 ^ 7 % 2 = 1)]
  unfold sint32
  norm_num



theorem bindE_ok {α β : Type} (a : α) (k : α → Except RdErr β) :
    (Bind.bind (Except.ok a) k : Except RdErr β) = k a := rfl

theorem bindE_error {α β : Type} (e : RdErr) (k : α → Except RdErr β) :
    (Bind.bind (Except.error e) k : Except RdErr β) = .error e := rfl

theorem readByteP_error (buf : Bytes) (off : ℤ) (e : RdErr)
    (h : readByteP buf off = .error e) : e = .underflow ∨ e = .rangeError := by
  unfold readByteP allocate getU8 at h
  split at h
  · rw [bindE_error] at h
    exact Or.inl (Except.error.inj h).symm
  · rw [bindE_ok] at h
    split at h
    · rw [bindE_ok] at h
      simp [pure, Except.pure] at h
    · rw [bindE_error] at h
      exact Or.inr (Except.error.inj h).symm

theorem readVarIntLoop_no_overflow (buf : Bytes) :
    ∀ fuel off value shift,
      readVarIntLoop buf fuel off value shift ≠ .error .varTooBig := by
  intro fuel
  induction fuel with
  | zero =>
    intro off value shift h
    unfold readVarIntLoop at h
    exact RdErr.noConfusion (Except.error.inj h)
  | succ f ih =>
    intro off value shift h
    unfold readVarIntLoop at h
    rcases hb : readByteP buf off with e | p
    · rw [hb, bindE_error] at h
      rcases readByteP_error buf off e hb with rfl | rfl <;>
        exact RdErr.noConfusion (Except.error.inj h)
    · obtain ⟨b, off2⟩ := p
      rw [hb, bindE_ok] at h
      dsimp only at h
      by_cases hmsb : jsAnd b 128 = 0
      · rw [if_pos hmsb] at h
        exact Except.noConfusion h
      · rw [if_neg hmsb] at h
        exact ih _ _ _ h



theorem readByteP_ok (buf : Bytes) (off : ℤ) (h1 : 0 ≤ off)
    (h2 : off + 1 ≤ (buf.length : ℤ)) :
    readByteP buf off = .ok (toSigned 8 (buf.getD off.toNat 0), off + 1) := by
  unfold readByteP allocate getU8
  rw [if_neg (by omega), bindE_ok, if_pos ⟨h1, h2⟩, bindE_ok]
  rfl

theorem allocate_ok (buf : Bytes) (off k : ℤ)
    (h : off + k ≤ (buf.length : ℤ)) : allocate buf off k = .ok () := by
  unfold allocate
  rw [if_neg (by omega)]

theorem zz32_overflow_aux (buf : Bytes) :
    ∀ n fuel off (result : ℤ) j, n = 10 - j → j ≤ 9 → n ≤ fuel → 0 ≤ off →
      (∀ i : ℕ, i < n →
        off + i + 1 ≤ (buf.length : ℤ)
        ∧ 128 ≤ buf.getD (off + i).toNat 0 % 256) →
      readVarIntZigZagLoop buf fuel off result (7 * j) = .error .varTooBig := by
  intro n
  induction n with
  | zero =>
    intro fuel off result j hn
    omega
  | succ m ih =>
    intro fuel off result j hn hj hfuel hoff hbytes
    match fuel, hfuel with
    | f + 1, _ =>
      have hb := hbytes 0 (by omega)
      have hoff0 : (off + (0 : ℕ)) = off := by push_cast; ring
      rw [hoff0] at hb
      unfold readVarIntZigZagLoop
      rw [allocate_ok buf off 1 (by omega), bindE_ok,
        readByteP_ok buf off hoff (by omega), bindE_ok]
      dsimp only
      rw [if_neg (by
        rw [jsAnd128_msb _ hb.2]
        norm_num)]
      by_cases hm : m = 0
      · subst hm
        have hj9 : j = 9 := by omega
        subst hj9
        rw [if_pos (by omega)]
      · rw [if_neg (by omega)]
        have : 7 * j + 7 = 7 * (j + 1) := by ring
        rw [this]
        apply ih f (off + 1) _ (j + 1) (by omega) (by omega) (by omega) (by omega)
        intro i hi
        have := hbytes (i + 1) (by omega)
        have hcast : ((i + 1 : ℕ) : ℤ) = (i : ℤ) + 1 := by push_cast; ring
        rw [hcast] at this
        have harith : off + 1 + (i : ℕ) = off + ((i : ℤ) + 1) := by ring
        rw [harith]
        exact this



theorem zz64_overflow_aux (buf : Bytes) :
    ∀ n fuel off (result : ℤ) j, n = 10 - j → j ≤ 9 → n ≤ fuel → 0 ≤ off →
      (∀ i : ℕ, i < n →
        off + i + 1 ≤ (buf.length : ℤ)
        ∧ 128 ≤ buf.getD (off + i).toNat 0 % 256) →
      readVarLongZigZagLoop buf fuel off result (7 * j) = .error .varTooBig := by
  intro n
  induction n with
  | zero =>
    intro fuel off result j hn
    omega
  | succ m ih =>
    intro fuel off result j hn hj hfuel hoff hbytes
    match fuel, hfuel with
    | f + 1, _ =>
      have hb := hbytes 0 (by omega)
      have hoff0 : (off + (0 : ℕ)) = off := by push_cast; ring
      rw [hoff0] at hb
      unfold readVarLongZigZagLoop
      rw [allocate_ok buf off 1 (by omega), bindE_ok,
        readByteP_ok buf off hoff (by omega), bindE_ok]
      dsimp only
      rw [if_neg (by
        rw [jsAnd128_msb _ hb.2]
        norm_num)]
      by_cases hm : m = 0
      · subst hm
        have hj9 : j = 9 := by omega
        subst hj9
        rw [if_pos (by omega)]
      · rw [if_neg (by omega)]
        have : 7 * j + 7 = 7 * (j + 1) := by ring
        rw [this]
        apply ih f (off + 1) _ (j + 1) (by omega) (by omega) (by omega) (by omega)
        intro i hi
        have := hbytes (i + 1) (by omega)
        have hcast : ((i + 1 : ℕ) : ℤ) = (i : ℤ) + 1 := by push_cast; ring
        rw [hcast] at this
        have harith : off + 1 + (i : ℕ) = off + ((i : ℤ) + 1) := by ring
        rw [harith]
        exact this

theorem readVarIntZigZag_overflow (buf : Bytes) (fuel : ℕ) (off : ℤ)
    (hfuel : 10 ≤ fuel) (hoff : 0 ≤ off)
    (hbytes : ∀ i : ℕ, i < 10 →
      off + i + 1 ≤ (buf.length : ℤ)
      ∧ 128 ≤ buf.getD (off + i).toNat 0 % 256) :
    readVarIntZigZag buf fuel off = .error .varTooBig := by
  unfold readVarIntZigZag
  rw [show (0 : ℕ) = 7 * 0 from rfl,
    zz32_overflow_aux buf 10 fuel off 0 0 (by omega) (by omega) hfuel hoff hbytes]
  rfl

theorem readVarLongZigZag_overflow (buf : Bytes) (fuel : ℕ) (off : ℤ)
    (hfuel : 10 ≤ fuel) (hoff : 0 ≤ off)
    (hbytes : ∀ i : ℕ, i < 10 →
      off + i + 1 ≤ (buf.length : ℤ)
      ∧ 128 ≤ buf.getD (off + i).toNat 0 % 256) :
    readVarLongZigZag buf fuel off = .error .varTooBig := by
  unfold readVarLongZigZag
  rw [show (0 : ℕ) = 7 * 0 from rfl,
    zz64_overflow_aux buf 10 fuel off 0 0 (by omega) (by omega) hfuel hoff hbytes]
  rfl




theorem zz32_nine_aux (buf : Bytes) :
    ∀ n fuel off (result : ℤ) j, n = 10 - j → j ≤ 9 → n ≤ fuel → 0 ≤ off →
      (∀ i : ℕ, i + 1 < n →
        off + i + 1 ≤ (buf.length : ℤ)
        ∧ 128 ≤ buf.getD (off + i).toNat 0 % 256) →
      off + n ≤ (buf.length : ℤ) →
      buf.getD (off + n - 1).toNat 0 % 256 < 128 →
      ∃ v, readVarIntZigZagLoop buf fuel off result (7 * j) =
        .ok (v, off + n) := by
  intro n
  induction n with
  | zero =>
    intro fuel off result j hn hj
    omega
  | succ m ih =>
    intro fuel off result j hn hj hfuel hoff hcont hlen hlast
    match fuel, hfuel with
    | f + 1, _ =>
      unfold readVarIntZigZagLoop
      rw [allocate_ok buf off 1 (by push_cast at hlen ⊢; omega), bindE_ok,
        readByteP_ok buf off hoff (by push_cast at hlen ⊢; omega), bindE_ok]
      dsimp only
      by_cases hm : m = 0
      · subst hm
        rw [show off + ((1 : ℕ) : ℤ) - 1 = off from by push_cast; ring]
          at hlast
        rw [if_pos (jsAnd128_nomsb _ hlast)]
        refine ⟨jsOr result (jsShl (jsAnd (toSigned 8
          (buf.getD off.toNat 0)) 127) (7 * j)), ?_⟩
        push_cast
        rfl
      · have hb := hcont 0 (by omega)
        rw [show (off + ((0 : ℕ) : ℤ)) = off from by push_cast; ring] at hb
        rw [if_neg (by rw [jsAnd128_msb _ hb.2]; norm_num),
          if_neg (by omega : ¬ 7 * j + 7 > 63),
          show 7 * j + 7 = 7 * (j + 1) from by ring]
        obtain ⟨v, hv⟩ := ih f (off + 1) _ (j + 1) (by omega) (by omega)
          (by omega) (by omega)
          (fun i hi => by
            have hstep := hcont (i + 1) (by omega)
            rw [show (off + ((i + 1 : ℕ) : ℤ)) = off + 1 + (i : ℕ) from by
              push_cast; ring] at hstep
            exact hstep)
          (by push_cast at hlen ⊢; omega)
          (by
            rw [show off + 1 + ((m : ℕ) : ℤ) - 1
                = off + ((m + 1 : ℕ) : ℤ) - 1 from by push_cast; ring]
            exact hlast)
        exact ⟨v, by
          rw [hv, show off + 1 + ((m : ℕ) : ℤ)
            = off + ((m + 1 : ℕ) : ℤ) from by push_cast; ring]⟩

theorem zz64_nine_aux (buf : Bytes) :
    ∀ n fuel off (result : ℤ) j, n = 10 - j → j ≤ 9 → n ≤ fuel → 0 ≤ off →
      (∀ i : ℕ, i + 1 < n →
        off + i + 1 ≤ (buf.length : ℤ)
        ∧ 128 ≤ buf.getD (off + i).toNat 0 % 256) →
      off + n ≤ (buf.length : ℤ) →
      buf.getD (off + n - 1).toNat 0 % 256 < 128 →
      ∃ v, readVarLongZigZagLoop buf fuel off result (7 * j) =
        .ok (v, off + n) := by
  intro n
  induction n with
  | zero =>
    intro fuel off result j hn hj
    omega
  | succ m ih =>
    intro fuel off result j hn hj hfuel hoff hcont hlen hlast
    match fuel, hfuel with
    | f + 1, _ =>
      unfold readVarLongZigZagLoop
      rw [allocate_ok buf off 1 (by push_cast at hlen ⊢; omega), bindE_ok,
        readByteP_ok buf off hoff (by push_cast at hlen ⊢; omega), bindE_ok]
      dsimp only
      by_cases hm : m = 0
      · subst hm
        rw [show off + ((1 : ℕ) : ℤ) - 1 = off from by push_cast; ring]
          at hlast
        rw [if_pos (jsAnd128_nomsb _ hlast)]
        refine ⟨Int.lor result (Int.land (toSigned 8
          (buf.getD off.toNat 0)) 127 <<< ((7 * j : ℕ) : ℤ)), ?_⟩
        push_cast
        rfl
      · have hb := hcont 0 (by omega)
        rw [show (off + ((0 : ℕ) : ℤ)) = off from by push_cast; ring] at hb
        rw [if_neg (by rw [jsAnd128_msb _ hb.2]; norm_num),
          if_neg (by omega : ¬ 7 * j + 7 > 63),
          show 7 * j + 7 = 7 * (j + 1) from by ring]
        obtain ⟨v, hv⟩ := ih f (off + 1) _ (j + 1) (by omega) (by omega)
          (by omega) (by omega)
          (fun i hi => by
            have hstep := hcont (i + 1) (by omega)
            rw [show (off + ((i + 1 : ℕ) : ℤ)) = off + 1 + (i : ℕ) from by
              push_cast; ring] at hstep
            exact hstep)
          (by push_cast at hlen ⊢; omega)
          (by
            rw [show off + 1 + ((m : ℕ) : ℤ) - 1
                = off + ((m + 1 : ℕ) : ℤ) - 1 from by push_cast; ring]
            exact hlast)
        exact ⟨v, by
          rw [hv, show off + 1 + ((m : ℕ) : ℤ)
            = off + ((m + 1 : ℕ) : ℤ) from by push_cast; ring]⟩

theorem readVarIntZigZag_nine_ok (buf : Bytes) (fuel : ℕ) (off : ℤ)
    (hfuel : 10 ≤ fuel) (hoff : 0 ≤ off)
    (hcont : ∀ i : ℕ, i + 1 < 10 →
      off + i + 1 ≤ (buf.length : ℤ)
      ∧ 128 ≤ buf.getD (off + i).toNat 0 % 256)
    (hlen : off + 10 ≤ (buf.length : ℤ))
    (hlast : buf.getD (off + 9).toNat 0 % 256 < 128) :
    ∃ v, readVarIntZigZag buf fuel off = .ok (v, off + 10) := by
  have hl : off + ((10 : ℕ) : ℤ) ≤ (buf.length : ℤ) := by push_cast; omega
  have hlast2 : buf.getD (off + ((10 : ℕ) : ℤ) - 1).toNat 0 % 256 < 128 := by
    rw [show off + ((10 : ℕ) : ℤ) - 1 = off + 9 from by push_cast; ring]
    exact hlast
  obtain ⟨v, hv⟩ := zz32_nine_aux buf 10 fuel off 0 0 (by omega) (by omega)
    (by omega) hoff hcont hl hlast2
  refine ⟨zigzagDecode32 v, ?_⟩
  unfold readVarIntZigZag
  rw [show (0 : ℕ) = 7 * 0 from rfl, hv, bindE_ok]
  dsimp only
  rw [show off + ((10 : ℕ) : ℤ) = off + 10 from by push_cast; ring]
  rfl

theorem readVarLongZigZag_nine_ok (buf : Bytes) (fuel : ℕ) (off : ℤ)
    (hfuel : 10 ≤ fuel) (hoff : 0 ≤ off)
    (hcont : ∀ i : ℕ, i + 1 < 10 →
      off + i + 1 ≤ (buf.length : ℤ)
      ∧ 128 ≤ buf.getD (off + i).toNat 0 % 256)
    (hlen : off + 10 ≤ (buf.length : ℤ))
    (hlast : buf.getD (off + 9).toNat 0 % 256 < 128) :
    ∃ v, readVarLongZigZag buf fuel off = .ok (v, off + 10) := by
  have hl : off + ((10 : ℕ) : ℤ) ≤ (buf.length : ℤ) := by push_cast; omega
  have hlast2 : buf.getD (off + ((10 : ℕ) : ℤ) - 1).toNat 0 % 256 < 128 := by
    rw [show off + ((10 : ℕ) : ℤ) - 1 = off + 9 from by push_cast; ring]
    exact hlast
  obtain ⟨v, hv⟩ := zz64_nine_aux buf 10 fuel off 0 0 (by omega) (by omega)
    (by omega) hoff hcont hl hlast2
  refine ⟨zigzagDecode64 v, ?_⟩
  unfold readVarLongZigZag
  rw [show (0 : ℕ) = 7 * 0 from rfl, hv, bindE_ok]
  dsimp only
  rw [show off + ((10 : ℕ) : ℤ) = off + 10 from by push_cast; ring]
  rfl

theorem jsAnd127_toSigned8 (v : ℕ) :
    jsAnd (toSigned 8 v) 127 = ((v % 128 : ℕ) : ℤ) := by
  unfold jsAnd
  rw [u32_toSigned8, show u32 127 = 127 from by unfold u32; decide,
    show (127 : ℕ) = 2 ^ 7 - 1 from rfl,
    Nat.and_pow_two_sub_one_eq_mod]
  unfold sint32
  split
  · norm_num
    omega
  · omega

theorem or_step (k W b : ℕ) (hk : k ≤ 4) (hW : W < 2 ^ (7 * k)) :
    jsOr (sint32 W) (jsShl ((b % 128 : ℕ) : ℤ) (7 * k))
      = sint32 (W + b % 128 % 2 ^ (32 - 7 * k) * 2 ^ (7 * k)) := by
  have h7k : 7 * k < 32 := by omega
  have hWlt : W < 2 ^ 32 := lt_of_lt_of_le hW (Nat.pow_le_pow_right (by norm_num) (by omega))
  unfold jsOr jsShl
  rw [u32_sint32, Nat.mod_eq_of_lt hWlt,
    u32_natCast (b % 128) (by
      have : b % 128 < 128 := Nat.mod_lt b (by norm_num)
      omega),
    Nat.mod_eq_of_lt h7k, Nat.shiftLeft_eq, u32_sint32,
    show (2 : ℕ) ^ 32 = 2 ^ (32 - 7 * k) * 2 ^ (7 * k) from by
      rw [← pow_add]
      congr 1
      omega,
    Nat.mul_mod_mul_right]
  have hdisj := Nat.mul_add_lt_is_or hW (b % 128 % 2 ^ (32 - 7 * k))
  rw [Nat.or_comm, mul_comm (b % 128 % 2 ^ (32 - 7 * k)) (2 ^ (7 * k)), ← hdisj]
  congr 1
  ring

theorem readVarIntLoop_decode (buf : Bytes) :
    ∀ bs : List ℕ, ∀ k fuel (off : ℤ) (W : ℕ),
      bs ≠ [] → bs.length + k ≤ 5 → bs.length ≤ fuel → 0 ≤ off →
      W < 2 ^ (7 * k) →
      (∀ i : ℕ, i < bs.length → off + i + 1 ≤ (buf.length : ℤ)
        ∧ buf.getD (off + i).toNat 0 = bs.getD i 0) →
      (∀ i : ℕ, i + 1 < bs.length → 128 ≤ bs.getD i 0 % 256) →
      bs.getD (bs.length - 1) 0 % 256 < 128 →
      readVarIntLoop buf fuel off (sint32 W) (7 * k)
        = .ok (sint32 ((W + varintVal bs * 2 ^ (7 * k)) % 2 ^ 32),
            off + bs.length) := by
  intro bs
  induction bs with
  | nil => intro k fuel off W hne; exact absurd rfl hne
  | cons b rest ih =>
    intro k fuel off W _ hlen hfuel hoff hW hslice hmid hlast
    obtain ⟨f, rfl⟩ : ∃ f, fuel = f + 1 := by
      refine ⟨fuel - 1, ?_⟩
      have : 1 ≤ fuel := le_trans (by simp) hfuel
      omega
    have hb := hslice 0 (by simp)
    have hoff0 : (off + ((0 : ℕ) : ℤ)) = off := by push_cast; ring
    rw [hoff0] at hb
    have hk4 : k ≤ 4 := by
      simp only [List.length_cons] at hlen
      omega
    have hgetb : buf.getD off.toNat 0 = b := by
      have := hb.2
      simpa using this
    unfold readVarIntLoop
    rw [readByteP_ok buf off hoff (by
        have := hb.1
        push_cast at this ⊢
        omega), bindE_ok]
    dsimp only
    rw [hgetb, jsAnd127_toSigned8, or_step k W b hk4 hW]
    rcases rest with _ | ⟨b2, rest2⟩
    · -- last byte: MSB clear
      have hlast2 : b % 256 < 128 := by simpa using hlast
      rw [if_pos (by rw [jsAnd128_nomsb _ hlast2])]
      have hmod : b % 128 % 2 ^ (32 - 7 * k) * 2 ^ (7 * k)
          = b % 128 * 2 ^ (7 * k) % 2 ^ 32 := by
        rw [show (2 : ℕ) ^ 32 = 2 ^ (32 - 7 * k) * 2 ^ (7 * k) from by
            rw [← pow_add]
            congr 1
            omega,
          Nat.mul_mod_mul_right]
      have hsum : W + b % 128 % 2 ^ (32 - 7 * k) * 2 ^ (7 * k)
          = (W + varintVal [b] * 2 ^ (7 * k)) % 2 ^ 32 := by
        have hWlt : W < 2 ^ 32 :=
          lt_of_lt_of_le hW (Nat.pow_le_pow_right (by norm_num) (by omega))
        have h1 : b % 128 % 2 ^ (32 - 7 * k) * 2 ^ (7 * k) < 2 ^ 32 := by
          rw [hmod]
          exact Nat.mod_lt _ (by positivity)
        have h2 : W + b % 128 % 2 ^ (32 - 7 * k) * 2 ^ (7 * k) < 2 ^ 32 := by
          have hx : b % 128 % 2 ^ (32 - 7 * k) ≤ 2 ^ (32 - 7 * k) - 1 := by
            have := Nat.mod_lt (b % 128) (show 0 < 2 ^ (32 - 7 * k) by positivity)
            omega
          have hy : b % 128 % 2 ^ (32 - 7 * k) * 2 ^ (7 * k)
              ≤ (2 ^ (32 - 7 * k) - 1) * 2 ^ (7 * k) :=
            Nat.mul_le_mul_right _ hx
          have hz : (2 ^ (32 - 7 * k) - 1) * 2 ^ (7 * k)
              = 2 ^ 32 - 2 ^ (7 * k) := by
            rw [Nat.sub_mul, one_mul, ← pow_add]
            congr 2
            omega
          omega
        rw [show varintVal [b] = b % 128 from by
            unfold varintVal varintVal
            omega]
        rw [show (W + b % 128 * 2 ^ (7 * k)) % 2 ^ 32
            = (W + b % 128 * 2 ^ (7 * k) % 2 ^ 32) % 2 ^ 32 from by
            conv_lhs => rw [Nat.add_mod]
            conv_rhs => rw [Nat.add_mod, Nat.mod_mod_of_dvd _ (dvd_refl _)],
          ← hmod, Nat.mod_eq_of_lt h2]
      rw [hsum]
      have : off + ((1 : ℕ) : ℤ) = off + 1 := by push_cast; ring
      rw [show (List.length [b] : ℤ) = ((1 : ℕ) : ℤ) from by simp, this]
      rfl
    · -- continuation byte: MSB set
      have hmsb : 128 ≤ b % 256 := by
        have := hmid 0 (by simp)
        simpa using this
      rw [if_neg (by rw [jsAnd128_msb _ hmsb]; norm_num)]
      have hksmall : k ≤ 3 := by
        simp only [List.length_cons] at hlen
        omega
      have htrunc : b % 128 % 2 ^ (32 - 7 * k) = b % 128 := by
        apply Nat.mod_eq_of_lt
        have h1 : b % 128 < 128 := Nat.mod_lt b (by norm_num)
        have h2 : (128 : ℕ) = 2 ^ 7 := rfl
        have h3 : (2 : ℕ) ^ 7 ≤ 2 ^ (32 - 7 * k) :=
          Nat.pow_le_pow_right (by norm_num) (by omega)
        omega
      rw [htrunc]
      have hW2 : W + b % 128 * 2 ^ (7 * k) < 2 ^ (7 * (k + 1)) := by
        have h1 : b % 128 < 128 := Nat.mod_lt b (by norm_num)
        have h2 : b % 128 * 2 ^ (7 * k) ≤ 127 * 2 ^ (7 * k) :=
          Nat.mul_le_mul_right _ (by omega)
        have h3 : (2 : ℕ) ^ (7 * (k + 1)) = 128 * 2 ^ (7 * k) := by
          rw [show 7 * (k + 1) = 7 + 7 * k from by ring, pow_add]
          norm_num
        omega
      have hstep := ih (k + 1) f (off + 1) (W + b % 128 * 2 ^ (7 * k))
        (by simp) (by simp only [List.length_cons] at hlen ⊢; omega)
        (by simp only [List.length_cons] at hfuel ⊢; omega)
        (by omega) hW2
        (by
          intro i hi
          have := hslice (i + 1) (by simp only [List.length_cons] at hi ⊢; omega)
          have hcast : ((i + 1 : ℕ) : ℤ) = (i : ℤ) + 1 := by push_cast; ring
          rw [hcast] at this
          have harith : off + 1 + (i : ℤ) = off + ((i : ℤ) + 1) := by ring
          rw [harith]
          simpa using this)
        (by
          intro i hi
          have := hmid (i + 1) (by simp only [List.length_cons] at hi ⊢; omega)
          simpa using this)
        (by
          have := hlast
          simp only [List.length_cons] at this ⊢
          simpa using this)
      rw [show 7 * k + 7 = 7 * (k + 1) from by ring, hstep]
      have hA : W + b % 128 * 2 ^ (7 * k)
          + varintVal (b2 :: rest2) * 2 ^ (7 * (k + 1))
          = W + varintVal (b :: b2 :: rest2) * 2 ^ (7 * k) := by
        rw [show varintVal (b :: b2 :: rest2)
            = b % 128 + 128 * varintVal (b2 :: rest2) from rfl,
          show 7 * (k + 1) = 7 * k + 7 from by ring, pow_add]
        ring
      have hB : off + 1 + ((b2 :: rest2).length : ℤ)
          = off + ((b :: b2 :: rest2).length : ℤ) := by
        simp only [List.length_cons]
        push_cast
        ring
      rw [hA, hB]



theorem u32_natCast_mod (v : ℕ) : u32 (v : ℤ) = v % 2 ^ 32 := by
  unfold u32
  omega

theorem readVarInt_decode (buf : Bytes) (bs : List ℕ) (fuel : ℕ) (off : ℤ)
    (hne : bs ≠ []) (hlen : bs.length ≤ 5) (hfuel : bs.length ≤ fuel)
    (hoff : 0 ≤ off)
    (hslice : ∀ i : ℕ, i < bs.length → off + i + 1 ≤ (buf.length : ℤ)
      ∧ buf.getD (off + i).toNat 0 = bs.getD i 0)
    (hmid : ∀ i : ℕ, i + 1 < bs.length → 128 ≤ bs.getD i 0 % 256)
    (hlast : bs.getD (bs.length - 1) 0 % 256 < 128) :
    readVarInt buf fuel off
      = .ok (toInt32 ((varintVal bs : ℕ) : ℤ), off + bs.length) := by
  unfold readVarInt
  rw [show (0 : ℤ) = sint32 0 from by rw [sint32_zero],
    show (0 : ℕ) = 7 * 0 from rfl,
    readVarIntLoop_decode buf bs 0 fuel off 0 hne (by omega) hfuel hoff
      (by norm_num) hslice hmid hlast]
  rw [show (0 + varintVal bs * 2 ^ (7 * 0)) % 2 ^ 32 = varintVal bs % 2 ^ 32 from by
      norm_num]
  rw [show toInt32 ((varintVal bs : ℕ) : ℤ) = sint32 (varintVal bs % 2 ^ 32) from by
      unfold toInt32
      rw [u32_natCast_mod]]

/-- C4 (amended): only the zig-zag varint readers check for overflow,
and both use the 63-bit shift limit — the int-sized zig-zag reader as
well as the long-sized one fail with the "varint is too big" error
exactly once ten continuation bytes (MSB set) have been consumed, i.e.
when the accumulated shift exceeds 63: nine continuation bytes followed
by a terminating byte still succeed (the shift reaches 63, past the
originally claimed 31-bit limit), and a tenth continuation byte raises
the error.  The unsigned varint reader (`#readVarInt`, used for string
lengths in the little-varint dialect) has no overflow check at all: it
can never return that error.  A varint of at most five bytes is decoded
by summing each byte's low 7 bits shifted by `7·i` until a byte with
MSB 0, truncated to 32 bits. -/
theorem c4_varint_overflow :
    (∀ (buf : Bytes) (fuel : ℕ) (off value : ℤ) (shift : ℕ),
      readVarIntLoop buf fuel off value shift ≠ .error .varTooBig)
    ∧ (∀ (buf : Bytes) (fuel : ℕ) (off : ℤ), 10 ≤ fuel → 0 ≤ off →
        (∀ i : ℕ, i < 10 → off + i + 1 ≤ (buf.length : ℤ)
          ∧ 128 ≤ buf.getD (off + i).toNat 0 % 256) →
        readVarIntZigZag buf fuel off = .error .varTooBig
        ∧ readVarLongZigZag buf fuel off = .error .varTooBig)
    ∧ (∀ (buf : Bytes) (fuel : ℕ) (off : ℤ), 10 ≤ fuel → 0 ≤ off →
        (∀ i : ℕ, i + 1 < 10 → off + i + 1 ≤ (buf.length : ℤ)
          ∧ 128 ≤ buf.getD (off + i).toNat 0 % 256) →
        off + 10 ≤ (buf.length : ℤ) →
        buf.getD (off + 9).toNat 0 % 256 < 128 →
        (∃ v, readVarIntZigZag buf fuel off = .ok (v, off + 10))
        ∧ ∃ v, readVarLongZigZag buf fuel off = .ok (v, off + 10))
    ∧ ∀ (buf : Bytes) (bs : List ℕ) (fuel : ℕ) (off : ℤ),
        bs ≠ [] → bs.length ≤ 5 → bs.length ≤ fuel → 0 ≤ off →
        (∀ i : ℕ, i < bs.length → off + i + 1 ≤ (buf.length : ℤ)
          ∧ buf.getD (off + i).toNat 0 = bs.getD i 0) →
        (∀ i : ℕ, i + 1 < bs.length → 128 ≤ bs.getD i 0 % 256) →
        bs.getD (bs.length - 1) 0 % 256 < 128 →
        readVarInt buf fuel off
          = .ok (toInt32 ((varintVal bs : ℕ) : ℤ), off + bs.length) := by
  refine ⟨fun buf fuel off value shift =>
      readVarIntLoop_no_overflow buf fuel off value shift,
    fun buf fuel off h1 h2 h3 =>
      ⟨readVarIntZigZag_overflow buf fuel off h1 h2 h3,
        readVarLongZigZag_overflow buf fuel off h1 h2 h3⟩,
    fun buf fuel off h1 h2 h3 h4 h5 =>
      ⟨readVarIntZigZag_nine_ok buf fuel off h1 h2 h3 h4 h5,
        readVarLongZigZag_nine_ok buf fuel off h1 h2 h3 h4 h5⟩,
    fun buf bs fuel off h1 h2 h3 h4 h5 h6 h7 =>
      readVarInt_decode buf bs fuel off h1 h2 h3 h4 h5 h6 h7⟩

/-- Witness for C4 at concrete inputs: ten continuation bytes overflow
both zig-zag readers while nine continuation bytes followed by a
terminator still succeed (the shift reaches 63); the two-byte varint
`85 01` decodes to 133; the unsigned reader cannot report overflow. -/
theorem c4_varint_overflow_witness :
    readVarIntZigZag (List.replicate 10 128) 10 0 = .error .varTooBig
    ∧ readVarLongZigZag (List.replicate 10 128) 10 0 = .error .varTooBig
    ∧ (∃ v, readVarIntZigZag (List.replicate 9 128 ++ [1]) 10 0
        = .ok (v, 10))
    ∧ (∃ v, readVarLongZigZag (List.replicate 9 128 ++ [1]) 10 0
        = .ok (v, 10))
    ∧ readVarInt [0x85, 0x01] 2 0 = .ok (133, 2)
    ∧ readVarIntLoop [] 1 0 0 0 ≠ .error .varTooBig := by
  have h2 := c4_varint_overflow.2.1 (List.replicate 10 128) 10 0
    (by norm_num) (by norm_num) (by decide)
  have h9 := c4_varint_overflow.2.2.1 (List.replicate 9 128 ++ [1]) 10 0
    (by norm_num) (by norm_num)
    (by
      intro i hi
      have h8 : i < 9 := by omega
      interval_cases i <;> exact (by decide))
    (by decide) (by decide)
  have h3 := c4_varint_overflow.2.2.2 [0x85, 0x01] [0x85, 0x01] 2 0
    (by decide) (by decide) (by decide) (by norm_num) (by decide)
    (by
      intro i hi
      simp only [List.length_cons, List.length_nil] at hi
      have h0 : i = 0 := by omega
      subst h0
      decide)
    (by decide)
  refine ⟨h2.1, h2.2, h9.1, h9.2, ?_, c4_varint_overflow.1 [] 1 0 0 0⟩
  rw [h3]
  rfl

end Nbtify

namespace Nbtify

theorem take_append_le {α : Type} (l1 l2 : List α) (n : ℕ)
    (h : n ≤ l1.length) : (l1 ++ l2).take n = l1.take n := by
  rw [List.take_append_eq_append_take, Nat.sub_eq_zero_of_le h]
  simp

theorem getD_append_lt {α : Type} (l1 l2 : List α) (n : ℕ) (d : α)
    (h : n < l1.length) : (l1 ++ l2).getD n d = l1.getD n d := by
  rw [List.getD_eq_getElem?_getD, List.getD_eq_getElem?_getD,
    List.getElem?_append_left h]

theorem getU8_ok (buf : Bytes) (o : ℤ) (v : ℕ) (h : getU8 buf o = .ok v) :
    0 ≤ o ∧ o + 1 ≤ (buf.length : ℤ) := by
  unfold getU8 at h
  split at h
  · assumption
  · exact Except.noConfusion h

theorem getU8_ext (buf ext : Bytes) (o : ℤ) (v : ℕ)
    (h : getU8 buf o = .ok v) : getU8 (buf ++ ext) o = .ok v := by
  have hb := getU8_ok buf o v h
  unfold getU8 at h ⊢
  rw [if_pos hb] at h
  rw [if_pos (by
    constructor
    · exact hb.1
    · simp only [List.length_append]
      push_cast
      omega)]
  rw [← h]
  congr 1
  apply getD_append_lt
  omega

theorem getBytes_ok (buf : Bytes) (o : ℤ) (k : ℕ) (bs : Bytes)
    (h : getBytes buf o k = .ok bs) :
    0 ≤ o ∧ o + k ≤ (buf.length : ℤ) := by
  unfold getBytes at h
  split at h
  · assumption
  · exact Except.noConfusion h

theorem getBytes_ext (buf ext : Bytes) (o : ℤ) (k : ℕ) (bs : Bytes)
    (h : getBytes buf o k = .ok bs) : getBytes (buf ++ ext) o k = .ok bs := by
  have hb := getBytes_ok buf o k bs h
  unfold getBytes at h ⊢
  rw [if_pos hb] at h
  rw [if_pos (by
    refine ⟨hb.1, ?_⟩
    simp only [List.length_append]
    push_cast
    omega)]
  rw [← h]
  congr 1
  rw [List.drop_append_eq_append_drop, Nat.sub_eq_zero_of_le (by omega),
    List.drop_zero]
  apply take_append_le
  simp only [List.length_drop]
  omega

theorem allocate_ext (buf ext : Bytes) (o k : ℤ)
    (h : allocate buf o k = .ok ()) : allocate (buf ++ ext) o k = .ok () := by
  unfold allocate at h ⊢
  split at h
  · exact Except.noConfusion h
  · rw [if_neg (by
      simp only [List.length_append]
      push_cast
      omega)]

end Nbtify

namespace Nbtify

theorem readShortFixed_eq (buf : Bytes) (le : Bool) (off : ℤ) :
    readShortFixed buf le off
      = fixedRead 2 (fun bs => toSigned 16 (beVal (dvOrder le bs))) buf off := rfl

theorem readUnsignedShortFixed_eq (buf : Bytes) (le : Bool) (off : ℤ) :
    readUnsignedShortFixed buf le off
      = fixedRead 2 (fun bs => ((beVal (dvOrder le bs) : ℕ) : ℤ)) buf off := rfl

theorem readIntFixed_eq (buf : Bytes) (le : Bool) (off : ℤ) :
    readIntFixed buf le off
      = fixedRead 4 (fun bs => toSigned 32 (beVal (dvOrder le bs))) buf off := rfl

theorem readUnsignedIntFixed_eq (buf : Bytes) (le : Bool) (off : ℤ) :
    readUnsignedIntFixed buf le off
      = fixedRead 4 (fun bs => ((beVal (dvOrder le bs) : ℕ) : ℤ)) buf off := rfl

theorem readLongFixed_eq (buf : Bytes) (le : Bool) (off : ℤ) :
    readLongFixed buf le off
      = fixedRead 8 (fun bs => toSigned 64 (beVal (dvOrder le bs))) buf off := rfl

theorem readFloatP_eq (buf : Bytes) (le : Bool) (off : ℤ) :
    readFloatP buf le off
      = fixedRead 4 (fun bs => beVal (dvOrder le bs)) buf off := rfl

theorem readDoubleP_eq (buf : Bytes) (le : Bool) (off : ℤ) :
    readDoubleP buf le off
      = fixedRead 8 (fun bs => beVal (dvOrder le bs)) buf off := rfl

theorem fixedRead_ok {α : Type} (k : ℕ) (g : Bytes → α) (buf : Bytes)
    (off : ℤ) (v : α) (off2 : ℤ)
    (h : fixedRead k g buf off = .ok (v, off2)) :
    off2 = off + k ∧ 0 ≤ off ∧ off + k ≤ (buf.length : ℤ) := by
  unfold fixedRead allocate at h
  split at h
  · rw [bindE_error] at h
    exact Except.noConfusion h
  · rw [bindE_ok] at h
    rcases hg : getBytes buf off k with e | bs
    · rw [hg, bindE_error] at h
      exact Except.noConfusion h
    · rw [hg, bindE_ok] at h
      have hb := getBytes_ok buf off k bs hg
      have h2 := congrArg Prod.snd (Except.ok.inj h)
      exact ⟨h2.symm, hb.1, hb.2⟩

theorem fixedRead_ext {α : Type} (k : ℕ) (g : Bytes → α) (buf ext : Bytes)
    (off : ℤ) (v : α) (off2 : ℤ)
    (h : fixedRead k g buf off = .ok (v, off2)) :
    fixedRead k g (buf ++ ext) off = .ok (v, off2) := by
  unfold fixedRead at h ⊢
  rcases ha : allocate buf off k with e | u
  · rw [ha, bindE_error] at h
    exact Except.noConfusion h
  · obtain rfl : u = () := rfl
    rw [ha, bindE_ok] at h
    rw [allocate_ext buf ext off k ha, bindE_ok]
    rcases hg : getBytes buf off k with e | bs
    · rw [hg, bindE_error] at h
      exact Except.noConfusion h
    · rw [hg, bindE_ok] at h
      rw [getBytes_ext buf ext off k bs hg, bindE_ok]
      exact h

theorem readByteP_fwd (buf : Bytes) (off : ℤ) (v : ℤ) (off2 : ℤ)
    (h : readByteP buf off = .ok (v, off2)) :
    0 ≤ off ∧ off2 = off + 1 ∧ off + 1 ≤ (buf.length : ℤ) := by
  unfold readByteP allocate at h
  split at h
  · rw [bindE_error] at h
    exact Except.noConfusion h
  · rw [bindE_ok] at h
    rcases hg : getU8 buf off with e | b
    · rw [hg, bindE_error] at h
      exact Except.noConfusion h
    · rw [hg, bindE_ok] at h
      have hb := getU8_ok buf off b hg
      have h2 := congrArg Prod.snd (Except.ok.inj h)
      exact ⟨hb.1, h2.symm, hb.2⟩

theorem readByteP_ext (buf ext : Bytes) (off : ℤ) (v : ℤ) (off2 : ℤ)
    (h : readByteP buf off = .ok (v, off2)) :
    readByteP (buf ++ ext) off = .ok (v, off2) := by
  have hf := readByteP_fwd buf off v off2 h
  unfold readByteP at h ⊢
  rw [allocate_ok buf off 1 (by omega), bindE_ok] at h
  rw [allocate_ok (buf ++ ext) off 1 (by
      simp only [List.length_append]
      push_cast
      omega), bindE_ok]
  rcases hg : getU8 buf off with e | b
  · rw [hg, bindE_error] at h
    exact Except.noConfusion h
  · rw [hg, bindE_ok] at h
    rw [getU8_ext buf ext off b hg, bindE_ok]
    exact h

theorem readUnsignedByteP_fwd (buf : Bytes) (off : ℤ) (v : ℕ) (off2 : ℤ)
    (h : readUnsignedByteP buf off = .ok (v, off2)) :
    0 ≤ off ∧ off2 = off + 1 ∧ off + 1 ≤ (buf.length : ℤ) := by
  unfold readUnsignedByteP allocate at h
  split at h
  · rw [bindE_error] at h
    exact Except.noConfusion h
  · rw [bindE_ok] at h
    rcases hg : getU8 buf off with e | b
    · rw [hg, bindE_error] at h
      exact Except.noConfusion h
    · rw [hg, bindE_ok] at h
      have hb := getU8_ok buf off b hg
      have h2 := congrArg Prod.snd (Except.ok.inj h)
      exact ⟨hb.1, h2.symm, hb.2⟩

theorem readUnsignedByteP_ext (buf ext : Bytes) (off : ℤ) (v : ℕ) (off2 : ℤ)
    (h : readUnsignedByteP buf off = .ok (v, off2)) :
    readUnsignedByteP (buf ++ ext) off = .ok (v, off2) := by
  have hf := readUnsignedByteP_fwd buf off v off2 h
  unfold readUnsignedByteP at h ⊢
  rw [allocate_ok buf off 1 (by omega), bindE_ok] at h
  rw [allocate_ok (buf ++ ext) off 1 (by
      simp only [List.length_append]
      push_cast
      omega), bindE_ok]
  rcases hg : getU8 buf off with e | b
  · rw [hg, bindE_error] at h
    exact Except.noConfusion h
  · rw [hg, bindE_ok] at h
    rw [getU8_ext buf ext off b hg, bindE_ok]
    exact h

end Nbtify

namespace Nbtify

theorem readVarIntLoop_fwd (buf : Bytes) :
    ∀ (fuel : ℕ) (off value : ℤ) (shift : ℕ) (v off2 : ℤ),
      readVarIntLoop buf fuel off value shift = .ok (v, off2) →
      0 ≤ off ∧ off < off2 ∧ off2 ≤ (buf.length : ℤ) := by
  intro fuel
  induction fuel with
  | zero =>
    intro off value shift v off2 h
    exact Except.noConfusion (by unfold readVarIntLoop at h; exact h)
  | succ f ih =>
    intro off value shift v off2 h
    unfold readVarIntLoop at h
    rcases hb : readByteP buf off with e | p
    · rw [hb, bindE_error] at h
      exact Except.noConfusion h
    · obtain ⟨b, o1⟩ := p
      rw [hb, bindE_ok] at h
      dsimp only at h
      have hf := readByteP_fwd buf off b o1 hb
      split at h
      · have h2 := congrArg Prod.snd (Except.ok.inj h)
        simp only at h2
        omega
      · have := ih o1 _ _ v off2 h
        omega

theorem readVarIntLoop_ext (buf ext : Bytes) :
    ∀ (fuel : ℕ) (off value : ℤ) (shift : ℕ) (v off2 : ℤ),
      readVarIntLoop buf fuel off value shift = .ok (v, off2) →
      readVarIntLoop (buf ++ ext) fuel off value shift = .ok (v, off2) := by
  intro fuel
  induction fuel with
  | zero =>
    intro off value shift v off2 h
    exact Except.noConfusion (by unfold readVarIntLoop at h; exact h)
  | succ f ih =>
    intro off value shift v off2 h
    unfold readVarIntLoop at h ⊢
    rcases hb : readByteP buf off with e | p
    · rw [hb, bindE_error] at h
      exact Except.noConfusion h
    · obtain ⟨b, o1⟩ := p
      rw [hb, bindE_ok] at h
      rw [readByteP_ext buf ext off b o1 hb, bindE_ok]
      dsimp only at h ⊢
      split at h
      · rename_i hc
        rw [if_pos hc]
        exact h
      · rename_i hc
        rw [if_neg hc]
        exact ih o1 _ _ v off2 h

theorem readVarIntZigZagLoop_fwd (buf : Bytes) :
    ∀ (fuel : ℕ) (off value : ℤ) (shift : ℕ) (v off2 : ℤ),
      readVarIntZigZagLoop buf fuel off value shift = .ok (v, off2) →
      0 ≤ off ∧ off < off2 ∧ off2 ≤ (buf.length : ℤ) := by
  intro fuel
  induction fuel with
  | zero =>
    intro off value shift v off2 h
    exact Except.noConfusion (by unfold readVarIntZigZagLoop at h; exact h)
  | succ f ih =>
    intro off value shift v off2 h
    unfold readVarIntZigZagLoop at h
    rcases ha : allocate buf off 1 with e | u
    · rw [ha, bindE_error] at h
      exact Except.noConfusion h
    · obtain rfl : u = () := rfl
      rw [ha, bindE_ok] at h
      rcases hb : readByteP buf off with e | p
      · rw [hb, bindE_error] at h
        exact Except.noConfusion h
      · obtain ⟨b, o1⟩ := p
        rw [hb, bindE_ok] at h
        dsimp only at h
        have hf := readByteP_fwd buf off b o1 hb
        split at h
        · have h2 := congrArg Prod.snd (Except.ok.inj h)
          simp only at h2
          omega
        · split at h
          · exact Except.noConfusion h
          · have := ih o1 _ _ v off2 h
            omega

theorem readVarIntZigZagLoop_ext (buf ext : Bytes) :
    ∀ (fuel : ℕ) (off value : ℤ) (shift : ℕ) (v off2 : ℤ),
      readVarIntZigZagLoop buf fuel off value shift = .ok (v, off2) →
      readVarIntZigZagLoop (buf ++ ext) fuel off value shift = .ok (v, off2) := by
  intro fuel
  induction fuel with
  | zero =>
    intro off value shift v off2 h
    exact Except.noConfusion (by unfold readVarIntZigZagLoop at h; exact h)
  | succ f ih =>
    intro off value shift v off2 h
    unfold readVarIntZigZagLoop at h ⊢
    rcases ha : allocate buf off 1 with e | u
    · rw [ha, bindE_error] at h
      exact Except.noConfusion h
    · obtain rfl : u = () := rfl
      rw [ha, bindE_ok] at h
      rw [allocate_ext buf ext off 1 ha, bindE_ok]
      rcases hb : readByteP buf off with e | p
      · rw [hb, bindE_error] at h
        exact Except.noConfusion h
      · obtain ⟨b, o1⟩ := p
        rw [hb, bindE_ok] at h
        rw [readByteP_ext buf ext off b o1 hb, bindE_ok]
        dsimp only at h ⊢
        split at h
        · rename_i hc
          rw [if_pos hc]
          exact h
        · rename_i hc
          rw [if_neg hc]
          split at h
          · exact Except.noConfusion h
          · rename_i hc2
            rw [if_neg hc2]
            exact ih o1 _ _ v off2 h

theorem readVarLongZigZagLoop_fwd (buf : Bytes) :
    ∀ (fuel : ℕ) (off value : ℤ) (shift : ℕ) (v off2 : ℤ),
      readVarLongZigZagLoop buf fuel off value shift = .ok (v, off2) →
      0 ≤ off ∧ off < off2 ∧ off2 ≤ (buf.length : ℤ) := by
  intro fuel
  induction fuel with
  | zero =>
    intro off value shift v off2 h
    exact Except.noConfusion (by unfold readVarLongZigZagLoop at h; exact h)
  | succ f ih =>
    intro off value shift v off2 h
    unfold readVarLongZigZagLoop at h
    rcases ha : allocate buf off 1 with e | u
    · rw [ha, bindE_error] at h
      exact Except.noConfusion h
    · obtain rfl : u = () := rfl
      rw [ha, bindE_ok] at h
      rcases hb : readByteP buf off with e | p
      · rw [hb, bindE_error] at h
        exact Except.noConfusion h
      · obtain ⟨b, o1⟩ := p
        rw [hb, bindE_ok] at h
        dsimp only at h
        have hf := readByteP_fwd buf off b o1 hb
        split at h
        · have h2 := congrArg Prod.snd (Except.ok.inj h)
          simp only at h2
          omega
        · split at h
          · exact Except.noConfusion h
          · have := ih o1 _ _ v off2 h
            omega

theorem readVarLongZigZagLoop_ext (buf ext : Bytes) :
    ∀ (fuel : ℕ) (off value : ℤ) (shift : ℕ) (v off2 : ℤ),
      readVarLongZigZagLoop buf fuel off value shift = .ok (v, off2) →
      readVarLongZigZagLoop (buf ++ ext) fuel off value shift = .ok (v, off2) := by
  intro fuel
  induction fuel with
  | zero =>
    intro off value shift v off2 h
    exact Except.noConfusion (by unfold readVarLongZigZagLoop at h; exact h)
  | succ f ih =>
    intro off value shift v off2 h
    unfold readVarLongZigZagLoop at h ⊢
    rcases ha : allocate buf off 1 with e | u
    · rw [ha, bindE_error] at h
      exact Except.noConfusion h
    · obtain rfl : u = () := rfl
      rw [ha, bindE_ok] at h
      rw [allocate_ext buf ext off 1 ha, bindE_ok]
      rcases hb : readByteP buf off with e | p
      · rw [hb, bindE_error] at h
        exact Except.noConfusion h
      · obtain ⟨b, o1⟩ := p
        rw [hb, bindE_ok] at h
        rw [readByteP_ext buf ext off b o1 hb, bindE_ok]
        dsimp only at h ⊢
        split at h
        · rename_i hc
          rw [if_pos hc]
          exact h
        · rename_i hc
          rw [if_neg hc]
          split at h
          · exact Except.noConfusion h
          · rename_i hc2
            rw [if_neg hc2]
            exact ih o1 _ _ v off2 h

end Nbtify

namespace Nbtify

theorem readVarInt_fwd (buf : Bytes) (fuel : ℕ) (off v off2 : ℤ)
    (h : readVarInt buf fuel off = .ok (v, off2)) :
    0 ≤ off ∧ 0 ≤ off2 ∧ off2 ≤ (buf.length : ℤ) := by
  have := readVarIntLoop_fwd buf fuel off 0 0 v off2 h
  omega

theorem readVarInt_ext (buf ext : Bytes) (fuel : ℕ) (off v off2 : ℤ)
    (h : readVarInt buf fuel off = .ok (v, off2)) :
    readVarInt (buf ++ ext) fuel off = .ok (v, off2) :=
  readVarIntLoop_ext buf ext fuel off 0 0 v off2 h

theorem readVarIntZigZag_fwd (buf : Bytes) (fuel : ℕ) (off v off2 : ℤ)
    (h : readVarIntZigZag buf fuel off = .ok (v, off2)) :
    0 ≤ off ∧ 0 ≤ off2 ∧ off2 ≤ (buf.length : ℤ) := by
  unfold readVarIntZigZag at h
  rcases hl : readVarIntZigZagLoop buf fuel off 0 0 with e | p
  · rw [hl, bindE_error] at h
    exact Except.noConfusion h
  · obtain ⟨r, o⟩ := p
    rw [hl, bindE_ok] at h
    dsimp only at h
    have h2 := congrArg Prod.snd (Except.ok.inj h)
    simp only at h2
    have := readVarIntZigZagLoop_fwd buf fuel off 0 0 r o hl
    omega

theorem readVarIntZigZag_ext (buf ext : Bytes) (fuel : ℕ) (off v off2 : ℤ)
    (h : readVarIntZigZag buf fuel off = .ok (v, off2)) :
    readVarIntZigZag (buf ++ ext) fuel off = .ok (v, off2) := by
  unfold readVarIntZigZag at h ⊢
  rcases hl : readVarIntZigZagLoop buf fuel off 0 0 with e | p
  · rw [hl, bindE_error] at h
    exact Except.noConfusion h
  · obtain ⟨r, o⟩ := p
    rw [hl, bindE_ok] at h
    rw [readVarIntZigZagLoop_ext buf ext fuel off 0 0 r o hl, bindE_ok]
    exact h

theorem readVarLongZigZag_fwd (buf : Bytes) (fuel : ℕ) (off v off2 : ℤ)
    (h : readVarLongZigZag buf fuel off = .ok (v, off2)) :
    0 ≤ off ∧ 0 ≤ off2 ∧ off2 ≤ (buf.length : ℤ) := by
  unfold readVarLongZigZag at h
  rcases hl : readVarLongZigZagLoop buf fuel off 0 0 with e | p
  · rw [hl, bindE_error] at h
    exact Except.noConfusion h
  · obtain ⟨r, o⟩ := p
    rw [hl, bindE_ok] at h
    dsimp only at h
    have h2 := congrArg Prod.snd (Except.ok.inj h)
    simp only at h2
    have := readVarLongZigZagLoop_fwd buf fuel off 0 0 r o hl
    omega

theorem readVarLongZigZag_ext (buf ext : Bytes) (fuel : ℕ) (off v off2 : ℤ)
    (h : readVarLongZigZag buf fuel off = .ok (v, off2)) :
    readVarLongZigZag (buf ++ ext) fuel off = .ok (v, off2) := by
  unfold readVarLongZigZag at h ⊢
  rcases hl : readVarLongZigZagLoop buf fuel off 0 0 with e | p
  · rw [hl, bindE_error] at h
    exact Except.noConfusion h
  · obtain ⟨r, o⟩ := p
    rw [hl, bindE_ok] at h
    rw [readVarLongZigZagLoop_ext buf ext fuel off 0 0 r o hl, bindE_ok]
    exact h

theorem readUnsignedShortV_fwd (buf : Bytes) (le varint : Bool) (fuel : ℕ)
    (off v off2 : ℤ)
    (h : readUnsignedShortV buf le varint fuel off = .ok (v, off2)) :
    0 ≤ off ∧ 0 ≤ off2 ∧ off2 ≤ (buf.length : ℤ) := by
  unfold readUnsignedShortV at h
  split at h
  · exact readVarInt_fwd buf fuel off v off2 h
  · rw [readUnsignedShortFixed_eq] at h
    have := fixedRead_ok 2 _ buf off v off2 h
    omega

theorem readUnsignedShortV_ext (buf ext : Bytes) (le varint : Bool)
    (fuel : ℕ) (off v off2 : ℤ)
    (h : readUnsignedShortV buf le varint fuel off = .ok (v, off2)) :
    readUnsignedShortV (buf ++ ext) le varint fuel off = .ok (v, off2) := by
  unfold readUnsignedShortV at h ⊢
  split at h
  · rename_i hc
    rw [if_pos hc]
    exact readVarInt_ext buf ext fuel off v off2 h
  · rename_i hc
    rw [if_neg hc, readUnsignedShortFixed_eq]
    rw [readUnsignedShortFixed_eq] at h
    exact fixedRead_ext 2 _ buf ext off v off2 h

theorem readUnsignedIntV_fwd (buf : Bytes) (le varint : Bool) (fuel : ℕ)
    (off v off2 : ℤ)
    (h : readUnsignedIntV buf le varint fuel off = .ok (v, off2)) :
    0 ≤ off ∧ 0 ≤ off2 ∧ off2 ≤ (buf.length : ℤ) := by
  unfold readUnsignedIntV at h
  split at h
  · exact readVarInt_fwd buf fuel off v off2 h
  · rw [readUnsignedIntFixed_eq] at h
    have := fixedRead_ok 4 _ buf off v off2 h
    omega

theorem readUnsignedIntV_ext (buf ext : Bytes) (le varint : Bool)
    (fuel : ℕ) (off v off2 : ℤ)
    (h : readUnsignedIntV buf le varint fuel off = .ok (v, off2)) :
    readUnsignedIntV (buf ++ ext) le varint fuel off = .ok (v, off2) := by
  unfold readUnsignedIntV at h ⊢
  split at h
  · rename_i hc
    rw [if_pos hc]
    exact readVarInt_ext buf ext fuel off v off2 h
  · rename_i hc
    rw [if_neg hc, readUnsignedIntFixed_eq]
    rw [readUnsignedIntFixed_eq] at h
    exact fixedRead_ext 4 _ buf ext off v off2 h

theorem readIntV_fwd (buf : Bytes) (le varint : Bool) (fuel : ℕ)
    (off v off2 : ℤ)
    (h : readIntV buf le varint fuel off = .ok (v, off2)) :
    0 ≤ off ∧ 0 ≤ off2 ∧ off2 ≤ (buf.length : ℤ) := by
  unfold readIntV at h
  split at h
  · exact readVarIntZigZag_fwd buf fuel off v off2 h
  · rw [readIntFixed_eq] at h
    have := fixedRead_ok 4 _ buf off v off2 h
    omega

theorem readIntV_ext (buf ext : Bytes) (le varint : Bool) (fuel : ℕ)
    (off v off2 : ℤ)
    (h : readIntV buf le varint fuel off = .ok (v, off2)) :
    readIntV (buf ++ ext) le varint fuel off = .ok (v, off2) := by
  unfold readIntV at h ⊢
  split at h
  · rename_i hc
    rw [if_pos hc]
    exact readVarIntZigZag_ext buf ext fuel off v off2 h
  · rename_i hc
    rw [if_neg hc, readIntFixed_eq]
    rw [readIntFixed_eq] at h
    exact fixedRead_ext 4 _ buf ext off v off2 h

theorem readLongV_fwd (buf : Bytes) (le varint : Bool) (fuel : ℕ)
    (off v off2 : ℤ)
    (h : readLongV buf le varint fuel off = .ok (v, off2)) :
    0 ≤ off ∧ 0 ≤ off2 ∧ off2 ≤ (buf.length : ℤ) := by
  unfold readLongV at h
  split at h
  · exact readVarLongZigZag_fwd buf fuel off v off2 h
  · rw [readLongFixed_eq] at h
    have := fixedRead_ok 8 _ buf off v off2 h
    omega

theorem readLongV_ext (buf ext : Bytes) (le varint : Bool) (fuel : ℕ)
    (off v off2 : ℤ)
    (h : readLongV buf le varint fuel off = .ok (v, off2)) :
    readLongV (buf ++ ext) le varint fuel off = .ok (v, off2) := by
  unfold readLongV at h ⊢
  split at h
  · rename_i hc
    rw [if_pos hc]
    exact readVarLongZigZag_ext buf ext fuel off v off2 h
  · rename_i hc
    rw [if_neg hc, readLongFixed_eq]
    rw [readLongFixed_eq] at h
    exact fixedRead_ext 8 _ buf ext off v off2 h

theorem readTagTypeP_fwd (buf : Bytes) (off : ℤ) (t : ℕ) (off2 : ℤ)
    (h : readTagTypeP buf off = .ok (t, off2)) :
    0 ≤ off ∧ off2 = off + 1 ∧ off + 1 ≤ (buf.length : ℤ) ∧ t ≤ 12 := by
  unfold readTagTypeP at h
  rcases hb : readUnsignedByteP buf off with e | p
  · rw [hb, bindE_error] at h
    exact Except.noConfusion h
  · obtain ⟨b, o1⟩ := p
    rw [hb, bindE_ok] at h
    dsimp only at h
    have hf := readUnsignedByteP_fwd buf off b o1 hb
    split at h
    · rename_i hc
      have h1 := congrArg Prod.fst (Except.ok.inj h)
      have h2 := congrArg Prod.snd (Except.ok.inj h)
      simp only at h1 h2
      subst h1
      omega
    · exact Except.noConfusion h

theorem readTagTypeP_ext (buf ext : Bytes) (off : ℤ) (t : ℕ) (off2 : ℤ)
    (h : readTagTypeP buf off = .ok (t, off2)) :
    readTagTypeP (buf ++ ext) off = .ok (t, off2) := by
  unfold readTagTypeP at h ⊢
  rcases hb : readUnsignedByteP buf off with e | p
  · rw [hb, bindE_error] at h
    exact Except.noConfusion h
  · obtain ⟨b, o1⟩ := p
    rw [hb, bindE_ok] at h
    rw [readUnsignedByteP_ext buf ext off b o1 hb, bindE_ok]
    exact h

end Nbtify

namespace Nbtify

theorem subarray_ext (buf ext : Bytes) (a b : ℤ) (ha0 : 0 ≤ a)
    (ha1 : a ≤ (buf.length : ℤ)) (hb0 : 0 ≤ b)
    (hb1 : b ≤ (buf.length : ℤ)) :
    subarray (buf ++ ext) a b = subarray buf a b := by
  unfold subarray jsIndexClamp
  rw [if_neg (by omega), if_neg (by omega), if_neg (by omega),
    if_neg (by omega)]
  have hbm : b.toNat.min (buf ++ ext).length = b.toNat :=
    Nat.min_eq_left (by simp only [List.length_append]; omega)
  have hbm2 : b.toNat.min buf.length = b.toNat :=
    Nat.min_eq_left (by omega)
  have ham : a.toNat.min (buf ++ ext).length = a.toNat :=
    Nat.min_eq_left (by simp only [List.length_append]; omega)
  have ham2 : a.toNat.min buf.length = a.toNat :=
    Nat.min_eq_left (by omega)
  rw [hbm, hbm2, ham, ham2, take_append_le buf ext b.toNat (by omega)]

theorem readStringF_fwd (buf : Bytes) (le varint : Bool) (fuel : ℕ)
    (off : ℤ) (s : List ℕ) (off2 : ℤ)
    (h : readStringF buf le varint fuel off = .ok (s, off2)) :
    0 ≤ off ∧ off2 ≤ (buf.length : ℤ) := by
  unfold readStringF at h
  rcases hl : readUnsignedShortV buf le varint fuel off with e | p
  · rw [hl, bindE_error] at h
    exact Except.noConfusion h
  · obtain ⟨length, o1⟩ := p
    rw [hl, bindE_ok] at h
    dsimp only at h
    have hf := readUnsignedShortV_fwd buf le varint fuel off length o1 hl
    rcases ha : allocate buf o1 length with e | u
    · rw [ha, bindE_error] at h
      exact Except.noConfusion h
    · obtain rfl : u = () := rfl
      rw [ha, bindE_ok] at h
      have h2 := congrArg Prod.snd (Except.ok.inj h)
      simp only at h2
      unfold allocate at ha
      split at ha
      · exact Except.noConfusion ha
      · omega

theorem readStringF_ext (buf ext : Bytes) (le varint : Bool) (fuel : ℕ)
    (off : ℤ) (s : List ℕ) (off2 : ℤ)
    (h : readStringF buf le varint fuel off = .ok (s, off2)) :
    ∃ s', readStringF (buf ++ ext) le varint fuel off = .ok (s', off2) ∧
      (0 ≤ off2 → s' = s) := by
  unfold readStringF at h ⊢
  rcases hl : readUnsignedShortV buf le varint fuel off with e | p
  · rw [hl, bindE_error] at h
    exact Except.noConfusion h
  · obtain ⟨length, o1⟩ := p
    rw [hl, bindE_ok] at h
    rw [readUnsignedShortV_ext buf ext le varint fuel off length o1 hl,
      bindE_ok]
    dsimp only at h ⊢
    have hf := readUnsignedShortV_fwd buf le varint fuel off length o1 hl
    rcases ha : allocate buf o1 length with e | u
    · rw [ha, bindE_error] at h
      exact Except.noConfusion h
    · obtain rfl : u = () := rfl
      rw [ha, bindE_ok] at h
      rw [allocate_ext buf ext o1 length ha, bindE_ok]
      have hal : o1 + length ≤ (buf.length : ℤ) := by
        unfold allocate at ha
        split at ha
        · exact Except.noConfusion ha
        · omega
      have h1 := congrArg Prod.fst (Except.ok.inj h)
      have h2 := congrArg Prod.snd (Except.ok.inj h)
      simp only at h1 h2
      refine ⟨mutf8Decode (subarray (buf ++ ext) o1 (o1 + length)),
        by rw [← h2]; rfl, ?_⟩
      intro hnn
      rw [← h1]
      rw [subarray_ext buf ext o1 (o1 + length) (by omega) (by omega)
        (by omega) hal]

theorem readByteArrayF_fwd (buf : Bytes) (le varint : Bool) (fuel : ℕ)
    (off : ℤ) (s : List ℤ) (off2 : ℤ)
    (h : readByteArrayF buf le varint fuel off = .ok (s, off2)) :
    0 ≤ off ∧ off2 ≤ (buf.length : ℤ) := by
  unfold readByteArrayF at h
  rcases hl : readIntV buf le varint fuel off with e | p
  · rw [hl, bindE_error] at h
    exact Except.noConfusion h
  · obtain ⟨length, o1⟩ := p
    rw [hl, bindE_ok] at h
    dsimp only at h
    have hf := readIntV_fwd buf le varint fuel off length o1 hl
    rcases ha : allocate buf o1 length with e | u
    · rw [ha, bindE_error] at h
      exact Except.noConfusion h
    · obtain rfl : u = () := rfl
      rw [ha, bindE_ok] at h
      have h2 := congrArg Prod.snd (Except.ok.inj h)
      simp only at h2
      unfold allocate at ha
      split at ha
      · exact Except.noConfusion ha
      · omega

theorem readByteArrayF_ext (buf ext : Bytes) (le varint : Bool) (fuel : ℕ)
    (off : ℤ) (s : List ℤ) (off2 : ℤ)
    (h : readByteArrayF buf le varint fuel off = .ok (s, off2)) :
    ∃ s', readByteArrayF (buf ++ ext) le varint fuel off = .ok (s', off2) ∧
      (0 ≤ off2 → s' = s) := by
  unfold readByteArrayF at h ⊢
  rcases hl : readIntV buf le varint fuel off with e | p
  · rw [hl, bindE_error] at h
    exact Except.noConfusion h
  · obtain ⟨length, o1⟩ := p
    rw [hl, bindE_ok] at h
    rw [readIntV_ext buf ext le varint fuel off length o1 hl, bindE_ok]
    dsimp only at h ⊢
    have hf := readIntV_fwd buf le varint fuel off length o1 hl
    rcases ha : allocate buf o1 length with e | u
    · rw [ha, bindE_error] at h
      exact Except.noConfusion h
    · obtain rfl : u = () := rfl
      rw [ha, bindE_ok] at h
      rw [allocate_ext buf ext o1 length ha, bindE_ok]
      have hal : o1 + length ≤ (buf.length : ℤ) := by
        unfold allocate at ha
        split at ha
        · exact Except.noConfusion ha
        · omega
      have h1 := congrArg Prod.fst (Except.ok.inj h)
      have h2 := congrArg Prod.snd (Except.ok.inj h)
      simp only at h1 h2
      refine ⟨(subarray (buf ++ ext) o1 (o1 + length)).map (toSigned 8),
        by rw [← h2]; rfl, ?_⟩
      intro hnn
      rw [← h1]
      rw [subarray_ext buf ext o1 (o1 + length) (by omega) (by omega)
        (by omega) hal]

theorem readIntArrayLoop_fwd (buf : Bytes) (le varint : Bool) (fuel : ℕ) :
    ∀ (n : ℕ) (off : ℤ) (xs : List ℤ) (off2 : ℤ),
      off ≤ (buf.length : ℤ) →
      readIntArrayLoop buf le varint fuel n off = .ok (xs, off2) →
      off2 ≤ (buf.length : ℤ) := by
  intro n
  induction n with
  | zero =>
    intro off xs off2 hle h
    unfold readIntArrayLoop at h
    have h2 := congrArg Prod.snd (Except.ok.inj h)
    simp only at h2
    omega
  | succ m ih =>
    intro off xs off2 hle h
    unfold readIntArrayLoop at h
    rcases hv : readIntV buf le varint fuel off with e | p
    · rw [hv, bindE_error] at h
      exact Except.noConfusion h
    · obtain ⟨v, o1⟩ := p
      rw [hv, bindE_ok] at h
      dsimp only at h
      have hf := readIntV_fwd buf le varint fuel off v o1 hv
      rcases hr : readIntArrayLoop buf le varint fuel m o1 with e | q
      · rw [hr, bindE_error] at h
        exact Except.noConfusion h
      · obtain ⟨ys, o2⟩ := q
        rw [hr, bindE_ok] at h
        have h2 := congrArg Prod.snd (Except.ok.inj h)
        simp only at h2
        have := ih o1 ys o2 (by omega) hr
        omega

theorem readIntArrayLoop_ext (buf ext : Bytes) (le varint : Bool)
    (fuel : ℕ) :
    ∀ (n : ℕ) (off : ℤ) (xs : List ℤ) (off2 : ℤ),
      readIntArrayLoop buf le varint fuel n off = .ok (xs, off2) →
      readIntArrayLoop (buf ++ ext) le varint fuel n off = .ok (xs, off2) := by
  intro n
  induction n with
  | zero =>
    intro off xs off2 h
    exact h
  | succ m ih =>
    intro off xs off2 h
    unfold readIntArrayLoop at h ⊢
    rcases hv : readIntV buf le varint fuel off with e | p
    · rw [hv, bindE_error] at h
      exact Except.noConfusion h
    · obtain ⟨v, o1⟩ := p
      rw [hv, bindE_ok] at h
      rw [readIntV_ext buf ext le varint fuel off v o1 hv, bindE_ok]
      dsimp only at h ⊢
      rcases hr : readIntArrayLoop buf le varint fuel m o1 with e | q
      · rw [hr, bindE_error] at h
        exact Except.noConfusion h
      · obtain ⟨ys, o2⟩ := q
        rw [hr, bindE_ok] at h
        rw [ih o1 ys o2 hr, bindE_ok]
        exact h

theorem readLongArrayLoop_fwd (buf : Bytes) (le varint : Bool) (fuel : ℕ) :
    ∀ (n : ℕ) (off : ℤ) (xs : List ℤ) (off2 : ℤ),
      off ≤ (buf.length : ℤ) →
      readLongArrayLoop buf le varint fuel n off = .ok (xs, off2) →
      off2 ≤ (buf.length : ℤ) := by
  intro n
  induction n with
  | zero =>
    intro off xs off2 hle h
    unfold readLongArrayLoop at h
    have h2 := congrArg Prod.snd (Except.ok.inj h)
    simp only at h2
    omega
  | succ m ih =>
    intro off xs off2 hle h
    unfold readLongArrayLoop at h
    rcases hv : readLongV buf le varint fuel off with e | p
    · rw [hv, bindE_error] at h
      exact Except.noConfusion h
    · obtain ⟨v, o1⟩ := p
      rw [hv, bindE_ok] at h
      dsimp only at h
      have hf := readLongV_fwd buf le varint fuel off v o1 hv
      rcases hr : readLongArrayLoop buf le varint fuel m o1 with e | q
      · rw [hr, bindE_error] at h
        exact Except.noConfusion h
      · obtain ⟨ys, o2⟩ := q
        rw [hr, bindE_ok] at h
        have h2 := congrArg Prod.snd (Except.ok.inj h)
        simp only at h2
        have := ih o1 ys o2 (by omega) hr
        omega

theorem readLongArrayLoop_ext (buf ext : Bytes) (le varint : Bool)
    (fuel : ℕ) :
    ∀ (n : ℕ) (off : ℤ) (xs : List ℤ) (off2 : ℤ),
      readLongArrayLoop buf le varint fuel n off = .ok (xs, off2) →
      readLongArrayLoop (buf ++ ext) le varint fuel n off = .ok (xs, off2) := by
  intro n
  induction n with
  | zero =>
    intro off xs off2 h
    exact h
  | succ m ih =>
    intro off xs off2 h
    unfold readLongArrayLoop at h ⊢
    rcases hv : readLongV buf le varint fuel off with e | p
    · rw [hv, bindE_error] at h
      exact Except.noConfusion h
    · obtain ⟨v, o1⟩ := p
      rw [hv, bindE_ok] at h
      rw [readLongV_ext buf ext le varint fuel off v o1 hv, bindE_ok]
      dsimp only at h ⊢
      rcases hr : readLongArrayLoop buf le varint fuel m o1 with e | q
      · rw [hr, bindE_error] at h
        exact Except.noConfusion h
      · obtain ⟨ys, o2⟩ := q
        rw [hr, bindE_ok] at h
        rw [ih o1 ys o2 hr, bindE_ok]
        exact h

end Nbtify

namespace Nbtify

theorem readCompoundLoopF_start (buf : Bytes) (le varint : Bool)
    (fuel : ℕ) (acc : List (List ℕ × NTag)) (off : ℤ)
    (res : List (List ℕ × NTag)) (off2 : ℤ)
    (h : readCompoundLoopF buf le varint fuel acc off = .ok (res, off2)) :
    0 ≤ off := by
  cases fuel with
  | zero =>
    exact Except.noConfusion (by unfold readCompoundLoopF at h; exact h)
  | succ f =>
    unfold readCompoundLoopF at h
    rcases ht : readTagTypeP buf off with e | p
    · rw [ht, bindE_error] at h
      exact Except.noConfusion h
    · obtain ⟨t, o1⟩ := p
      exact (readTagTypeP_fwd buf off t o1 ht).1

theorem readTagF_start (buf : Bytes) (le varint : Bool)
    (fuel type : ℕ) (off : ℤ) (v : NTag) (off2 : ℤ)
    (h : readTagF buf le varint fuel type off = .ok (v, off2)) :
    0 ≤ off := by
  cases fuel with
  | zero =>
    exact Except.noConfusion (by unfold readTagF at h; exact h)
  | succ f =>
    unfold readTagF at h
    match type, h with
    | 0, h => exact Except.noConfusion h
    | 1, h =>
      rcases hx : readByteP buf off with e | p
      · rw [hx, bindE_error] at h
        exact Except.noConfusion h
      · obtain ⟨w, o⟩ := p
        exact (readByteP_fwd buf off w o hx).1
    | 2, h =>
      rcases hx : readShortFixed buf le off with e | p
      · rw [hx, bindE_error] at h
        exact Except.noConfusion h
      · obtain ⟨w, o⟩ := p
        rw [readShortFixed_eq] at hx
        have := fixedRead_ok 2 _ buf off w o hx
        omega
    | 3, h =>
      rcases hx : readIntV buf le varint f off with e | p
      · rw [hx, bindE_error] at h
        exact Except.noConfusion h
      · obtain ⟨w, o⟩ := p
        exact (readIntV_fwd buf le varint f off w o hx).1
    | 4, h =>
      rcases hx : readLongV buf le varint f off with e | p
      · rw [hx, bindE_error] at h
        exact Except.noConfusion h
      · obtain ⟨w, o⟩ := p
        exact (readLongV_fwd buf le varint f off w o hx).1
    | 5, h =>
      rcases hx : readFloatP buf le off with e | p
      · rw [hx, bindE_error] at h
        exact Except.noConfusion h
      · obtain ⟨w, o⟩ := p
        rw [readFloatP_eq] at hx
        have := fixedRead_ok 4 _ buf off w o hx
        omega
    | 6, h =>
      rcases hx : readDoubleP buf le off with e | p
      · rw [hx, bindE_error] at h
        exact Except.noConfusion h
      · obtain ⟨w, o⟩ := p
        rw [readDoubleP_eq] at hx
        have := fixedRead_ok 8 _ buf off w o hx
        omega
    | 7, h =>
      rcases hx : readByteArrayF buf le varint f off with e | p
      · rw [hx, bindE_error] at h
        exact Except.noConfusion h
      · obtain ⟨w, o⟩ := p
        exact (readByteArrayF_fwd buf le varint f off w o hx).1
    | 8, h =>
      rcases hx : readStringF buf le varint f off with e | p
      · rw [hx, bindE_error] at h
        exact Except.noConfusion h
      · obtain ⟨w, o⟩ := p
        exact (readStringF_fwd buf le varint f off w o hx).1
    | 9, h =>
      rcases hx : readTagTypeP buf off with e | p
      · rw [hx, bindE_error] at h
        exact Except.noConfusion h
      · obtain ⟨w, o⟩ := p
        exact (readTagTypeP_fwd buf off w o hx).1
    | 10, h =>
      rcases hx : readCompoundLoopF buf le varint f [] off with e | p
      · rw [hx, bindE_error] at h
        exact Except.noConfusion h
      · obtain ⟨w, o⟩ := p
        exact readCompoundLoopF_start buf le varint f [] off w o hx
    | 11, h =>
      rcases hx : readIntV buf le varint f off with e | p
      · rw [hx, bindE_error] at h
        exact Except.noConfusion h
      · obtain ⟨w, o⟩ := p
        exact (readIntV_fwd buf le varint f off w o hx).1
    | 12, h =>
      rcases hx : readIntV buf le varint f off with e | p
      · rw [hx, bindE_error] at h
        exact Except.noConfusion h
      · obtain ⟨w, o⟩ := p
        exact (readIntV_fwd buf le varint f off w o hx).1
    | n + 13, h => exact Except.noConfusion h

theorem readListLoopF_back (buf : Bytes) (le varint : Bool)
    (fuel t n : ℕ) (off : ℤ) (xs : List NTag) (off2 : ℤ)
    (h : readListLoopF buf le varint fuel t n off = .ok (xs, off2))
    (hnn : 0 ≤ off2) : 0 ≤ off := by
  cases fuel with
  | zero =>
    exact Except.noConfusion (by unfold readListLoopF at h; exact h)
  | succ f =>
    cases n with
    | zero =>
      unfold readListLoopF at h
      have h2 := congrArg Prod.snd (Except.ok.inj h)
      simp only at h2
      omega
    | succ m =>
      unfold readListLoopF at h
      rcases hx : readTagF buf le varint f t off with e | p
      · rw [hx, bindE_error] at h
        exact Except.noConfusion h
      · obtain ⟨w, o⟩ := p
        exact readTagF_start buf le varint f t off w o hx

end Nbtify

namespace Nbtify

theorem readEndLe (buf : Bytes) (le varint : Bool) : ∀ fuel : ℕ,
    (∀ (type : ℕ) (off : ℤ) (v : NTag) (off2 : ℤ),
      readTagF buf le varint fuel type off = .ok (v, off2) →
      off2 ≤ (buf.length : ℤ)) ∧
    (∀ (t n : ℕ) (off : ℤ) (xs : List NTag) (off2 : ℤ),
      off ≤ (buf.length : ℤ) →
      readListLoopF buf le varint fuel t n off = .ok (xs, off2) →
      off2 ≤ (buf.length : ℤ)) ∧
    (∀ (acc : List (List ℕ × NTag)) (off : ℤ)
      (res : List (List ℕ × NTag)) (off2 : ℤ),
      readCompoundLoopF buf le varint fuel acc off = .ok (res, off2) →
      off2 ≤ (buf.length : ℤ)) := by
  intro fuel
  induction fuel with
  | zero =>
    refine ⟨?_, ?_, ?_⟩
    · intro type off v off2 h
      exact Except.noConfusion (by unfold readTagF at h; exact h)
    · intro t n off xs off2 _ h
      exact Except.noConfusion (by unfold readListLoopF at h; exact h)
    · intro acc off res off2 h
      exact Except.noConfusion (by unfold readCompoundLoopF at h; exact h)
  | succ f ih =>
    obtain ⟨ihT, ihL, ihC⟩ := ih
    refine ⟨?_, ?_, ?_⟩
    · intro type off v off2 h
      unfold readTagF at h
      match type, h with
      | 0, h => exact Except.noConfusion h
      | 1, h =>
        rcases hx : readByteP buf off with e | p
        · rw [hx, bindE_error] at h
          exact Except.noConfusion h
        · obtain ⟨w, o⟩ := p
          rw [hx, bindE_ok] at h
          dsimp only at h
          have h2 := congrArg Prod.snd (Except.ok.inj h)
          simp only at h2
          have := readByteP_fwd buf off w o hx
          omega
      | 2, h =>
        rcases hx : readShortFixed buf le off with e | p
        · rw [hx, bindE_error] at h
          exact Except.noConfusion h
        · obtain ⟨w, o⟩ := p
          rw [hx, bindE_ok] at h
          dsimp only at h
          have h2 := congrArg Prod.snd (Except.ok.inj h)
          simp only at h2
          rw [readShortFixed_eq] at hx
          have := fixedRead_ok 2 _ buf off w o hx
          omega
      | 3, h =>
        rcases hx : readIntV buf le varint f off with e | p
        · rw [hx, bindE_error] at h
          exact Except.noConfusion h
        · obtain ⟨w, o⟩ := p
          rw [hx, bindE_ok] at h
          dsimp only at h
          have h2 := congrArg Prod.snd (Except.ok.inj h)
          simp only at h2
          have := readIntV_fwd buf le varint f off w o hx
          omega
      | 4, h =>
        rcases hx : readLongV buf le varint f off with e | p
        · rw [hx, bindE_error] at h
          exact Except.noConfusion h
        · obtain ⟨w, o⟩ := p
          rw [hx, bindE_ok] at h
          dsimp only at h
          have h2 := congrArg Prod.snd (Except.ok.inj h)
          simp only at h2
          have := readLongV_fwd buf le varint f off w o hx
          omega
      | 5, h =>
        rcases hx : readFloatP buf le off with e | p
        · rw [hx, bindE_error] at h
          exact Except.noConfusion h
        · obtain ⟨w, o⟩ := p
          rw [hx, bindE_ok] at h
          dsimp only at h
          have h2 := congrArg Prod.snd (Except.ok.inj h)
          simp only at h2
          rw [readFloatP_eq] at hx
          have := fixedRead_ok 4 _ buf off w o hx
          omega
      | 6, h =>
        rcases hx : readDoubleP buf le off with e | p
        · rw [hx, bindE_error] at h
          exact Except.noConfusion h
        · obtain ⟨w, o⟩ := p
          rw [hx, bindE_ok] at h
          dsimp only at h
          have h2 := congrArg Prod.snd (Except.ok.inj h)
          simp only at h2
          rw [readDoubleP_eq] at hx
          have := fixedRead_ok 8 _ buf off w o hx
          omega
      | 7, h =>
        rcases hx : readByteArrayF buf le varint f off with e | p
        · rw [hx, bindE_error] at h
          exact Except.noConfusion h
        · obtain ⟨w, o⟩ := p
          rw [hx, bindE_ok] at h
          dsimp only at h
          have h2 := congrArg Prod.snd (Except.ok.inj h)
          simp only at h2
          have := readByteArrayF_fwd buf le varint f off w o hx
          omega
      | 8, h =>
        rcases hx : readStringF buf le varint f off with e | p
        · rw [hx, bindE_error] at h
          exact Except.noConfusion h
        · obtain ⟨w, o⟩ := p
          rw [hx, bindE_ok] at h
          dsimp only at h
          have h2 := congrArg Prod.snd (Except.ok.inj h)
          simp only at h2
          have := readStringF_fwd buf le varint f off w o hx
          omega
      | 9, h =>
        rcases hx : readTagTypeP buf off with e | p
        · rw [hx, bindE_error] at h
          exact Except.noConfusion h
        · obtain ⟨t0, o1⟩ := p
          rw [hx, bindE_ok] at h
          dsimp only at h
          split at h
          · rcases hz : readVarIntZigZag buf f o1 with e | p2
            · rw [hz, bindE_error] at h
              exact Except.noConfusion h
            · obtain ⟨len0, o2⟩ := p2
              rw [hz, bindE_ok] at h
              dsimp only at h
              have ho2 := readVarIntZigZag_fwd buf f o1 len0 o2 hz
              rcases hll : readListLoopF buf le varint f t0 len0.toNat o2
                  with e | q
              · rw [hll, bindE_error] at h
                exact Except.noConfusion h
              · obtain ⟨xs0, o3⟩ := q
                rw [hll, bindE_ok] at h
                have h2 := congrArg Prod.snd (Except.ok.inj h)
                simp only at h2
                have := ihL t0 len0.toNat o2 xs0 o3 (by omega) hll
                omega
          · rcases hz : readIntFixed buf le o1 with e | p2
            · rw [hz, bindE_error] at h
              exact Except.noConfusion h
            · obtain ⟨len0, o2⟩ := p2
              rw [hz, bindE_ok] at h
              dsimp only at h
              rw [readIntFixed_eq] at hz
              have ho2 := fixedRead_ok 4 _ buf o1 len0 o2 hz
              rcases hll : readListLoopF buf le varint f t0 len0.toNat o2
                  with e | q
              · rw [hll, bindE_error] at h
                exact Except.noConfusion h
              · obtain ⟨xs0, o3⟩ := q
                rw [hll, bindE_ok] at h
                have h2 := congrArg Prod.snd (Except.ok.inj h)
                simp only at h2
                have := ihL t0 len0.toNat o2 xs0 o3 (by omega) hll
                omega
      | 10, h =>
        rcases hx : readCompoundLoopF buf le varint f [] off with e | p
        · rw [hx, bindE_error] at h
          exact Except.noConfusion h
        · obtain ⟨w, o⟩ := p
          rw [hx, bindE_ok] at h
          dsimp only at h
          have h2 := congrArg Prod.snd (Except.ok.inj h)
          simp only at h2
          have := ihC [] off w o hx
          omega
      | 11, h =>
        rcases hx : readIntV buf le varint f off with e | p
        · rw [hx, bindE_error] at h
          exact Except.noConfusion h
        · obtain ⟨len0, o1⟩ := p
          rw [hx] at h
          simp only [bindE_ok] at h
          have hf := readIntV_fwd buf le varint f off len0 o1 hx
          split at h
          · exact Except.noConfusion h
          · rcases hr : readIntArrayLoop buf le varint f len0.toNat o1
                with e | q
            · rw [hr, bindE_error] at h
              exact Except.noConfusion h
            · obtain ⟨ys, o2⟩ := q
              rw [hr, bindE_ok] at h
              have h2 := congrArg Prod.snd (Except.ok.inj h)
              simp only at h2
              have := readIntArrayLoop_fwd buf le varint f len0.toNat o1
                ys o2 (by omega) hr
              omega
      | 12, h =>
        rcases hx : readIntV buf le varint f off with e | p
        · rw [hx, bindE_error] at h
          exact Except.noConfusion h
        · obtain ⟨len0, o1⟩ := p
          rw [hx] at h
          simp only [bindE_ok] at h
          have hf := readIntV_fwd buf le varint f off len0 o1 hx
          split at h
          · exact Except.noConfusion h
          · rcases hr : readLongArrayLoop buf le varint f len0.toNat o1
                with e | q
            · rw [hr, bindE_error] at h
              exact Except.noConfusion h
            · obtain ⟨ys, o2⟩ := q
              rw [hr, bindE_ok] at h
              have h2 := congrArg Prod.snd (Except.ok.inj h)
              simp only at h2
              have := readLongArrayLoop_fwd buf le varint f len0.toNat o1
                ys o2 (by omega) hr
              omega
      | n + 13, h => exact Except.noConfusion h
    · intro t n off xs off2 hle h
      rcases n with _ | m
      · rw [show readListLoopF buf le varint (f + 1) t 0 off =
            pure ([], off) from rfl] at h
        have h2 := congrArg Prod.snd (Except.ok.inj h)
        simp only at h2
        omega
      · rw [show readListLoopF buf le varint (f + 1) t (m + 1) off =
            (do
              let (x, o1) ← readTagF buf le varint f t off
              let (xs, o2) ← readListLoopF buf le varint f t m o1
              pure (x :: xs, o2)) from rfl] at h
        rcases hx : readTagF buf le varint f t off with e | p
        · rw [hx, bindE_error] at h
          exact Except.noConfusion h
        · obtain ⟨x, o1⟩ := p
          rw [hx, bindE_ok] at h
          dsimp only at h
          have ho1 := ihT t off x o1 hx
          rcases hr : readListLoopF buf le varint f t m o1 with e | q
          · rw [hr, bindE_error] at h
            exact Except.noConfusion h
          · obtain ⟨ys, o2⟩ := q
            rw [hr, bindE_ok] at h
            have h2 := congrArg Prod.snd (Except.ok.inj h)
            simp only at h2
            have := ihL t m o1 ys o2 ho1 hr
            omega
    · intro acc off res off2 h
      unfold readCompoundLoopF at h
      rcases ht : readTagTypeP buf off with e | p
      · rw [ht, bindE_error] at h
        exact Except.noConfusion h
      · obtain ⟨t0, o1⟩ := p
        rw [ht, bindE_ok] at h
        dsimp only at h
        have hf := readTagTypeP_fwd buf off t0 o1 ht
        split at h
        · have h2 := congrArg Prod.snd (Except.ok.inj h)
          simp only at h2
          omega
        · rcases hs : readStringF buf le varint f o1 with e | p2
          · rw [hs, bindE_error] at h
            exact Except.noConfusion h
          · obtain ⟨name, o2⟩ := p2
            rw [hs, bindE_ok] at h
            dsimp only at h
            rcases he : readTagF buf le varint f t0 o2 with e | p3
            · rw [he, bindE_error] at h
              exact Except.noConfusion h
            · obtain ⟨entry, o3⟩ := p3
              rw [he, bindE_ok] at h
              dsimp only at h
              exact ihC (upsert acc name entry) o3 res off2 h

end Nbtify

namespace Nbtify

theorem readExtAll (buf ext : Bytes) (le varint : Bool) : ∀ fuel : ℕ,
    (∀ (type : ℕ) (off : ℤ) (v : NTag) (off2 : ℤ),
      readTagF buf le varint fuel type off = .ok (v, off2) →
      ∃ v', readTagF (buf ++ ext) le varint fuel type off = .ok (v', off2) ∧
        (0 ≤ off2 → v' = v)) ∧
    (∀ (t n : ℕ) (off : ℤ) (xs : List NTag) (off2 : ℤ),
      readListLoopF buf le varint fuel t n off = .ok (xs, off2) →
      ∃ xs', readListLoopF (buf ++ ext) le varint fuel t n off =
          .ok (xs', off2) ∧
        (0 ≤ off2 → xs' = xs)) ∧
    (∀ (acc : List (List ℕ × NTag)) (off : ℤ)
      (res : List (List ℕ × NTag)) (off2 : ℤ),
      readCompoundLoopF buf le varint fuel acc off = .ok (res, off2) →
      ∃ res', readCompoundLoopF (buf ++ ext) le varint fuel acc off =
          .ok (res', off2) ∧
        (0 ≤ off2 → res' = res)) := by
  intro fuel
  induction fuel with
  | zero =>
    refine ⟨?_, ?_, ?_⟩
    · intro type off v off2 h
      exact Except.noConfusion (by unfold readTagF at h; exact h)
    · intro t n off xs off2 h
      exact Except.noConfusion (by unfold readListLoopF at h; exact h)
    · intro acc off res off2 h
      exact Except.noConfusion (by unfold readCompoundLoopF at h; exact h)
  | succ f ih =>
    obtain ⟨ihT, ihL, ihC⟩ := ih
    refine ⟨?_, ?_, ?_⟩
    · intro type off v off2 h
      unfold readTagF at h
      match type, h with
      | 0, h => exact Except.noConfusion h
      | 1, h =>
        rcases hx : readByteP buf off with e | p
        · rw [hx, bindE_error] at h
          exact Except.noConfusion h
        · obtain ⟨w, o⟩ := p
          rw [hx, bindE_ok] at h
          dsimp only at h
          have h1 := congrArg Prod.fst (Except.ok.inj h)
          have h2 := congrArg Prod.snd (Except.ok.inj h)
          simp only at h1 h2
          subst h1
          subst h2
          rw [show readTagF (buf ++ ext) le varint (f + 1) 1 off =
              (do
                let (v, o) ← readByteP (buf ++ ext) off
                pure (NTag.byte v, o)) from rfl]
          rw [readByteP_ext buf ext off w o hx, bindE_ok]
          exact ⟨NTag.byte w, rfl, fun _ => rfl⟩
      | 2, h =>
        rcases hx : readShortFixed buf le off with e | p
        · rw [hx, bindE_error] at h
          exact Except.noConfusion h
        · obtain ⟨w, o⟩ := p
          rw [hx, bindE_ok] at h
          dsimp only at h
          have h1 := congrArg Prod.fst (Except.ok.inj h)
          have h2 := congrArg Prod.snd (Except.ok.inj h)
          simp only at h1 h2
          subst h1
          subst h2
          rw [show readTagF (buf ++ ext) le varint (f + 1) 2 off =
              (do
                let (v, o) ← readShortFixed (buf ++ ext) le off
                pure (NTag.short v, o)) from rfl]
          rw [readShortFixed_eq] at hx ⊢
          rw [fixedRead_ext 2 _ buf ext off w o hx, bindE_ok]
          exact ⟨NTag.short w, rfl, fun _ => rfl⟩
      | 3, h =>
        rcases hx : readIntV buf le varint f off with e | p
        · rw [hx, bindE_error] at h
          exact Except.noConfusion h
        · obtain ⟨w, o⟩ := p
          rw [hx, bindE_ok] at h
          dsimp only at h
          have h1 := congrArg Prod.fst (Except.ok.inj h)
          have h2 := congrArg Prod.snd (Except.ok.inj h)
          simp only at h1 h2
          subst h1
          subst h2
          rw [show readTagF (buf ++ ext) le varint (f + 1) 3 off =
              (do
                let (v, o) ← readIntV (buf ++ ext) le varint f off
                pure (NTag.int v, o)) from rfl]
          rw [readIntV_ext buf ext le varint f off w o hx, bindE_ok]
          exact ⟨NTag.int w, rfl, fun _ => rfl⟩
      | 4, h =>
        rcases hx : readLongV buf le varint f off with e | p
        · rw [hx, bindE_error] at h
          exact Except.noConfusion h
        · obtain ⟨w, o⟩ := p
          rw [hx, bindE_ok] at h
          dsimp only at h
          have h1 := congrArg Prod.fst (Except.ok.inj h)
          have h2 := congrArg Prod.snd (Except.ok.inj h)
          simp only at h1 h2
          subst h1
          subst h2
          rw [show readTagF (buf ++ ext) le varint (f + 1) 4 off =
              (do
                let (v, o) ← readLongV (buf ++ ext) le varint f off
                pure (NTag.long v, o)) from rfl]
          rw [readLongV_ext buf ext le varint f off w o hx, bindE_ok]
          exact ⟨NTag.long w, rfl, fun _ => rfl⟩
      | 5, h =>
        rcases hx : readFloatP buf le off with e | p
        · rw [hx, bindE_error] at h
          exact Except.noConfusion h
        · obtain ⟨w, o⟩ := p
          rw [hx, bindE_ok] at h
          dsimp only at h
          have h1 := congrArg Prod.fst (Except.ok.inj h)
          have h2 := congrArg Prod.snd (Except.ok.inj h)
          simp only at h1 h2
          subst h1
          subst h2
          rw [show readTagF (buf ++ ext) le varint (f + 1) 5 off =
              (do
                let (v, o) ← readFloatP (buf ++ ext) le off
                pure (NTag.float v, o)) from rfl]
          rw [readFloatP_eq] at hx ⊢
          rw [fixedRead_ext 4 _ buf ext off w o hx, bindE_ok]
          exact ⟨NTag.float w, rfl, fun _ => rfl⟩
      | 6, h =>
        rcases hx : readDoubleP buf le off with e | p
        · rw [hx, bindE_error] at h
          exact Except.noConfusion h
        · obtain ⟨w, o⟩ := p
          rw [hx, bindE_ok] at h
          dsimp only at h
          have h1 := congrArg Prod.fst (Except.ok.inj h)
          have h2 := congrArg Prod.snd (Except.ok.inj h)
          simp only at h1 h2
          subst h1
          subst h2
          rw [show readTagF (buf ++ ext) le varint (f + 1) 6 off =
              (do
                let (v, o) ← readDoubleP (buf ++ ext) le off
                pure (NTag.double v, o)) from rfl]
          rw [readDoubleP_eq] at hx ⊢
          rw [fixedRead_ext 8 _ buf ext off w o hx, bindE_ok]
          exact ⟨NTag.double w, rfl, fun _ => rfl⟩
      | 7, h =>
        rcases hx : readByteArrayF buf le varint f off with e | p
        · rw [hx, bindE_error] at h
          exact Except.noConfusion h
        · obtain ⟨w, o⟩ := p
          rw [hx, bindE_ok] at h
          dsimp only at h
          have h1 := congrArg Prod.fst (Except.ok.inj h)
          have h2 := congrArg Prod.snd (Except.ok.inj h)
          simp only at h1 h2
          subst h1
          subst h2
          obtain ⟨w', hw', hcw⟩ := readByteArrayF_ext buf ext le varint f
            off w o hx
          rw [show readTagF (buf ++ ext) le varint (f + 1) 7 off =
              (do
                let (v, o) ← readByteArrayF (buf ++ ext) le varint f off
                pure (NTag.byteArray v, o)) from rfl]
          rw [hw', bindE_ok]
          exact ⟨NTag.byteArray w', rfl,
            fun hnn => by rw [hcw hnn]⟩
      | 8, h =>
        rcases hx : readStringF buf le varint f off with e | p
        · rw [hx, bindE_error] at h
          exact Except.noConfusion h
        · obtain ⟨w, o⟩ := p
          rw [hx, bindE_ok] at h
          dsimp only at h
          have h1 := congrArg Prod.fst (Except.ok.inj h)
          have h2 := congrArg Prod.snd (Except.ok.inj h)
          simp only at h1 h2
          subst h1
          subst h2
          obtain ⟨w', hw', hcw⟩ := readStringF_ext buf ext le varint f
            off w o hx
          rw [show readTagF (buf ++ ext) le varint (f + 1) 8 off =
              (do
                let (s, o) ← readStringF (buf ++ ext) le varint f off
                pure (NTag.str s, o)) from rfl]
          rw [hw', bindE_ok]
          exact ⟨NTag.str w', rfl, fun hnn => by rw [hcw hnn]⟩
      | 9, h =>
        rcases hx : readTagTypeP buf off with e | p
        · rw [hx, bindE_error] at h
          exact Except.noConfusion h
        · obtain ⟨t0, o1⟩ := p
          rw [hx, bindE_ok] at h
          dsimp only at h
          rw [show readTagF (buf ++ ext) le varint (f + 1) 9 off =
              (do
                let (t, o1) ← readTagTypeP (buf ++ ext) off
                let (len, o2) ←
                  if varint then readVarIntZigZag (buf ++ ext) f o1
                  else readIntFixed (buf ++ ext) le o1
                let (xs, o3) ←
                  readListLoopF (buf ++ ext) le varint f t len.toNat o2
                pure (NTag.list t xs, o3)) from rfl]
          rw [readTagTypeP_ext buf ext off t0 o1 hx, bindE_ok]
          dsimp only
          split at h
          · rename_i hc
            rw [if_pos hc]
            rcases hz : readVarIntZigZag buf f o1 with e | p2
            · rw [hz, bindE_error] at h
              exact Except.noConfusion h
            · obtain ⟨len0, o2⟩ := p2
              rw [hz, bindE_ok] at h
              dsimp only at h
              rw [readVarIntZigZag_ext buf ext f o1 len0 o2 hz, bindE_ok]
              dsimp only
              rcases hll : readListLoopF buf le varint f t0 len0.toNat o2
                  with e | q
              · rw [hll, bindE_error] at h
                exact Except.noConfusion h
              · obtain ⟨xs0, o3⟩ := q
                rw [hll, bindE_ok] at h
                have h1 := congrArg Prod.fst (Except.ok.inj h)
                have h2 := congrArg Prod.snd (Except.ok.inj h)
                simp only at h1 h2
                subst h1
                subst h2
                obtain ⟨xs', hxs', hcxs⟩ := ihL t0 len0.toNat o2 xs0 o3 hll
                rw [hxs', bindE_ok]
                refine ⟨NTag.list t0 xs', rfl, fun hnn => ?_⟩
                rw [hcxs hnn]
          · rename_i hc
            rw [if_neg hc]
            rcases hz : readIntFixed buf le o1 with e | p2
            · rw [hz, bindE_error] at h
              exact Except.noConfusion h
            · obtain ⟨len0, o2⟩ := p2
              rw [hz, bindE_ok] at h
              dsimp only at h
              rw [readIntFixed_eq] at hz ⊢
              rw [fixedRead_ext 4 _ buf ext o1 len0 o2 hz, bindE_ok]
              dsimp only
              rcases hll : readListLoopF buf le varint f t0 len0.toNat o2
                  with e | q
              · rw [hll, bindE_error] at h
                exact Except.noConfusion h
              · obtain ⟨xs0, o3⟩ := q
                rw [hll, bindE_ok] at h
                have h1 := congrArg Prod.fst (Except.ok.inj h)
                have h2 := congrArg Prod.snd (Except.ok.inj h)
                simp only at h1 h2
                subst h1
                subst h2
                obtain ⟨xs', hxs', hcxs⟩ := ihL t0 len0.toNat o2 xs0 o3 hll
                rw [hxs', bindE_ok]
                refine ⟨NTag.list t0 xs', rfl, fun hnn => ?_⟩
                rw [hcxs hnn]
      | 10, h =>
        rcases hx : readCompoundLoopF buf le varint f [] off with e | p
        · rw [hx, bindE_error] at h
          exact Except.noConfusion h
        · obtain ⟨w, o⟩ := p
          rw [hx, bindE_ok] at h
          dsimp only at h
          have h1 := congrArg Prod.fst (Except.ok.inj h)
          have h2 := congrArg Prod.snd (Except.ok.inj h)
          simp only at h1 h2
          subst h1
          subst h2
          obtain ⟨w', hw', hcw⟩ := ihC [] off w o hx
          rw [show readTagF (buf ++ ext) le varint (f + 1) 10 off =
              (do
                let (entries, o) ←
                  readCompoundLoopF (buf ++ ext) le varint f [] off
                pure (NTag.compound entries, o)) from rfl]
          rw [hw', bindE_ok]
          exact ⟨NTag.compound w', rfl, fun hnn => by rw [hcw hnn]⟩
      | 11, h =>
        rcases hx : readIntV buf le varint f off with e | p
        · rw [hx, bindE_error] at h
          exact Except.noConfusion h
        · obtain ⟨len0, o1⟩ := p
          rw [hx] at h
          simp only [bindE_ok] at h
          rw [show readTagF (buf ++ ext) le varint (f + 1) 11 off =
              (do
                let (len, o1) ← readIntV (buf ++ ext) le varint f off
                if len < 0 then Except.error RdErr.rangeError
                else do
                  let (xs, o2) ←
                    readIntArrayLoop (buf ++ ext) le varint f len.toNat o1
                  pure (NTag.intArray xs, o2)) from rfl]
          rw [readIntV_ext buf ext le varint f off len0 o1 hx]
          simp only [bindE_ok]
          split at h
          · exact Except.noConfusion h
          · rename_i hc
            rw [if_neg hc]
            rcases hr : readIntArrayLoop buf le varint f len0.toNat o1
                with e | q
            · rw [hr, bindE_error] at h
              exact Except.noConfusion h
            · obtain ⟨ys, o2⟩ := q
              rw [hr, bindE_ok] at h
              have h1 := congrArg Prod.fst (Except.ok.inj h)
              have h2 := congrArg Prod.snd (Except.ok.inj h)
              simp only at h1 h2
              subst h1
              subst h2
              rw [readIntArrayLoop_ext buf ext le varint f len0.toNat o1
                ys o2 hr, bindE_ok]
              exact ⟨NTag.intArray ys, rfl, fun _ => rfl⟩
      | 12, h =>
        rcases hx : readIntV buf le varint f off with e | p
        · rw [hx, bindE_error] at h
          exact Except.noConfusion h
        · obtain ⟨len0, o1⟩ := p
          rw [hx] at h
          simp only [bindE_ok] at h
          rw [show readTagF (buf ++ ext) le varint (f + 1) 12 off =
              (do
                let (len, o1) ← readIntV (buf ++ ext) le varint f off
                if len < 0 then Except.error RdErr.rangeError
                else do
                  let (xs, o2) ←
                    readLongArrayLoop (buf ++ ext) le varint f len.toNat o1
                  pure (NTag.longArray xs, o2)) from rfl]
          rw [readIntV_ext buf ext le varint f off len0 o1 hx]
          simp only [bindE_ok]
          split at h
          · exact Except.noConfusion h
          · rename_i hc
            rw [if_neg hc]
            rcases hr : readLongArrayLoop buf le varint f len0.toNat o1
                with e | q
            · rw [hr, bindE_error] at h
              exact Except.noConfusion h
            · obtain ⟨ys, o2⟩ := q
              rw [hr, bindE_ok] at h
              have h1 := congrArg Prod.fst (Except.ok.inj h)
              have h2 := congrArg Prod.snd (Except.ok.inj h)
              simp only at h1 h2
              subst h1
              subst h2
              rw [readLongArrayLoop_ext buf ext le varint f len0.toNat o1
                ys o2 hr, bindE_ok]
              exact ⟨NTag.longArray ys, rfl, fun _ => rfl⟩
      | n + 13, h => exact Except.noConfusion h
    · intro t n off xs off2 h
      rcases n with _ | m
      · rw [show readListLoopF buf le varint (f + 1) t 0 off =
            pure ([], off) from rfl] at h
        have h1 := congrArg Prod.fst (Except.ok.inj h)
        have h2 := congrArg Prod.snd (Except.ok.inj h)
        simp only at h1 h2
        subst h1
        subst h2
        rw [show readListLoopF (buf ++ ext) le varint (f + 1) t 0 off =
            pure ([], off) from rfl]
        exact ⟨[], rfl, fun _ => rfl⟩
      · rw [show readListLoopF buf le varint (f + 1) t (m + 1) off =
            (do
              let (x, o1) ← readTagF buf le varint f t off
              let (xs, o2) ← readListLoopF buf le varint f t m o1
              pure (x :: xs, o2)) from rfl] at h
        rw [show readListLoopF (buf ++ ext) le varint (f + 1) t (m + 1)
              off =
            (do
              let (x, o1) ← readTagF (buf ++ ext) le varint f t off
              let (xs, o2) ← readListLoopF (buf ++ ext) le varint f t m o1
              pure (x :: xs, o2)) from rfl]
        rcases hx : readTagF buf le varint f t off with e | p
        · rw [hx, bindE_error] at h
          exact Except.noConfusion h
        · obtain ⟨x, o1⟩ := p
          rw [hx, bindE_ok] at h
          dsimp only at h
          obtain ⟨x', hx', hcx⟩ := ihT t off x o1 hx
          rw [hx', bindE_ok]
          dsimp only
          rcases hr : readListLoopF buf le varint f t m o1 with e | q
          · rw [hr, bindE_error] at h
            exact Except.noConfusion h
          · obtain ⟨ys, o2⟩ := q
            rw [hr, bindE_ok] at h
            have h1 := congrArg Prod.fst (Except.ok.inj h)
            have h2 := congrArg Prod.snd (Except.ok.inj h)
            simp only at h1 h2
            subst h1
            subst h2
            obtain ⟨ys', hys', hcys⟩ := ihL t m o1 ys o2 hr
            rw [hys', bindE_ok]
            refine ⟨x' :: ys', rfl, fun hnn => ?_⟩
            have ho1 : 0 ≤ o1 :=
              readListLoopF_back buf le varint f t m o1 ys o2 hr hnn
            rw [hcx ho1, hcys hnn]
    · intro acc off res off2 h
      unfold readCompoundLoopF at h
      rw [show readCompoundLoopF (buf ++ ext) le varint (f + 1) acc off =
          (do
            let (t, o1) ← readTagTypeP (buf ++ ext) off
            if t = 0 then pure (acc, o1)
            else do
              let (name, o2) ← readStringF (buf ++ ext) le varint f o1
              let (entry, o3) ← readTagF (buf ++ ext) le varint f t o2
              readCompoundLoopF (buf ++ ext) le varint f
                (upsert acc name entry) o3) from rfl]
      rcases ht : readTagTypeP buf off with e | p
      · rw [ht, bindE_error] at h
        exact Except.noConfusion h
      · obtain ⟨t0, o1⟩ := p
        rw [ht, bindE_ok] at h
        rw [readTagTypeP_ext buf ext off t0 o1 ht, bindE_ok]
        dsimp only at h ⊢
        split at h
        · rename_i hc
          rw [if_pos hc]
          have h1 := congrArg Prod.fst (Except.ok.inj h)
          have h2 := congrArg Prod.snd (Except.ok.inj h)
          simp only at h1 h2
          subst h1
          subst h2
          exact ⟨acc, rfl, fun _ => rfl⟩
        · rename_i hc
          rw [if_neg hc]
          rcases hs : readStringF buf le varint f o1 with e | p2
          · rw [hs, bindE_error] at h
            exact Except.noConfusion h
          · obtain ⟨name, o2⟩ := p2
            rw [hs, bindE_ok] at h
            dsimp only at h
            rcases he : readTagF buf le varint f t0 o2 with e | p3
            · rw [he, bindE_error] at h
              exact Except.noConfusion h
            · obtain ⟨entry, o3⟩ := p3
              rw [he, bindE_ok] at h
              dsimp only at h
              obtain ⟨name', hs', hcn⟩ := readStringF_ext buf ext le varint
                f o1 name o2 hs
              have ho2 : 0 ≤ o2 :=
                readTagF_start buf le varint f t0 o2 entry o3 he
              rw [hcn ho2] at hs'
              rw [hs', bindE_ok]
              dsimp only
              obtain ⟨entry', he', hce⟩ := ihT t0 o2 entry o3 he
              have ho3 : 0 ≤ o3 :=
                readCompoundLoopF_start buf le varint f
                  (upsert acc name entry) o3 res off2 h
              rw [hce ho3] at he'
              rw [he', bindE_ok]
              dsimp only
              obtain ⟨res', hrec, hcres⟩ := ihC (upsert acc name entry) o3
                res off2 h
              exact ⟨res', hrec, hcres⟩

end Nbtify

namespace Nbtify

theorem readRootF_eq (buf : Bytes) (le varint rootNameFlag bedrock
    strict : Bool) (fuel : ℕ) :
    readRootF buf le varint rootNameFlag bedrock strict fuel =
    (do
      let off1 ←
        if bedrock then do
          let (_, o1) ← readUnsignedIntV buf le varint fuel 0
          let (_, o2) ← readUnsignedIntV buf le varint fuel o1
          pure o2
        else pure (0 : ℤ)
      readRootTail buf le varint rootNameFlag strict fuel off1) := rfl

end Nbtify

namespace Nbtify

theorem bindE_pure {α β : Type} (a : α) (k : α → Except RdErr β) :
    (Bind.bind (pure a : Except RdErr α) k) = k a := rfl

theorem readRootTail_spec (buf s : Bytes) (le varint rootNameFlag : Bool)
    (fuel : ℕ) (off1 : ℤ) (res : ReadResult) (hs : s ≠ [])
    (h : readRootTail buf le varint rootNameFlag true fuel off1 =
      .ok res) :
    readRootTail (buf ++ s) le varint rootNameFlag true fuel off1 =
      .error (.trailing (buf.length : ℤ) (s.length : ℤ) res) ∧
    readRootTail (buf ++ s) le varint rootNameFlag false fuel off1 =
      .ok res := by
  have hslen : 1 ≤ s.length := by
    cases s with
    | nil => exact absurd rfl hs
    | cons a t => simp
  unfold readRootTail at h ⊢
  rcases ht : readTagTypeP buf off1 with e | p
  · rw [ht, bindE_error] at h
    exact Except.noConfusion h
  · obtain ⟨type, off2⟩ := p
    rw [ht, bindE_ok] at h
    dsimp only at h
    rw [readTagTypeP_ext buf s off1 type off2 ht]
    simp only [bindE_ok]
    split at h
    · exact Except.noConfusion h
    · rename_i hty
      rw [if_neg hty, if_neg hty]
      split at h
      · rename_i hrn
        rw [if_pos hrn, if_pos hrn]
        rcases hname : readStringF buf le varint fuel off2 with e | p2
        · rw [hname, bindE_error] at h
          exact Except.noConfusion h
        · obtain ⟨nm, off3⟩ := p2
          rw [hname, bindE_ok] at h
          dsimp only at h
          simp only [bindE_pure] at h
          rcases hroot : readTagF buf le varint fuel type off3 with e | p3
          · rw [hroot, bindE_error] at h
            exact Except.noConfusion h
          · obtain ⟨root, off4⟩ := p3
            rw [hroot, bindE_ok] at h
            dsimp only at h
            have hend := (readEndLe buf le varint fuel).1 type off3 root
              off4 hroot
            have ho3 : 0 ≤ off3 :=
              readTagF_start buf le varint fuel type off3 root off4 hroot
            split at h
            · exact Except.noConfusion h
            · rename_i hlast
              have ho4 : off4 = (buf.length : ℤ) := by
                have hng : ¬((buf.length : ℤ) > off4) := fun hgt =>
                  hlast ⟨trivial, hgt⟩
                omega
              have hres : res = ⟨root, some nm⟩ := (Except.ok.inj h).symm
              obtain ⟨nm', hs', hcn⟩ := readStringF_ext buf s le varint
                fuel off2 nm off3 hname
              rw [hcn ho3] at hs'
              obtain ⟨root', hroot', hcr⟩ :=
                (readExtAll buf s le varint fuel).1 type off3 root off4
                  hroot
              rw [hcr (by omega)] at hroot'
              rw [hs']
              simp only [bindE_ok, bindE_pure]
              rw [hroot']
              simp only [bindE_ok]
              have harg : ((buf ++ s).length : ℤ) - (buf.length : ℤ) =
                  (s.length : ℤ) := by
                simp only [List.length_append]
                push_cast
                ring
              constructor
              · rw [if_pos ⟨by trivial, by
                  simp only [List.length_append]
                  push_cast
                  omega⟩]
                rw [hres, ho4, harg]
              · rw [if_neg (fun hcc => by simpa using hcc.1)]
                rw [hres]
                rfl
      · rename_i hrn
        rw [if_neg hrn, if_neg hrn]
        simp only [bindE_pure] at h ⊢
        rcases hroot : readTagF buf le varint fuel type off2 with e | p3
        · rw [hroot, bindE_error] at h
          exact Except.noConfusion h
        · obtain ⟨root, off4⟩ := p3
          rw [hroot, bindE_ok] at h
          dsimp only at h
          have hend := (readEndLe buf le varint fuel).1 type off2 root
            off4 hroot
          split at h
          · exact Except.noConfusion h
          · rename_i hlast
            have ho4 : off4 = (buf.length : ℤ) := by
              have hng : ¬((buf.length : ℤ) > off4) := fun hgt =>
                hlast ⟨trivial, hgt⟩
              omega
            have hres : res = ⟨root, none⟩ := (Except.ok.inj h).symm
            obtain ⟨root', hroot', hcr⟩ :=
              (readExtAll buf s le varint fuel).1 type off2 root off4
                hroot
            rw [hcr (by omega)] at hroot'
            rw [hroot']
            simp only [bindE_ok]
            have harg : ((buf ++ s).length : ℤ) - (buf.length : ℤ) =
                (s.length : ℤ) := by
              simp only [List.length_append]
              push_cast
              ring
            constructor
            · rw [if_pos ⟨by trivial, by
                simp only [List.length_append]
                push_cast
                omega⟩]
              rw [hres, ho4, harg]
            · rw [if_neg (fun hcc => by simpa using hcc.1)]
              rw [hres]
              rfl

end Nbtify

namespace Nbtify

/-- C7: appending a non-empty suffix to a buffer that reads successfully
in strict mode makes the strict read fail with the overrun error carrying
the byte offset, the remaining-byte count and the parsed tree, while the
non-strict read returns the same tree as the unextended buffer. -/
theorem c7_strict_overrun (buf s : Bytes)
    (le varint rootNameFlag bedrock : Bool) (fuel : ℕ) (res : ReadResult)
    (hs : s ≠ [])
    (h : readRootF buf le varint rootNameFlag bedrock true fuel =
      .ok res) :
    readRootF (buf ++ s) le varint rootNameFlag bedrock true fuel =
      .error (.trailing (buf.length : ℤ) (s.length : ℤ) res) ∧
    readRootF (buf ++ s) le varint rootNameFlag bedrock false fuel =
      .ok res := by
  rw [readRootF_eq] at h
  rw [readRootF_eq, readRootF_eq]
  split at h
  · rename_i hb
    rcases hb1 : readUnsignedIntV buf le varint fuel 0 with e | p1
    · rw [hb1, bindE_error] at h
      exact Except.noConfusion h
    · obtain ⟨w1, o1⟩ := p1
      rw [hb1, bindE_ok] at h
      dsimp only at h
      rcases hb2 : readUnsignedIntV buf le varint fuel o1 with e | p2
      · rw [hb2, bindE_error] at h
        exact Except.noConfusion h
      · obtain ⟨w2, o2⟩ := p2
        rw [hb2, bindE_ok] at h
        dsimp only at h
        simp only [bindE_pure] at h
        obtain ⟨hA, hB⟩ := readRootTail_spec buf s le varint rootNameFlag
          fuel o2 res hs h
        rw [if_pos hb, if_pos hb]
        rw [readUnsignedIntV_ext buf s le varint fuel 0 w1 o1 hb1]
        simp only [bindE_ok]
        rw [readUnsignedIntV_ext buf s le varint fuel o1 w2 o2 hb2]
        simp only [bindE_ok, bindE_pure]
        exact ⟨hA, hB⟩
  · rename_i hb
    simp only [bindE_pure] at h
    obtain ⟨hA, hB⟩ := readRootTail_spec buf s le varint rootNameFlag
      fuel 0 res hs h
    rw [if_neg hb, if_neg hb]
    simp only [bindE_pure]
    exact ⟨hA, hB⟩

theorem c7_strict_overrun_witness :
    readRootF ([10, 0] ++ [255]) false false false false true 2 =
      .error (.trailing 2 1 ⟨.compound [], none⟩) ∧
    readRootF ([10, 0] ++ [255]) false false false false false 2 =
      .ok ⟨.compound [], none⟩ :=
  c7_strict_overrun [10, 0] [255] false false false false 2
    ⟨.compound [], none⟩ (by decide) (by rfl)

end Nbtify

namespace Nbtify

/-- C3: the SNBT parser sends the lowercase token `true` to the boolean
tag `true` (binary BYTE 1), but — because `#readTag` converts the
matched token with JavaScript `Boolean(string)`, which is true for every
nonempty string — it also sends `false` to the boolean tag `true`
(binary BYTE 1, not the claimed BYTE 0).  Non-lowercase spellings such
as `True` fall through to STRING as claimed. -/
theorem c3_boolean_parse :
    sReadTag "true".toList 1 0 = .ok (.boolean true, 4) ∧
    sReadTag "false".toList 1 0 = .ok (.boolean true, 5) ∧
    sReadTag "True".toList 1 0 = .ok (.str "True".toList, 4) ∧
    writeTagW false (.boolean true) = .ok [1] ∧
    writeTagW false (.boolean false) = .ok [0] :=
  ⟨rfl, rfl, rfl, rfl, rfl⟩

/-- C2: the SNBT round-trip fails on the compound `{a: false}` — the
writer prints the boolean as `false`, and the parser converts the token
back with `Boolean("false") = true`, so the reparsed tree holds
`{a: true}`. -/
theorem c2_roundtrip_false_boolean :
    snbtStringify 2 (SnbtTag.compound [("a".toList, .boolean false)]) =
      some (lbraceChar :: ("a:false".toList ++ [rbraceChar])) ∧
    snbtParse (lbraceChar :: ("a:false".toList ++ [rbraceChar])) 9 =
      .ok (.compound [("a".toList, .boolean true)]) ∧
    SnbtTag.compound [("a".toList, .boolean true)] ≠
      SnbtTag.compound [("a".toList, .boolean false)] := by
  refine ⟨rfl, rfl, ?_⟩
  simp

end Nbtify
